import Mathlib

/-!
# A verification development for the spreadsheet engine

Shallow embedding of `cell.cpp`, `formula.cpp` and `sheet.cpp`.

* A `std::string` is the list of its characters.
* A `Cell*` is the position of the cell inside the owning sheet. The map
  `sheet_` never erases an entry and `emplace` only adds an entry for a key
  that is absent, so a sheet creates at most one `Cell` object per position
  and the position identifies the object. A pointer to a destroyed cell is a
  position whose map entry holds the null `unique_ptr`.
* `std::unordered_set<Cell*>` is a duplicate-free list of positions.
* Every mutating operation returns the sheet it leaves behind together with
  the fault that ended it, if any: a C++ exception, a dereference of a null or
  dangling pointer, or exhaustion of the recursion budget of the embedding.
-/

namespace Spreadsheet

/-- A `std::string`. -/
abbrev Str := List Char

/-- The struct `Position` of `common.h`. -/
structure Position where
  row : Int
  col : Int
deriving DecidableEq, Repr

/-- Modelled from the spec: `common.h` is not under `src/`; the bound of
`Position::IsValid` is the 16384 that section 3 of the specification names. -/
def Position.MAX_ROWS : Int := 16384

/-- Modelled from the spec: `common.h` is not under `src/`; see `MAX_ROWS`. -/
def Position.MAX_COLS : Int := 16384

/-- Modelled from the spec: `Position::IsValid` (`common.h` is not under
`src/`): both components are non-negative and below the fixed bound. -/
def Position.IsValid (p : Position) : Bool :=
  decide (0 ≤ p.row) && decide (0 ≤ p.col) &&
    decide (p.row < Position.MAX_ROWS) && decide (p.col < Position.MAX_COLS)

/-- Modelled from the spec: the formula marker `FORMULA_SIGN` of `common.h`. -/
def FORMULA_SIGN : Char := '='

/-- Modelled from the spec: the escape marker `ESCAPE_SIGN` of `common.h`
(the apostrophe, code point 39). -/
def ESCAPE_SIGN : Char := Char.ofNat 39

/-- The enumeration `FormulaError::Category`. -/
inductive Category
  | Ref
  | Value
  | Arithmetic
deriving DecidableEq, Repr

/-- A `double`. No statement of this development depends on floating-point
arithmetic: numbers are only produced by the parsed expression and by the
text-to-number conversion, which are both supplied from outside. -/
abbrev Number := Int

/-- The variant `FormulaInterface::Value`: a number or an error. -/
inductive FValue
  | number (d : Number)
  | error (e : Category)
deriving DecidableEq, Repr

/-- The variant `CellInterface::Value`: text, a number or an error. -/
inductive Value
  | text (t : Str)
  | number (d : Number)
  | error (e : Category)
deriving DecidableEq, Repr

/-- What ends an operation early. The first five are the C++ exceptions of the
program; `nullDereference` is the dereference of a null or dangling pointer
(undefined behaviour); `fuelExhausted` is the recursion budget of the
embedding running out. -/
inductive Fault
  | InvalidPositionException
  | CircularDependencyException
  | FormulaException
  | logic_error
  | bad_variant_access
  | nullDereference
  | fuelExhausted
deriving DecidableEq, Repr

/-- The faults that are C++ exceptions thrown to the caller. -/
def Fault.isException : Fault → Bool
  | .InvalidPositionException => true
  | .CircularDependencyException => true
  | .FormulaException => true
  | .logic_error => true
  | .bad_variant_access => true
  | .nullDereference => false
  | .fuelExhausted => false

/-- Modelled from the spec: the run of `FormulaAST::Execute` (`FormulaAST.h`
is not under `src/`). Section 6 of the specification only fixes that the
expression is evaluated against a resolver from positions to numbers; a run is
therefore any deterministic sequence of resolver calls that ends in a number
or in an arithmetic error. -/
inductive Exec
  | done (d : Number)
  | fail (e : Category)
  | ask (p : Position) (k : Number → Exec)

/-- Modelled from the spec: the class `FormulaAST` (`FormulaAST.h` is not
under `src/`): the positions `GetCells()` enumerates, the run of `Execute`,
and the text `PrintFormula` renders. -/
structure FormulaAST where
  cells : List Position
  body : Exec
  expression : Str

/-- The external collaborators: `ParseFormulaAST` (which throws on malformed
text, here `none`) and the conversion `in >> result` of a whole text to a
number. -/
structure Env where
  ParseFormulaAST : Str → Option FormulaAST
  readNumber : Str → Option Number

/-- The algorithm `std::unique`: every run of equal neighbours keeps one element. -/
def unique : List Position → List Position
  | [] => []
  | [a] => [a]
  | a :: b :: rest => if a = b then unique (b :: rest) else a :: unique (b :: rest)

/-- `Formula::GetReferencedCells` on the list that `ast_.GetCells()` returns. -/
def referencedOf (cells : List Position) : List Position :=
  unique (cells.filter fun c => c.IsValid)

/-- `Formula::GetReferencedCells`. -/
def FormulaAST.GetReferencedCells (f : FormulaAST) : List Position :=
  referencedOf f.cells

/-- `Formula::GetExpression`. -/
def FormulaAST.GetExpression (f : FormulaAST) : Str := f.expression

/-- The constructor of `Formula` behind `ParseFormula`: any exception of the
parser becomes a `FormulaException`. -/
def ParseFormula (env : Env) (expression : Str) : Except Fault FormulaAST :=
  match env.ParseFormulaAST expression with
  | none => .error .FormulaException
  | some ast => .ok ast

/-- The three subclasses of `Cell::Impl`, with the fields they own. -/
inductive Impl
  | EmptyImpl
  | TextImpl (text_ : Str)
  | FormulaImpl (formula_ptr_ : FormulaAST) (cache_ : Option FValue)

/-- The constructor `TextImpl::TextImpl`. -/
def Impl.newText (text : Str) : Except Fault Impl :=
  if text.isEmpty then .error .logic_error else .ok (.TextImpl text)

/-- The constructor `FormulaImpl::FormulaImpl`. -/
def Impl.newFormula (env : Env) (expression : Str) : Except Fault Impl :=
  match expression with
  | [] => .error .logic_error
  | c :: rest =>
    if c ≠ FORMULA_SIGN then .error .logic_error
    else
      match ParseFormula env rest with
      | .error e => .error e
      | .ok f => .ok (.FormulaImpl f none)

/-- `Impl::GetText`. -/
def Impl.GetText : Impl → Str
  | .EmptyImpl => []
  | .TextImpl t => t
  | .FormulaImpl f _ => FORMULA_SIGN :: f.GetExpression

/-- `Impl::GetReferencedCells`. -/
def Impl.GetReferencedCells : Impl → List Position
  | .EmptyImpl => []
  | .TextImpl _ => []
  | .FormulaImpl f _ => f.GetReferencedCells

/-- `Impl::IsCacheValid`. -/
def Impl.IsCacheValid : Impl → Bool
  | .EmptyImpl => true
  | .TextImpl _ => true
  | .FormulaImpl _ cache => cache.isSome

/-- `Impl::InvalidateCache`. -/
def Impl.InvalidateCache : Impl → Impl
  | .EmptyImpl => .EmptyImpl
  | .TextImpl t => .TextImpl t
  | .FormulaImpl f _ => .FormulaImpl f none

/-- The class `Cell`: its content and its two adjacency sets. -/
structure Cell where
  impl_ : Impl
  left_nods_ : List Position
  right_nods_ : List Position

/-- The constructor `Cell::Cell`. -/
def Cell.new : Cell := ⟨.EmptyImpl, [], []⟩

/-- `Cell::IsReferenced`. -/
def Cell.IsReferenced (c : Cell) : Bool := !c.left_nods_.isEmpty

/-- `std::unordered_set::insert`. -/
def setInsert (x : Position) (xs : List Position) : List Position :=
  if x ∈ xs then xs else xs ++ [x]

/-- `std::unordered_set::erase`. -/
def setErase (x : Position) (xs : List Position) : List Position :=
  xs.filter fun y => decide (y ≠ x)

/-- The map `sheet_` of `Sheet`: each entry owns a `unique_ptr<Cell>`, which is
`none` once `reset`. -/
abbrev Sheet := List (Position × Option Cell)

/-- What a mutating operation leaves behind. -/
abbrev Res := Sheet × Option Fault

/-- Sequencing of two statements: the second runs only if the first did not fault. -/
def Res.andThen (r : Res) (f : Sheet → Res) : Res :=
  match r with
  | (s, none) => f s
  | (s, some e) => (s, some e)

/-- A range-based `for` loop over `xs` whose body may fault: the iterations run
in order and stop at the first fault. -/
def forEach {α : Type} (body : Sheet → α → Res) : List α → Sheet → Res
  | [], s => (s, none)
  | x :: rest, s => (body s x).andThen (forEach body rest)

/-- The constructor of an empty `Sheet`. -/
def Sheet.empty : Sheet := []

/-- `sheet_.find(pos)`: `none` for `end()`, otherwise the owned pointer. -/
def Sheet.find : Sheet → Position → Option (Option Cell)
  | [], _ => none
  | (q, v) :: rest, p => if q = p then some v else Sheet.find rest p

/-- What a `Cell*` points to: `none` when the pointer is null or dangling. -/
def Sheet.cell (s : Sheet) (p : Position) : Option Cell :=
  match s.find p with
  | some (some c) => some c
  | _ => none

/-- `sheet_.emplace(pos, ...)`: adds an entry unless the key is present. -/
def Sheet.emplace (s : Sheet) (p : Position) (c : Cell) : Sheet :=
  match s.find p with
  | none => s ++ [(p, some c)]
  | some _ => s

/-- Assignment through the entry of `p` (a write to the cell, or `reset`). -/
def Sheet.put : Sheet → Position → Option Cell → Sheet
  | [], _, _ => []
  | (q, v) :: rest, p, w =>
    if q = p then (q, w) :: rest else (q, v) :: Sheet.put rest p w

/-- `Sheet::GetCellPtr`: the pointer stored for `pos`, null when there is no
entry or the entry was reset. -/
def Sheet.GetCellPtr (s : Sheet) (pos : Position) : Except Fault (Option Position) :=
  if !pos.IsValid then .error .InvalidPositionException
  else
    match s.find pos with
    | none => .ok none
    | some none => .ok none
    | some (some _) => .ok (some pos)

/-- `Cell::RemoveDependency`, on the cell `self`. -/
def Cell.RemoveDependency (s : Sheet) (self cell : Position) : Res :=
  match s.cell self with
  | none => (s, some .nullDereference)
  | some c => (s.put self (some { c with left_nods_ := setErase cell c.left_nods_ }), none)

/-- `Cell::AddDependency`, on the cell `self`. -/
def Cell.AddDependency (s : Sheet) (self cell : Position) : Res :=
  match s.cell self with
  | none => (s, some .nullDereference)
  | some c => (s.put self (some { c with left_nods_ := setInsert cell c.left_nods_ }), none)

/-- `Cell::RemoveDependenciesFrom`, on the cell `self`. -/
def Cell.RemoveDependenciesFrom (s : Sheet) (self cell : Position) : Res :=
  match s.cell self with
  | none => (s, some .nullDereference)
  | some c =>
    forEach (fun s1 outgoing => Cell.RemoveDependency s1 outgoing cell) c.right_nods_ s

/-- `Cell::DoInvalidCache`, on the cell `self`; the first argument bounds the
depth of the recursion. -/
def Cell.DoInvalidCache : Nat → Sheet → Position → Bool → Res
  | 0, s, _, _ => (s, some .fuelExhausted)
  | n + 1, s, self, check_changes =>
    match s.cell self with
    | none => (s, some .nullDereference)
    | some c =>
      if c.impl_.IsCacheValid || check_changes then
        forEach (fun s1 incoming => Cell.DoInvalidCache n s1 incoming false) c.left_nods_
          (s.put self (some { c with impl_ := c.impl_.InvalidateCache }))
      else (s, none)

/-- The first loop of `Cell::CheckForCyclicity`: the pointers of the referenced positions. -/
def Cell.collectReferenced (s : Sheet) : List Position → Except Fault (List (Option Position))
  | [] => .ok []
  | pos :: rest =>
    match s.GetCellPtr pos with
    | .error e => .error e
    | .ok ptr =>
      match Cell.collectReferenced s rest with
      | .error e => .error e
      | .ok ptrs => .ok (ptr :: ptrs)

/-- The `while` loop of `Cell::CheckForCyclicity`; the stack `to_visit` has its
top at the head, and the first argument bounds the number of iterations. -/
def Cell.cyclicityLoop (s : Sheet) (referenced : List (Option Position)) :
    Nat → List Position → List Position → Except Fault Bool
  | _, _, [] => .ok false
  | 0, _, _ :: _ => .error .fuelExhausted
  | n + 1, visited, current :: to_visit =>
    if some current ∈ referenced then .ok true
    else
      match s.cell current with
      | none => .error .nullDereference
      | some c =>
        Cell.cyclicityLoop s referenced n (setInsert current visited)
          ((c.left_nods_.filter fun incoming =>
              decide (incoming ∉ setInsert current visited)).reverse ++ to_visit)

/-- A bound on the iterations of the loop of `CheckForCyclicity`: one pop for the
start and one per push, and a cell pushes its dependents once. -/
def Sheet.searchFuel : Sheet → Nat
  | [] => 1
  | (_, none) :: rest => Sheet.searchFuel rest
  | (_, some c) :: rest => 1 + c.left_nods_.length + Sheet.searchFuel rest

/-- `Cell::CheckForCyclicity`, on the cell `self`. -/
def Cell.CheckForCyclicity (s : Sheet) (self : Position) (impl : Impl) : Except Fault Bool :=
  if impl.GetReferencedCells.isEmpty then .ok false
  else
    match Cell.collectReferenced s impl.GetReferencedCells with
    | .error e => .error e
    | .ok referenced => Cell.cyclicityLoop s referenced s.searchFuel [] [self]

/-- The choice of the new `Impl` at the head of `Cell::Set`. -/
def Cell.makeImpl (env : Env) (text : Str) : Except Fault Impl :=
  match text with
  | [] => .ok .EmptyImpl
  | c :: rest =>
    if 1 < (c :: rest).length ∧ c = FORMULA_SIGN then Impl.newFormula env (c :: rest)
    else Impl.newText (c :: rest)

/-- One iteration of the `for` loop of `Cell::Set`; `SetCell` is `Sheet::SetCell`. -/
def Cell.linkStep (SetCell : Sheet → Position → Str → Res) (self : Position)
    (s : Sheet) (pos : Position) : Res :=
  let link (s1 : Sheet) (outgoing : Position) : Res :=
    match s1.cell self with
    | none => (s1, some .nullDereference)
    | some c =>
      Cell.AddDependency
        (s1.put self (some { c with right_nods_ := setInsert outgoing c.right_nods_ }))
        outgoing self
  match s.GetCellPtr pos with
  | .error e => (s, some e)
  | .ok (some outgoing) => link s outgoing
  | .ok none =>
    (SetCell s pos []).andThen fun s1 =>
      match s1.GetCellPtr pos with
      | .error e => (s1, some e)
      | .ok none => (s1, some .nullDereference)
      | .ok (some outgoing) => link s1 outgoing

/-- A bound on the depth of the recursion of `DoInvalidCache`. -/
def Sheet.invalidateFuel (s : Sheet) : Nat := s.length + 2

/-- `Cell::Set`, on the cell `self`, with `Sheet::SetCell` passed in. -/
def Cell.SetWith (SetCell : Sheet → Position → Str → Res) (env : Env)
    (s : Sheet) (self : Position) (text : Str) : Res :=
  match s.cell self with
  | none => (s, some .nullDereference)
  | some _ =>
    match Cell.makeImpl env text with
    | .error e => (s, some e)
    | .ok impl =>
      match Cell.CheckForCyclicity s self impl with
      | .error e => (s, some e)
      | .ok true => (s, some .CircularDependencyException)
      | .ok false =>
        (Cell.RemoveDependenciesFrom s self self).andThen fun s1 =>
          match s1.cell self with
          | none => (s1, some .nullDereference)
          | some c =>
            Res.andThen
              (forEach (Cell.linkStep SetCell self) impl.GetReferencedCells
                (s1.put self (some { c with impl_ := impl })))
              fun s3 => Cell.DoInvalidCache s3.invalidateFuel s3 self true

/-- `Sheet::SetCell`; the first argument bounds the depth of the mutual
recursion with `Cell::Set`. -/
def Sheet.SetCellFuel (env : Env) : Nat → Sheet → Position → Str → Res
  | 0, s, _, _ => (s, some .fuelExhausted)
  | n + 1, s, pos, text =>
    if !pos.IsValid then (s, some .InvalidPositionException)
    else Cell.SetWith (Sheet.SetCellFuel env n) env (s.emplace pos Cell.new) pos text

/-- `Cell::Set`: the nested `Sheet::SetCell` is called with the empty text only,
whose own loop is empty, so one further level of recursion is all it needs. -/
def Cell.Set (env : Env) (s : Sheet) (self : Position) (text : Str) : Res :=
  Cell.SetWith (Sheet.SetCellFuel env 1) env s self text

/-- `Sheet::SetCell`. -/
def Sheet.SetCell (env : Env) (s : Sheet) (pos : Position) (text : Str) : Res :=
  Sheet.SetCellFuel env 2 s pos text

/-- `Cell::Clear`. -/
def Cell.Clear (env : Env) (s : Sheet) (self : Position) : Res :=
  Cell.Set env s self []

/-- `Sheet::ClearCell`. -/
def Sheet.ClearCell (env : Env) (s : Sheet) (pos : Position) : Res :=
  if !pos.IsValid then (s, some .InvalidPositionException)
  else
    match s.find pos with
    | some (some _) =>
      (Cell.Clear env s pos).andThen fun s1 =>
        match s1.cell pos with
        | none => (s1, some .nullDereference)
        | some c => if !c.IsReferenced then (s1.put pos none, none) else (s1, none)
    | _ => (s, none)

/-- `Sheet::GetCell`: the cell stored at `pos`, `none` for a null pointer. -/
def Sheet.GetCell (s : Sheet) (pos : Position) : Except Fault (Option Cell) :=
  match s.GetCellPtr pos with
  | .error e => .error e
  | .ok none => .ok none
  | .ok (some p) => .ok (s.cell p)

/-! ## Reading values -/

/-- The state a read threads: the sheet, whose caches a read may populate, and the log
of the cells whose formula `Formula::Evaluate` has run on, in order (the evaluation
counter of the tests). -/
abbrev Reading := Sheet × List Position

/-- `TextImpl::GetValue`. -/
def Impl.textValue (text_ : Str) : Str :=
  match text_ with
  | [] => []
  | c :: rest => if c = ESCAPE_SIGN then rest else c :: rest

/-- `ast_.Execute(args)` inside the `try` block of `Formula::Evaluate`: a
`FormulaError` thrown by the resolver `args` ends the run and is what the `catch`
returns. -/
def Formula.run (args : Reading → Position → Reading × Except Fault FValue) :
    Exec → Reading → Reading × Except Fault FValue
  | .done d, st => (st, .ok (.number d))
  | .fail e, st => (st, .ok (.error e))
  | .ask p k, st =>
    match args st p with
    | (st1, .error f) => (st1, .error f)
    | (st1, .ok (.error e)) => (st1, .ok (.error e))
    | (st1, .ok (.number d)) => Formula.run args (k d) st1

/-- The lambda `args` of `Formula::Evaluate`; `getValue` is `cell->GetValue()`, and a
thrown `FormulaError` is the result `FValue.error`. -/
def Formula.args (env : Env) (getValue : Reading → Position → Reading × Except Fault Value)
    (st : Reading) (p : Position) : Reading × Except Fault FValue :=
  if !p.IsValid then (st, .ok (.error .Ref))
  else
    match st.1.GetCellPtr p with
    | .error f => (st, .error f)
    | .ok none => (st, .ok (.number 0))
    | .ok (some cell) =>
      match getValue st cell with
      | (st1, .error f) => (st1, .error f)
      | (st1, .ok (.number _)) =>
        match getValue st1 cell with
        | (st2, .error f) => (st2, .error f)
        | (st2, .ok (.number d)) => (st2, .ok (.number d))
        | (st2, .ok _) => (st2, .error .bad_variant_access)
      | (st1, .ok _) =>
        match getValue st1 cell with
        | (st2, .error f) => (st2, .error f)
        | (st2, .ok (.text _)) =>
          match getValue st2 cell with
          | (st3, .error f) => (st3, .error f)
          | (st3, .ok (.text value)) =>
            if value.isEmpty then (st3, .ok (.number 0))
            else
              match env.readNumber value with
              | some result => (st3, .ok (.number result))
              | none => (st3, .ok (.error .Value))
          | (st3, .ok _) => (st3, .error .bad_variant_access)
        | (st2, .ok _) =>
          match getValue st2 cell with
          | (st3, .error f) => (st3, .error f)
          | (st3, .ok (.error e)) => (st3, .ok (.error e))
          | (st3, .ok _) => (st3, .error .bad_variant_access)

/-- `Formula::Evaluate` for the formula of the cell `self`; the call is logged. -/
def Formula.Evaluate (env : Env)
    (getValue : Reading → Position → Reading × Except Fault Value)
    (f : FormulaAST) (self : Position) (st : Reading) : Reading × Except Fault FValue :=
  Formula.run (Formula.args env getValue) f.body (st.1, st.2 ++ [self])

/-- The assignment `cache_ = ...` of `FormulaImpl::GetValue`, on the cell `self`. -/
def Cell.storeCache (st : Reading) (self : Position) (v : FValue) : Reading × Option Fault :=
  match st.1.cell self with
  | some ⟨.FormulaImpl f _, l, r⟩ =>
    ((st.1.put self (some ⟨.FormulaImpl f (some v), l, r⟩), st.2), none)
  | _ => (st, some .nullDereference)

/-- `Cell::GetValue`, on the cell `self`; the first argument bounds the depth of the
recursion through the resolver. -/
def Cell.GetValue (env : Env) : Nat → Reading → Position → Reading × Except Fault Value
  | 0, st, _ => (st, .error .fuelExhausted)
  | n + 1, st, self =>
    match st.1.cell self with
    | none => (st, .error .nullDereference)
    | some c =>
      match c.impl_ with
      | .EmptyImpl => (st, .ok (.text []))
      | .TextImpl text_ => (st, .ok (.text (Impl.textValue text_)))
      | .FormulaImpl formula_ptr_ cache_ =>
        let filled : Reading × Option Fault :=
          match cache_ with
          | some _ => (st, none)
          | none =>
            match Formula.Evaluate env (Cell.GetValue env n) formula_ptr_ self st with
            | (st1, .error f) => (st1, some f)
            | (st1, .ok v) => Cell.storeCache st1 self v
        match filled with
        | (st1, some f) => (st1, .error f)
        | (st1, none) =>
          match Formula.Evaluate env (Cell.GetValue env n) formula_ptr_ self st1 with
          | (st2, .error f) => (st2, .error f)
          | (st2, .ok (.number d)) => (st2, .ok (.number d))
          | (st2, .ok (.error e)) => (st2, .ok (.error e))

/-- A bound on the depth of the recursion of `GetValue`: a chain of nested reads
visits each cell at most once. -/
def Sheet.readFuel (s : Sheet) : Nat := s.length + 1

/-- A client read `GetCell(pos)->GetValue()` on the sheet `s`, with an empty log. -/
def Sheet.GetValue (env : Env) (s : Sheet) (pos : Position) : Reading × Except Fault Value :=
  match s.GetCellPtr pos with
  | .error f => ((s, []), .error f)
  | .ok none => ((s, []), .error .nullDereference)
  | .ok (some cell) => Cell.GetValue env s.readFuel (s, []) cell

/-! ## The dependency graph of a sheet -/

/-- The dependents set `left_nods_` of the cell `p` points to (empty without a cell). -/
def Sheet.left (s : Sheet) (p : Position) : List Position :=
  match s.cell p with
  | some c => c.left_nods_
  | none => []

/-- The dependency set `right_nods_` of the cell `p` points to (empty without a cell). -/
def Sheet.right (s : Sheet) (p : Position) : List Position :=
  match s.cell p with
  | some c => c.right_nods_
  | none => []

/-- The positions `GetReferencedCells` returns for the cell `p` points to. -/
def Sheet.refs (s : Sheet) (p : Position) : List Position :=
  match s.cell p with
  | some c => c.impl_.GetReferencedCells
  | none => []

/-- The relation that `CheckForCyclicity` and `DoInvalidCache` follow: `y` is in
the dependents set of `x`. -/
def Sheet.Dependent (s : Sheet) (x y : Position) : Prop := y ∈ s.left x

/-- The work left for the loop of `CheckForCyclicity`: one pop and one push per
dependent for every cell that is not yet visited. -/
def Sheet.searchWeight : Sheet → List Position → Nat
  | [], _ => 0
  | (_, none) :: rest, vis => Sheet.searchWeight rest vis
  | (p, some c) :: rest, vis =>
    (if p ∈ vis then 0 else 1 + c.left_nods_.length) + Sheet.searchWeight rest vis

/-- A cell with its cache cleared: what `DoInvalidCache` cannot change. -/
def Cell.shape (c : Cell) : Cell := { c with impl_ := c.impl_.InvalidateCache }

/-- The content is a formula. -/
def Impl.isFormula : Impl → Bool
  | .FormulaImpl _ _ => true
  | _ => false

/-- The content is a formula with a populated cache. -/
def Impl.isCached : Impl → Bool
  | .FormulaImpl _ (some _) => true
  | _ => false

/-- The number of map entries whose formula holds a populated cache. -/
def Sheet.validCaches : Sheet → Nat
  | [] => 0
  | (_, none) :: rest => Sheet.validCaches rest
  | (_, some c) :: rest => (if c.impl_.isCached then 1 else 0) + Sheet.validCaches rest

/-- The pointer `q` leads to a cell whose content is a formula. -/
def Sheet.formulaAt (s : Sheet) (q : Position) : Prop :=
  ∃ c, s.cell q = some c ∧ c.impl_.isFormula = true

/-- The sheets `s` and `s2` differ at most in the caches of their formulas. -/
structure Sheet.CacheOnly (s s2 : Sheet) : Prop where
  cells : ∀ q, (s2.cell q).map Cell.shape = (s.cell q).map Cell.shape
  slots : ∀ q, (s2.find q).isSome = (s.find q).isSome
  length : s2.length = s.length

/-- The content of the cell `q` points to; a position without a cell reads as empty. -/
def Sheet.implAt (s : Sheet) (q : Position) : Impl :=
  match s.cell q with
  | some c => c.impl_
  | none => .EmptyImpl

/-- What the `for` loop of `Cell::Set` over the positions `xs` does to the sheet:
the listed positions hold cells afterwards, no content changes, the cell `owner`
acquires the listed cells as dependencies and they acquire it as a dependent. -/
structure Sheet.Linked (owner : Position) (xs : List Position) (s s2 : Sheet) : Prop where
  live : ∀ q, (s2.cell q).isSome = true ↔ ((s.cell q).isSome = true ∨ q ∈ xs)
  impl : ∀ q, s2.implAt q = s.implAt q
  left : ∀ q b, b ∈ s2.left q ↔ (b ∈ s.left q ∨ (b = owner ∧ q ∈ xs))
  right : ∀ q b, b ∈ s2.right q ↔ (b ∈ s.right q ∨ (q = owner ∧ b ∈ xs))

/-- The dependency relation of a sheet: the current content of the cell at `x`
references the position `y`. -/
def Sheet.DependsOn (s : Sheet) (x y : Position) : Prop := y ∈ s.refs x

/-- The invariant of the graph: the dependents sets mirror the references of the
current contents, every referenced position holds a cell, the dependency set of a
cell covers its current references, and the dependency relation has no cycle. -/
structure Sheet.WF (s : Sheet) : Prop where
  left_iff : ∀ a b, b ∈ s.left a ↔ a ∈ s.refs b
  refs_live : ∀ a b, a ∈ s.refs b → (s.cell a).isSome = true
  refs_right : ∀ a b, a ∈ s.refs b → a ∈ s.right b
  acyclic : ∀ p, ¬ Relation.TransGen s.DependsOn p p

/-- What a completed `Cell::Set` of the content `content` on the cell `owner` does to the
graph of the sheet. -/
structure Sheet.SetPost (owner : Position) (content : Impl) (s s2 : Sheet) : Prop where
  live : ∀ q, (s2.cell q).isSome = true ↔
    ((s.cell q).isSome = true ∨ q ∈ content.GetReferencedCells)
  impl : ∀ q, (s2.implAt q).InvalidateCache =
    if q = owner then content.InvalidateCache else (s.implAt q).InvalidateCache
  left : ∀ q b, b ∈ s2.left q ↔
    ((b ∈ s.left q ∧ ¬ (b = owner ∧ q ∈ s.right owner)) ∨
      (b = owner ∧ q ∈ content.GetReferencedCells))
  right : ∀ q b, b ∈ s2.right q ↔
    (b ∈ s.right q ∨ (q = owner ∧ b ∈ content.GetReferencedCells))

/-- The sheets a client can hold after finitely many `SetCell` and `ClearCell` calls
on an empty sheet. A call that throws counts (the sheet it leaves behind is
reachable); a call that dereferences a null or dangling pointer has undefined
behaviour and leaves no state to observe. -/
inductive Sheet.Reachable (env : Env) : Sheet → Prop
  | empty : Sheet.Reachable env Sheet.empty
  | setCell (s : Sheet) (pos : Position) (text : Str) :
      Sheet.Reachable env s →
      (Sheet.SetCell env s pos text).2 ≠ some .nullDereference →
      Sheet.Reachable env (Sheet.SetCell env s pos text).1
  | clearCell (s : Sheet) (pos : Position) :
      Sheet.Reachable env s →
      (Sheet.ClearCell env s pos).2 ≠ some .nullDereference →
      Sheet.Reachable env (Sheet.ClearCell env s pos).1

/-- The dependency graph over the cells of a sheet: an edge from the cell at `x` to the
cell at `y` whenever the current formula of the first references the position of the
second. -/
def Sheet.Edge (s : Sheet) (x y : Position) : Prop :=
  ∃ cx cy, s.cell x = some cx ∧ s.cell y = some cy ∧ y ∈ cx.impl_.GetReferencedCells

/-- The dependency relation the sheet would have once the cell at `c` holds the
content `impl`: the references of `c` are those of `impl`, all others are unchanged. -/
def Sheet.Installed (s : Sheet) (c : Position) (impl : Impl) (x y : Position) : Prop :=
  if x = c then y ∈ impl.GetReferencedCells else s.DependsOn x y

/-- A stand-in for the external parser, used to instantiate statements at concrete
inputs: it reads the references `A1`, `B1` and `C1` and the literal `1`. -/
def Env.sample : Env where
  ParseFormulaAST := fun text =>
    match text with
    | ['A', '1'] => some ⟨[⟨0, 0⟩], .ask ⟨0, 0⟩ .done, text⟩
    | ['B', '1'] => some ⟨[⟨0, 1⟩], .ask ⟨0, 1⟩ .done, text⟩
    | ['C', '1'] => some ⟨[⟨0, 2⟩], .ask ⟨0, 2⟩ .done, text⟩
    | ['1'] => some ⟨[], .done 1, text⟩
    | _ => none
  readNumber := fun text =>
    match text with
    | ['1'] => some 1
    | _ => none

/-- The struct `Size` of `common.h`. -/
structure Size where
  rows : Int
  cols : Int
deriving DecidableEq, Repr

/-- `Sheet::GetPrintableSize`: the loop over the entries of `sheet_`. -/
def Sheet.GetPrintableSize (s : Sheet) : Size :=
  s.foldl
    (fun result entry =>
      match entry.2 with
      | some _ => ⟨max result.rows (entry.1.row + 1), max result.cols (entry.1.col + 1)⟩
      | none => result)
    ⟨0, 0⟩

/-- The outcome is neither of the two exceptions that reject a content. -/
def Res.quiet (r : Res) : Prop :=
  r.2 ≠ some .FormulaException ∧ r.2 ≠ some .CircularDependencyException

/-! ## The value of a formula, read without the caches -/

/-- The run of `Execute` against a resolver without side effects. -/
def Formula.pureRun (args : Position → Except Fault FValue) : Exec → Except Fault FValue
  | .done d => .ok (.number d)
  | .fail e => .ok (.error e)
  | .ask p k =>
    match args p with
    | .error f => .error f
    | .ok (.error e) => .ok (.error e)
    | .ok (.number d) => Formula.pureRun args (k d)

/-- The positions the run of `Execute` passes to the resolver, in order. -/
def Formula.asked (args : Position → Except Fault FValue) : Exec → List Position
  | .done _ => []
  | .fail _ => []
  | .ask p k =>
    p :: (match args p with
      | .ok (.number d) => Formula.asked args (k d)
      | _ => [])

/-- The resolver of `Formula::Evaluate` as a function of the values of the cells. -/
def Formula.pureArgs (env : Env) (valueOf : Position → Except Fault Value) (s : Sheet)
    (p : Position) : Except Fault FValue :=
  if !p.IsValid then .ok (.error .Ref)
  else
    match s.GetCellPtr p with
    | .error f => .error f
    | .ok none => .ok (.number 0)
    | .ok (some cell) =>
      match valueOf cell with
      | .error f => .error f
      | .ok (.number d) => .ok (.number d)
      | .ok (.text value) =>
        if value.isEmpty then .ok (.number 0)
        else
          match env.readNumber value with
          | some result => .ok (.number result)
          | none => .ok (.error .Value)
      | .ok (.error e) => .ok (.error e)

/-- The value `GetValue` returns for the cell `self`, computed from the contents alone:
caches are neither consulted nor written. The first argument bounds the depth. -/
def Sheet.valueAt (env : Env) : Nat → Sheet → Position → Except Fault Value
  | 0, _, _ => .error .fuelExhausted
  | n + 1, s, self =>
    match s.cell self with
    | none => .error .nullDereference
    | some c =>
      match c.impl_ with
      | .EmptyImpl => .ok (.text [])
      | .TextImpl text_ => .ok (.text (Impl.textValue text_))
      | .FormulaImpl f _ =>
        match Formula.pureRun (Formula.pureArgs env (Sheet.valueAt env n s) s) f.body with
        | .error e => .error e
        | .ok (.number d) => .ok (.number d)
        | .ok (.error e) => .ok (.error e)

/-- The result of evaluating a formula body against the values of the sheet, the
referenced cells being read with depth `n`. -/
def Sheet.runAt (env : Env) (n : Nat) (s : Sheet) (body : Exec) : Except Fault FValue :=
  Formula.pureRun (Formula.pureArgs env (Sheet.valueAt env n s) s) body

/-- The positions that evaluation hands to the resolver. -/
def Sheet.askedAt (env : Env) (n : Nat) (s : Sheet) (body : Exec) : List Position :=
  Formula.asked (Formula.pureArgs env (Sheet.valueAt env n s) s) body

/-- A position occurs in a run of the expression, whatever values the resolver returns. -/
inductive Exec.Mentions : Exec → Position → Prop
  | here (p : Position) (k : Number → Exec) : Exec.Mentions (.ask p k) p
  | later (p : Position) (k : Number → Exec) (d : Number) (q : Position) :
      Exec.Mentions (k d) q → Exec.Mentions (.ask p k) q

/-- The assumption on the external parser: the list `GetCells()` of a parsed formula
holds every position its expression can pass to the resolver. -/
def Env.Covers (env : Env) : Prop :=
  ∀ text ast, env.ParseFormulaAST text = some ast →
    ∀ p, ast.body.Mentions p → p ∈ ast.cells

/-- The invariant of the caches: a populated cache holds the value of its formula; the
formula cells that the evaluation of a populated formula reads are populated too; the
list of cells of every formula covers its expression; cells sit at valid positions. -/
structure Sheet.Coherent (env : Env) (s : Sheet) : Prop where
  cache : ∀ q c f v, s.cell q = some c → c.impl_ = .FormulaImpl f (some v) →
    s.runAt env s.length f.body = .ok v
  reads : ∀ q c f v, s.cell q = some c → c.impl_ = .FormulaImpl f (some v) →
    ∀ p ∈ s.askedAt env s.length f.body, s.formulaAt p → (s.implAt p).isCached = true
  covered : ∀ q c f cache, s.cell q = some c → c.impl_ = .FormulaImpl f cache →
    ∀ p, f.body.Mentions p → p ∈ f.cells
  valid : ∀ q, (s.cell q).isSome = true → q.IsValid = true

/-- The sheet `s2` is `s` with more caches populated: nothing but caches differs, no
populated cache was lost or changed, and `s2` satisfies the invariant of the caches. -/
structure Sheet.Fills (env : Env) (s s2 : Sheet) : Prop where
  cacheOnly : s.CacheOnly s2
  keeps : ∀ q c f v, s.cell q = some c → c.impl_ = .FormulaImpl f (some v) →
    ∃ c2, s2.cell q = some c2 ∧ c2.impl_ = .FormulaImpl f (some v)
  coherent : s2.Coherent env

/-- What a read `getValue` with depth `n` guarantees on a sheet that satisfies the
invariant of the caches: it only populates caches, returns the value of the cell, and
leaves a formula cell it has read successfully with a populated cache. -/
def GoodRead (env : Env) (n : Nat)
    (getValue : Reading → Position → Reading × Except Fault Value) : Prop :=
  ∀ (st : Reading) (x : Position), st.1.Coherent env → n ≤ st.1.length + 1 →
    st.1.Fills env (getValue st x).1.1 ∧
    (getValue st x).2 = Sheet.valueAt env n st.1 x ∧
    (∀ v, (getValue st x).2 = .ok v → (getValue st x).1.1.formulaAt x →
      ((getValue st x).1.1.implAt x).isCached = true)

/-- What `DoInvalidCache` does to the caches: every cell is as it was or has lost its
cache, and the dependents of a cell that has lost a populated cache hold no cache. -/
structure Sheet.Invalidated (s s2 : Sheet) : Prop where
  cleared : ∀ q, s2.cell q = s.cell q ∨
    ∃ c, s.cell q = some c ∧ s2.cell q = some { c with impl_ := c.impl_.InvalidateCache }
  closed : ∀ y, (s.implAt y).isCached = true → (s2.implAt y).isCached = false →
    ∀ x ∈ s.left y, (s2.implAt x).isCached = false

/-- What a completed `Cell::Set` on the cell `owner` does to the caches: a cache that is
populated afterwards belongs to another cell and was there before; no dependent of
`owner` and no dependent of a cell that lost its cache holds a cache; cells without
formula other than `owner` are unchanged; and the map has not shrunk. -/
structure Sheet.SetCaches (owner : Position) (s s4 : Sheet) : Prop where
  kept : ∀ x, (s4.implAt x).isCached = true → x ≠ owner ∧ s4.implAt x = s.implAt x
  children : ∀ x ∈ s4.left owner, (s4.implAt x).isCached = false
  closed : ∀ y, y ≠ owner → (s.implAt y).isCached = true →
    (s4.implAt y).isCached = false → ∀ x ∈ s4.left y, (s4.implAt x).isCached = false
  plain : ∀ q, q ≠ owner → ¬ s.formulaAt q → s4.implAt q = s.implAt q
  length : s.length ≤ s4.length

/-- The sheets a client can hold after finitely many `SetCell`, `ClearCell` and
`GetValue` calls on an empty sheet. As in `Sheet.Reachable`, a call that throws counts,
and a mutation that dereferences a null or dangling pointer leaves no state. -/
inductive Sheet.Observable (env : Env) : Sheet → Prop
  | empty : Sheet.Observable env Sheet.empty
  | setCell (s : Sheet) (pos : Position) (text : Str) :
      Sheet.Observable env s →
      (Sheet.SetCell env s pos text).2 ≠ some .nullDereference →
      Sheet.Observable env (Sheet.SetCell env s pos text).1
  | clearCell (s : Sheet) (pos : Position) :
      Sheet.Observable env s →
      (Sheet.ClearCell env s pos).2 ≠ some .nullDereference →
      Sheet.Observable env (Sheet.ClearCell env s pos).1
  | getValue (s : Sheet) (pos : Position) :
      Sheet.Observable env s →
      Sheet.Observable env (Sheet.GetValue env s pos).1.1

/-- The value a cell shows for the result of its formula. -/
def FValue.toValue : FValue → Value
  | .number d => .number d
  | .error e => .error e

/-- A sheet for instantiating statements: A1 holds `=B1`, B1 holds the text `1`, and A1
has been read once. -/
def Sheet.sampleRead : Sheet :=
  (Sheet.GetValue Env.sample
    (Sheet.SetCell Env.sample
      (Sheet.SetCell Env.sample Sheet.empty ⟨0, 0⟩ ['=', 'B', '1']).1 ⟨0, 1⟩ ['1']).1
    ⟨0, 0⟩).1.1

/-- The result the specification describes for `getReferencedCells`, on the positions
that survive the validity filter: each position once, in the order of first occurrence. -/
def firstOccurrences : List Position → List Position
  | [] => []
  | a :: rest => a :: (firstOccurrences rest).filter fun b => decide (b ≠ a)

/-- Equal positions of the list are neighbours: once the run of `a` at the head is over,
`a` does not come back. A sorted list is of this kind. -/
def grouped : List Position → Bool
  | [] => true
  | a :: rest => decide (a ∉ rest.dropWhile fun b => decide (b = a)) && grouped rest

/-- What a read `getValue` with depth `n` does on any sheet: it changes nothing but
caches, and it returns the value computed from the contents alone. -/
def PureRead (env : Env) (n : Nat)
    (getValue : Reading → Position → Reading × Except Fault Value) : Prop :=
  ∀ (st : Reading) (x : Position),
    st.1.CacheOnly (getValue st x).1.1 ∧ (getValue st x).2 = Sheet.valueAt env n st.1 x

/-- The evaluation of the formula of the cell at `x` passes the position `y` to the
resolver: `y` is an operand the run of `Execute` reaches. -/
def Sheet.Reads (env : Env) (s : Sheet) (x y : Position) : Prop :=
  ∃ c f w, s.cell x = some c ∧ c.impl_ = .FormulaImpl f w ∧
    y ∈ s.askedAt env s.length f.body

/-- A second stand-in for the external parser: it reads the references `A1` and `A2` and
the sum `B1+C1`. The flag chooses the operand of the sum that `Execute` evaluates first,
which C++ leaves to the compiler. -/
def Env.sampleSum (leftFirst : Bool) : Env where
  ParseFormulaAST := fun text =>
    match text with
    | ['A', '1'] => some ⟨[⟨0, 0⟩], .ask ⟨0, 0⟩ .done, text⟩
    | ['A', '2'] => some ⟨[⟨1, 0⟩], .ask ⟨1, 0⟩ .done, text⟩
    | ['B', '1', '+', 'C', '1'] =>
      some ⟨[⟨0, 1⟩, ⟨0, 2⟩],
        if leftFirst then .ask ⟨0, 1⟩ fun b => .ask ⟨0, 2⟩ fun c => .done (b + c)
        else .ask ⟨0, 2⟩ fun c => .ask ⟨0, 1⟩ fun b => .done (b + c),
        text⟩
    | _ => none
  readNumber := Env.sample.readNumber

/-- A sheet for instantiating statements: A1 and A2 hold the text `x`, B1 holds `=A1`, C1
holds `=A2`, D1 holds `=B1+C1`, and D1 has been read once. Both operands of the sum have
an error as value, so the read stops at the operand it evaluates first and never reaches
the other. -/
def Sheet.sampleShortCircuit (leftFirst : Bool) : Sheet :=
  (Sheet.GetValue (Env.sampleSum leftFirst)
    (Sheet.SetCell (Env.sampleSum leftFirst)
      (Sheet.SetCell (Env.sampleSum leftFirst)
        (Sheet.SetCell (Env.sampleSum leftFirst)
          (Sheet.SetCell (Env.sampleSum leftFirst)
            (Sheet.SetCell (Env.sampleSum leftFirst) Sheet.empty ⟨0, 0⟩ ['x']).1
            ⟨0, 1⟩ ['=', 'A', '1']).1
          ⟨1, 0⟩ ['x']).1
        ⟨0, 2⟩ ['=', 'A', '2']).1
      ⟨0, 3⟩ ['=', 'B', '1', '+', 'C', '1']).1
    ⟨0, 3⟩).1.1

/-- A relation between the sheet before and after an operation that holds across every
write the operations are made of: assignment through an entry and `emplace`. -/
structure Sheet.Frame (R : Sheet → Sheet → Prop) : Prop where
  same : ∀ s, R s s
  step : ∀ s s2 s3, R s s2 → R s2 s3 → R s s3
  put : ∀ s p w, R s (Sheet.put s p w)
  emplace : ∀ s p c, R s (Sheet.emplace s p c)

theorem Res.andThen_none (s : Sheet) (f : Sheet → Res) : Res.andThen (s, none) f = f s := rfl

theorem Res.andThen_some (s : Sheet) (e : Fault) (f : Sheet → Res) :
    Res.andThen (s, some e) f = (s, some e) := rfl

theorem Res.andThen_snd_none {r : Res} {f : Sheet → Res} (h : (r.andThen f).2 = none) :
    r.2 = none ∧ (f r.1).2 = none := by
  obtain ⟨s, o⟩ := r
  cases o with
  | none => exact ⟨rfl, h⟩
  | some e => simp [Res.andThen] at h

theorem Res.andThen_eq_of_none {r : Res} (f : Sheet → Res) (h : r.2 = none) :
    r.andThen f = f r.1 := by
  obtain ⟨s, o⟩ := r
  cases o with
  | none => rfl
  | some e => simp at h

theorem Res.andThen_eq_of_some {r : Res} (f : Sheet → Res) {e : Fault} (h : r.2 = some e) :
    r.andThen f = r := by
  obtain ⟨s, o⟩ := r
  cases o with
  | none => simp at h
  | some e => rfl

theorem Sheet.find_put (s : Sheet) (p q : Position) (w : Option Cell) :
    (s.put p w).find q = if q = p then (s.find p).map (fun _ => w) else s.find q := by
  induction s with
  | nil => simp [Sheet.put, Sheet.find]
  | cons e rest ih =>
    obtain ⟨k, v⟩ := e
    by_cases hk : k = p
    · subst hk
      by_cases hq : q = k
      · subst hq; simp [Sheet.put, Sheet.find]
      · have hq2 : ¬ k = q := fun h => hq h.symm
        simp [Sheet.put, Sheet.find, hq, hq2]
    · by_cases hq : q = p
      · subst hq
        simp [Sheet.put, Sheet.find, hk, ih]
      · by_cases hkq : k = q
        · simp [Sheet.put, Sheet.find, hk, hq, hkq]
        · simp [Sheet.put, Sheet.find, hk, hq, hkq, ih]

theorem Sheet.cell_eq_some {s : Sheet} {p : Position} {c : Cell} :
    s.cell p = some c ↔ s.find p = some (some c) := by
  unfold Sheet.cell
  split
  · next c2 h => simp [h]
  · next h =>
    constructor
    · intro h2; simp at h2
    · intro h2; exact absurd h2 (h c)

theorem Sheet.cell_put (s : Sheet) (p q : Position) (c c2 : Cell) (h : s.cell p = some c) :
    (s.put p (some c2)).cell q = if q = p then some c2 else s.cell q := by
  have hf := Sheet.cell_eq_some.mp h
  unfold Sheet.cell
  rw [Sheet.find_put]
  by_cases hq : q = p
  · subst hq; simp [hf]
  · simp [hq]

theorem Sheet.cell_put_none (s : Sheet) (p q : Position) :
    (s.put p none).cell q = if q = p then none else s.cell q := by
  unfold Sheet.cell
  rw [Sheet.find_put]
  by_cases hq : q = p
  · subst hq
    cases h : s.find q <;> simp
  · simp [hq]

theorem Sheet.put_same (s : Sheet) (p : Position) (c : Cell) (h : s.cell p = some c) :
    s.put p (some c) = s := by
  have hf := Sheet.cell_eq_some.mp h
  clear h
  induction s with
  | nil => rfl
  | cons e rest ih =>
    obtain ⟨k, v⟩ := e
    by_cases hk : k = p
    · subst hk
      simp [Sheet.find] at hf
      simp [Sheet.put, hf]
    · simp [Sheet.find, hk] at hf
      simp [Sheet.put, hk, ih hf]

theorem Sheet.length_put (s : Sheet) (p : Position) (w : Option Cell) :
    (s.put p w).length = s.length := by
  induction s with
  | nil => rfl
  | cons e rest ih =>
    obtain ⟨k, v⟩ := e
    by_cases hk : k = p <;> simp [Sheet.put, hk, ih]

theorem Sheet.find_append (s t : Sheet) (q : Position) :
    Sheet.find (s ++ t) q = match s.find q with
      | some v => some v
      | none => Sheet.find t q := by
  induction s with
  | nil => simp [Sheet.find]
  | cons e rest ih =>
    obtain ⟨k, v⟩ := e
    by_cases hk : k = q
    · simp [Sheet.find, hk]
    · simp [Sheet.find, hk, ih]

theorem Sheet.find_emplace (s : Sheet) (p q : Position) (c : Cell) :
    (s.emplace p c).find q =
      if q = p then (match s.find p with
        | none => some (some c)
        | some v => some v) else s.find q := by
  unfold Sheet.emplace
  cases h : s.find p with
  | some v =>
    by_cases hq : q = p
    · subst hq; simp [h]
    · simp [hq]
  | none =>
    simp only
    rw [Sheet.find_append]
    by_cases hq : q = p
    · subst hq; simp [h, Sheet.find]
    · have : ¬ p = q := fun h => hq h.symm
      cases h2 : s.find q <;> simp [hq, Sheet.find, this]

theorem Sheet.cell_emplace (s : Sheet) (p q : Position) (c : Cell) :
    (s.emplace p c).cell q =
      if q = p then (if (s.find p).isNone then some c else s.cell p) else s.cell q := by
  unfold Sheet.cell
  rw [Sheet.find_emplace]
  by_cases hq : q = p
  · subst hq
    cases h : s.find q <;> simp
  · simp [hq]
/-! ## The search of `CheckForCyclicity` -/

theorem mem_setInsert {x y : Position} {xs : List Position} :
    y ∈ setInsert x xs ↔ y = x ∨ y ∈ xs := by
  unfold setInsert
  by_cases h : x ∈ xs
  · simp only [h, if_true]
    constructor
    · intro hy; exact Or.inr hy
    · rintro (rfl | hy)
      · exact h
      · exact hy
  · simp only [h, if_false, List.mem_append, List.mem_singleton]
    tauto

theorem setInsert_of_mem {x : Position} {xs : List Position} (h : x ∈ xs) :
    setInsert x xs = xs := by
  simp [setInsert, h]

theorem mem_setErase {x y : Position} {xs : List Position} :
    y ∈ setErase x xs ↔ y ∈ xs ∧ y ≠ x := by
  simp [setErase]

theorem Sheet.searchFuel_eq (s : Sheet) : s.searchFuel = s.searchWeight [] + 1 := by
  induction s with
  | nil => rfl
  | cons e rest ih =>
    obtain ⟨k, v⟩ := e
    cases v with
    | none => simpa [Sheet.searchFuel, Sheet.searchWeight] using ih
    | some c => simp [Sheet.searchFuel, Sheet.searchWeight, ih]; omega

theorem Sheet.searchWeight_mono (s : Sheet) {vis vis2 : List Position}
    (h : ∀ x ∈ vis, x ∈ vis2) : s.searchWeight vis2 ≤ s.searchWeight vis := by
  induction s with
  | nil => simp [Sheet.searchWeight]
  | cons e rest ih =>
    obtain ⟨k, v⟩ := e
    cases v with
    | none => simpa [Sheet.searchWeight] using ih
    | some c =>
      simp only [Sheet.searchWeight]
      by_cases hk : k ∈ vis
      · simp [hk, h k hk, ih]
      · by_cases hk2 : k ∈ vis2
        · simp [hk, hk2]; omega
        · simp [hk, hk2, ih]

theorem Sheet.searchWeight_insert (s : Sheet) (p : Position) (c : Cell) (vis : List Position)
    (hc : s.cell p = some c) (hp : p ∉ vis) :
    s.searchWeight (setInsert p vis) + (1 + c.left_nods_.length) ≤ s.searchWeight vis := by
  have hf := Sheet.cell_eq_some.mp hc
  clear hc
  induction s with
  | nil => simp [Sheet.find] at hf
  | cons e rest ih =>
    obtain ⟨k, v⟩ := e
    have hmono : Sheet.searchWeight rest (setInsert p vis) ≤ Sheet.searchWeight rest vis :=
      Sheet.searchWeight_mono rest (fun x hx => mem_setInsert.mpr (Or.inr hx))
    by_cases hk : k = p
    · subst hk
      simp [Sheet.find] at hf
      subst hf
      have h1 : k ∈ setInsert k vis := mem_setInsert.mpr (Or.inl rfl)
      simp only [Sheet.searchWeight, h1, hp, if_true, if_false]
      omega
    · simp [Sheet.find, hk] at hf
      have ih2 := ih hf
      cases v with
      | none => simpa [Sheet.searchWeight] using ih2
      | some c2 =>
        simp only [Sheet.searchWeight]
        by_cases hk1 : k ∈ vis
        · have hk2 : k ∈ setInsert p vis := mem_setInsert.mpr (Or.inr hk1)
          simp only [hk1, hk2, if_true]
          omega
        · have hk2 : k ∉ setInsert p vis := by
            intro h
            rcases mem_setInsert.mp h with h | h
            · exact hk h
            · exact hk1 h
          simp only [hk1, hk2, if_false]
          omega

theorem Sheet.left_of_cell {s : Sheet} {p : Position} {c : Cell} (h : s.cell p = some c) :
    s.left p = c.left_nods_ := by
  simp [Sheet.left, h]

/-- The loop of `CheckForCyclicity` ends within its budget and answers whether a
referenced cell is reachable from the start along the dependents relation. -/
theorem Cell.cyclicityLoop_spec (s : Sheet) (referenced : List (Option Position))
    (self : Position) (hlive : ∀ p q, q ∈ s.left p → (s.cell q).isSome = true) :
    ∀ (fuel : Nat) (visited stack : List Position),
      (∀ x ∈ stack, (s.cell x).isSome = true) →
      (∀ x, x ∈ visited ∨ x ∈ stack → Relation.ReflTransGen s.Dependent self x) →
      (∀ x ∈ visited, some x ∉ referenced) →
      (∀ x ∈ visited, ∀ y ∈ s.left x, y ∈ visited ∨ y ∈ stack) →
      (∀ pre x post, stack = pre ++ x :: post → x ∈ visited →
        ∀ y ∈ s.left x, y ∈ visited ∨ y ∈ pre) →
      (self ∈ visited ∨ self ∈ stack) →
      stack.length + s.searchWeight visited ≤ fuel →
      ∃ b, Cell.cyclicityLoop s referenced fuel visited stack = .ok b ∧
        (b = true ↔ ∃ q, Relation.ReflTransGen s.Dependent self q ∧ some q ∈ referenced) := by
  intro fuel
  induction fuel with
  | zero =>
    intro visited stack _ _ hnoref hclosed _ hself hfuel
    cases stack with
    | cons x rest => simp at hfuel
    | nil =>
      refine ⟨false, by simp [Cell.cyclicityLoop], ?_⟩
      have hall : ∀ q, Relation.ReflTransGen s.Dependent self q → q ∈ visited := by
        intro q hq
        induction hq with
        | refl => simpa using hself
        | tail _ hstep ih => simpa using hclosed _ ih _ hstep
      simp only [Bool.false_eq_true, false_iff, not_exists, not_and]
      intro q hq
      exact hnoref q (hall q hq)
  | succ n ih =>
    intro visited stack hstack hreach hnoref hclosed hgood hself hfuel
    cases stack with
    | nil =>
      refine ⟨false, by simp [Cell.cyclicityLoop], ?_⟩
      have hall : ∀ q, Relation.ReflTransGen s.Dependent self q → q ∈ visited := by
        intro q hq
        induction hq with
        | refl => simpa using hself
        | tail _ hstep ih => simpa using hclosed _ ih _ hstep
      simp only [Bool.false_eq_true, false_iff, not_exists, not_and]
      intro q hq
      exact hnoref q (hall q hq)
    | cons current rest =>
      by_cases href : some current ∈ referenced
      · refine ⟨true, by simp [Cell.cyclicityLoop, href], ?_⟩
        simp only [true_iff]
        exact ⟨current, hreach current (Or.inr (List.mem_cons_self _ _)), href⟩
      · have hcl := hstack current (List.mem_cons_self _ _)
        obtain ⟨c, hc⟩ := Option.isSome_iff_exists.mp hcl
        have hleft : s.left current = c.left_nods_ := Sheet.left_of_cell hc
        have hcur : Relation.ReflTransGen s.Dependent self current :=
          hreach current (Or.inr (List.mem_cons_self _ _))
        simp only [Cell.cyclicityLoop, href, if_false, hc]
        apply ih
        · intro x hx
          rcases List.mem_append.mp hx with hx | hx
          · have hx2 := (List.mem_filter.mp (List.mem_reverse.mp hx)).1
            exact hlive current x (hleft ▸ hx2)
          · exact hstack x (List.mem_cons_of_mem _ hx)
        · intro x hx
          rcases hx with hx | hx
          · rcases mem_setInsert.mp hx with hx | hx
            · exact hx ▸ hcur
            · exact hreach x (Or.inl hx)
          · rcases List.mem_append.mp hx with hx | hx
            · have hx2 := (List.mem_filter.mp (List.mem_reverse.mp hx)).1
              exact Relation.ReflTransGen.tail hcur (show x ∈ s.left current from hleft ▸ hx2)
            · exact hreach x (Or.inr (List.mem_cons_of_mem _ hx))
        · intro x hx
          rcases mem_setInsert.mp hx with hx | hx
          · exact hx ▸ href
          · exact hnoref x hx
        · intro x hx y hy
          rcases mem_setInsert.mp hx with hx | hx
          · subst hx
            by_cases hyv : y ∈ setInsert x visited
            · exact Or.inl hyv
            · right
              apply List.mem_append_left
              apply List.mem_reverse.mpr
              apply List.mem_filter.mpr
              exact ⟨hleft ▸ hy, by simpa using hyv⟩
          · rcases hclosed x hx y hy with h | h
            · exact Or.inl (mem_setInsert.mpr (Or.inr h))
            · rcases List.mem_cons.mp h with h | h
              · exact Or.inl (mem_setInsert.mpr (Or.inl h))
              · exact Or.inr (List.mem_append_right _ h)
        · intro pre x post hsplit hx y hy
          have hxnew : x ∉ (c.left_nods_.filter fun incoming =>
              decide (incoming ∉ setInsert current visited)).reverse := by
            intro h
            have := (List.mem_filter.mp (List.mem_reverse.mp h)).2
            simp at this
            exact this hx
          have hcase : ∃ a, pre = (c.left_nods_.filter fun incoming =>
              decide (incoming ∉ setInsert current visited)).reverse ++ a ∧
              rest = a ++ x :: post := by
            rcases List.append_eq_append_iff.mp hsplit with ⟨a, h1, h2⟩ | ⟨a, h1, h2⟩
            · exact ⟨a, h1, h2⟩
            · cases a with
              | nil => exact ⟨[], by simpa using h1.symm, by simpa using h2.symm⟩
              | cons z a2 =>
                exfalso
                simp only [List.cons_append, List.cons.injEq] at h2
                apply hxnew
                rw [h1, h2.1]
                simp
          obtain ⟨a, hpre, hrest⟩ := hcase
          by_cases hxc : x = current
          · subst hxc
            by_cases hyv : y ∈ setInsert x visited
            · exact Or.inl hyv
            · right
              rw [hpre]
              apply List.mem_append_left
              apply List.mem_reverse.mpr
              apply List.mem_filter.mpr
              exact ⟨hleft ▸ hy, by simpa using hyv⟩
          · have hxv : x ∈ visited := by
              rcases mem_setInsert.mp hx with h | h
              · exact absurd h hxc
              · exact h
            have hsp : current :: rest = (current :: a) ++ x :: post := by simp [hrest]
            rcases hgood (current :: a) x post hsp hxv y hy with h | h
            · exact Or.inl (mem_setInsert.mpr (Or.inr h))
            · rcases List.mem_cons.mp h with h | h
              · exact Or.inl (mem_setInsert.mpr (Or.inl h))
              · exact Or.inr (hpre ▸ List.mem_append_right _ h)
        · rcases hself with h | h
          · exact Or.inl (mem_setInsert.mpr (Or.inr h))
          · rcases List.mem_cons.mp h with h | h
            · exact Or.inl (mem_setInsert.mpr (Or.inl h))
            · exact Or.inr (List.mem_append_right _ h)
        · by_cases hcv : current ∈ visited
          · have hnone : (c.left_nods_.filter fun incoming =>
                decide (incoming ∉ setInsert current visited)) = [] := by
              apply List.filter_eq_nil_iff.mpr
              intro y hy
              have := hgood [] current rest rfl hcv y (hleft ▸ hy)
              simp only [List.not_mem_nil, or_false] at this
              simp [mem_setInsert, this]
            rw [hnone, setInsert_of_mem hcv]
            simp only [List.reverse_nil, List.nil_append]
            simp only [List.length_cons] at hfuel
            omega
          · have hw := Sheet.searchWeight_insert s current c visited hc hcv
            have hlen : (c.left_nods_.filter fun incoming =>
                decide (incoming ∉ setInsert current visited)).length ≤ c.left_nods_.length :=
              List.length_filter_le _ _
            simp only [List.length_append, List.length_reverse]
            simp only [List.length_cons] at hfuel
            omega
/-! ## The referenced positions of a content -/

theorem mem_unique {x : Position} : ∀ {l : List Position}, x ∈ unique l ↔ x ∈ l
  | [] => by simp [unique]
  | [a] => by simp [unique]
  | a :: b :: rest => by
    have ih := @mem_unique x (b :: rest)
    by_cases hab : a = b
    · subst hab
      simp only [unique, if_true, ih]
      simp
    · simp only [unique, hab, if_false, List.mem_cons, ih]

theorem mem_referencedOf {x : Position} {cells : List Position} :
    x ∈ referencedOf cells ↔ x ∈ cells ∧ x.IsValid = true := by
  simp [referencedOf, mem_unique]

theorem Impl.valid_of_mem_GetReferencedCells {impl : Impl} {p : Position}
    (h : p ∈ impl.GetReferencedCells) : p.IsValid = true := by
  cases impl with
  | EmptyImpl => simp [Impl.GetReferencedCells] at h
  | TextImpl t => simp [Impl.GetReferencedCells] at h
  | FormulaImpl f cache =>
    exact (mem_referencedOf.mp (by simpa [Impl.GetReferencedCells,
      FormulaAST.GetReferencedCells] using h)).2

theorem Impl.GetReferencedCells_InvalidateCache (impl : Impl) :
    impl.InvalidateCache.GetReferencedCells = impl.GetReferencedCells := by
  cases impl <;> rfl

theorem Sheet.GetCellPtr_of_valid (s : Sheet) {p : Position} (h : p.IsValid = true) :
    s.GetCellPtr p = .ok (if (s.cell p).isSome then some p else none) := by
  unfold Sheet.GetCellPtr Sheet.cell
  simp only [h, Bool.not_true, Bool.false_eq_true, if_false]
  cases hf : s.find p with
  | none => simp
  | some v => cases v <;> simp

theorem Cell.collectReferenced_of_valid (s : Sheet) :
    ∀ (xs : List Position), (∀ p ∈ xs, p.IsValid = true) →
      Cell.collectReferenced s xs =
        .ok (xs.map fun p => if (s.cell p).isSome then some p else none)
  | [], _ => rfl
  | p :: rest, h => by
    have h1 := Sheet.GetCellPtr_of_valid s (h p (List.mem_cons_self _ _))
    have h2 := Cell.collectReferenced_of_valid s rest
      (fun q hq => h q (List.mem_cons_of_mem _ hq))
    simp [Cell.collectReferenced, h1, h2]

/-- `CheckForCyclicity` returns, and answers true exactly when a referenced position
holds a cell that is reachable from `self` along the dependents relation. -/
theorem Cell.CheckForCyclicity_spec (s : Sheet) (self : Position) (impl : Impl)
    (hlive : ∀ p q, q ∈ s.left p → (s.cell q).isSome = true)
    (hself : (s.cell self).isSome = true) :
    ∃ b, Cell.CheckForCyclicity s self impl = .ok b ∧
      (b = true ↔ ∃ q, Relation.ReflTransGen s.Dependent self q ∧
        q ∈ impl.GetReferencedCells ∧ (s.cell q).isSome = true) := by
  unfold Cell.CheckForCyclicity
  by_cases hempty : impl.GetReferencedCells.isEmpty = true
  · refine ⟨false, by simp [hempty], ?_⟩
    have : impl.GetReferencedCells = [] := List.isEmpty_iff.mp hempty
    simp [this]
  · rw [Cell.collectReferenced_of_valid s _
      (fun p hp => Impl.valid_of_mem_GetReferencedCells hp)]
    simp only [hempty, Bool.false_eq_true, if_false]
    have hmem : ∀ q, some q ∈ (impl.GetReferencedCells.map fun p =>
        if (s.cell p).isSome then some p else none) ↔
        q ∈ impl.GetReferencedCells ∧ (s.cell q).isSome = true := by
      intro q
      simp only [List.mem_map]
      constructor
      · rintro ⟨p, hp, heq⟩
        by_cases hl : (s.cell p).isSome = true
        · simp only [hl, if_true, Option.some.injEq] at heq
          subst heq
          exact ⟨hp, hl⟩
        · simp [hl] at heq
      · rintro ⟨hq, hl⟩
        exact ⟨q, hq, by simp [hl]⟩
    obtain ⟨b, hb, hiff⟩ := Cell.cyclicityLoop_spec s
      (impl.GetReferencedCells.map fun p => if (s.cell p).isSome then some p else none)
      self hlive s.searchFuel [] [self]
      (by intro x hx; simp at hx; subst hx; exact hself)
      (by intro x hx; simp at hx; subst hx; exact Relation.ReflTransGen.refl)
      (by simp) (by simp) (by simp) (by simp)
      (by rw [Sheet.searchFuel_eq]; simp; omega)
    refine ⟨b, hb, ?_⟩
    rw [hiff]
    constructor
    · rintro ⟨q, hq, hm⟩
      exact ⟨q, hq, (hmem q).mp hm⟩
    · rintro ⟨q, hq, hm⟩
      exact ⟨q, hq, (hmem q).mpr hm⟩
/-! ## The effect of the steps of `Cell::Set` on the graph -/

theorem Sheet.left_put (s : Sheet) (p q : Position) (c c2 : Cell) (h : s.cell p = some c) :
    (s.put p (some c2)).left q = if q = p then c2.left_nods_ else s.left q := by
  unfold Sheet.left
  rw [Sheet.cell_put s p q c c2 h]
  by_cases hq : q = p <;> simp [hq]

theorem Sheet.right_put (s : Sheet) (p q : Position) (c c2 : Cell) (h : s.cell p = some c) :
    (s.put p (some c2)).right q = if q = p then c2.right_nods_ else s.right q := by
  unfold Sheet.right
  rw [Sheet.cell_put s p q c c2 h]
  by_cases hq : q = p <;> simp [hq]

theorem Sheet.refs_put (s : Sheet) (p q : Position) (c c2 : Cell) (h : s.cell p = some c) :
    (s.put p (some c2)).refs q = if q = p then c2.impl_.GetReferencedCells else s.refs q := by
  unfold Sheet.refs
  rw [Sheet.cell_put s p q c c2 h]
  by_cases hq : q = p <;> simp [hq]

theorem Cell.RemoveDependency_of_cell {s : Sheet} {self cell : Position} {c : Cell}
    (h : s.cell self = some c) :
    Cell.RemoveDependency s self cell =
      (s.put self (some { c with left_nods_ := setErase cell c.left_nods_ }), none) := by
  simp [Cell.RemoveDependency, h]

theorem Cell.RemoveDependency_of_none {s : Sheet} {self cell : Position}
    (h : s.cell self = none) :
    Cell.RemoveDependency s self cell = (s, some .nullDereference) := by
  simp [Cell.RemoveDependency, h]

theorem setErase_idem (x : Position) (xs : List Position) :
    setErase x (setErase x xs) = setErase x xs := by
  simp [setErase, List.filter_filter]

/-- The loop of `RemoveDependenciesFrom` either meets a dangling pointer or erases
`cell` from the dependents set of every listed cell and changes nothing else. -/
theorem Cell.removeLoop_spec (cell : Position) :
    ∀ (xs : List Position) (s : Sheet),
      (∃ s2, forEach (fun s1 outgoing => Cell.RemoveDependency s1 outgoing cell) xs s =
          (s2, some .nullDereference)) ∨
      (∃ s2, forEach (fun s1 outgoing => Cell.RemoveDependency s1 outgoing cell) xs s =
          (s2, none) ∧
        (∀ x ∈ xs, (s.cell x).isSome = true) ∧
        ∀ q, s2.cell q = (s.cell q).map fun c =>
          if q ∈ xs then { c with left_nods_ := setErase cell c.left_nods_ } else c)
  | [], s => Or.inr ⟨s, rfl, by simp, by intro q; cases s.cell q <;> simp⟩
  | x :: rest, s => by
    cases hx : s.cell x with
    | none =>
      left
      exact ⟨s, by simp [forEach, Cell.RemoveDependency_of_none hx, Res.andThen]⟩
    | some c =>
      have hstep := @Cell.RemoveDependency_of_cell s x cell c hx
      rcases Cell.removeLoop_spec cell rest
        (s.put x (some { c with left_nods_ := setErase cell c.left_nods_ })) with
        ⟨s2, h2⟩ | ⟨s2, h2, hl, hc⟩
      · left
        exact ⟨s2, by simp [forEach, hstep, Res.andThen, h2]⟩
      · right
        refine ⟨s2, by simp [forEach, hstep, Res.andThen, h2], ?_, ?_⟩
        · intro y hy
          rcases List.mem_cons.mp hy with hy | hy
          · subst hy; simp [hx]
          · have := hl y hy
            rw [Sheet.cell_put s x y c _ hx] at this
            by_cases hyx : y = x
            · subst hyx; simp [hx]
            · simpa [hyx] using this
        · intro q
          rw [hc q, Sheet.cell_put s x q c _ hx]
          by_cases hq : q = x
          · subst hq
            by_cases hqr : q ∈ rest
            · simp [hx, hqr, setErase_idem]
            · simp [hx, hqr]
          · cases hcq : s.cell q with
            | none => simp [hq]
            | some cq => simp [hq]

theorem Cell.RemoveDependenciesFrom_spec (s : Sheet) (self cell : Position) :
    (∃ s2, Cell.RemoveDependenciesFrom s self cell = (s2, some .nullDereference)) ∨
    (∃ s2, Cell.RemoveDependenciesFrom s self cell = (s2, none) ∧
      (∀ x ∈ s.right self, (s.cell x).isSome = true) ∧
      ∀ q, s2.cell q = (s.cell q).map fun c =>
        if q ∈ s.right self then { c with left_nods_ := setErase cell c.left_nods_ } else c) := by
  unfold Cell.RemoveDependenciesFrom
  cases hc : s.cell self with
  | none => exact Or.inl ⟨s, rfl⟩
  | some c =>
    have hr : s.right self = c.right_nods_ := by simp [Sheet.right, hc]
    rw [hr]
    exact Cell.removeLoop_spec cell c.right_nods_ s
/-! ## `DoInvalidCache` returns and only clears caches -/

theorem Impl.isCached_InvalidateCache (i : Impl) : i.InvalidateCache.isCached = false := by
  cases i <;> rfl

theorem Impl.InvalidateCache_idem (i : Impl) :
    i.InvalidateCache.InvalidateCache = i.InvalidateCache := by
  cases i <;> rfl

theorem Impl.isFormula_InvalidateCache (i : Impl) :
    i.InvalidateCache.isFormula = i.isFormula := by
  cases i <;> rfl

theorem Cell.shape_shape_impl (c : Cell) :
    ({ c with impl_ := c.impl_.InvalidateCache } : Cell).shape = c.shape := by
  simp [Cell.shape, Impl.InvalidateCache_idem]

theorem Sheet.CacheOnly.refl (s : Sheet) : s.CacheOnly s :=
  ⟨fun _ => rfl, fun _ => rfl, rfl⟩

theorem Sheet.CacheOnly.trans {s s2 s3 : Sheet} (h1 : s.CacheOnly s2) (h2 : s2.CacheOnly s3) :
    s.CacheOnly s3 :=
  ⟨fun q => (h2.cells q).trans (h1.cells q), fun q => (h2.slots q).trans (h1.slots q),
    h2.length.trans h1.length⟩

theorem Sheet.CacheOnly.of_put {s : Sheet} {p : Position} {c c2 : Cell}
    (hc : s.cell p = some c) (hs : c2.shape = c.shape) : s.CacheOnly (s.put p (some c2)) := by
  refine ⟨?_, ?_, Sheet.length_put s p _⟩
  · intro q
    rw [Sheet.cell_put s p q c c2 hc]
    by_cases hq : q = p
    · subst hq; simp [hc, hs]
    · simp [hq]
  · intro q
    rw [Sheet.find_put]
    by_cases hq : q = p
    · subst hq; simp [Sheet.cell_eq_some.mp hc]
    · simp [hq]

theorem Sheet.CacheOnly.cell_some {s s2 : Sheet} (h : s.CacheOnly s2) {q : Position} {c : Cell}
    (hc : s.cell q = some c) : ∃ c2, s2.cell q = some c2 ∧ c2.shape = c.shape := by
  have := h.cells q
  rw [hc] at this
  cases h2 : s2.cell q with
  | none => simp [h2] at this
  | some c2 => exact ⟨c2, rfl, by simpa [h2] using this⟩

theorem Sheet.CacheOnly.cell_some_rev {s s2 : Sheet} (h : s.CacheOnly s2) {q : Position}
    {c2 : Cell} (hc : s2.cell q = some c2) : ∃ c, s.cell q = some c ∧ c2.shape = c.shape := by
  have := h.cells q
  rw [hc] at this
  cases h2 : s.cell q with
  | none => simp [h2] at this
  | some c => exact ⟨c, rfl, by simpa [h2] using this⟩

theorem Sheet.CacheOnly.isSome {s s2 : Sheet} (h : s.CacheOnly s2) (q : Position) :
    (s2.cell q).isSome = (s.cell q).isSome := by
  have := congrArg Option.isSome (h.cells q)
  simpa using this

theorem Cell.shape_left {c c2 : Cell} (h : c2.shape = c.shape) :
    c2.left_nods_ = c.left_nods_ := by
  have := congrArg Cell.left_nods_ h
  simpa [Cell.shape] using this

theorem Cell.shape_right {c c2 : Cell} (h : c2.shape = c.shape) :
    c2.right_nods_ = c.right_nods_ := by
  have := congrArg Cell.right_nods_ h
  simpa [Cell.shape] using this

theorem Cell.shape_impl {c c2 : Cell} (h : c2.shape = c.shape) :
    c2.impl_.InvalidateCache = c.impl_.InvalidateCache := by
  have := congrArg Cell.impl_ h
  simpa [Cell.shape] using this

theorem Cell.shape_refs {c c2 : Cell} (h : c2.shape = c.shape) :
    c2.impl_.GetReferencedCells = c.impl_.GetReferencedCells := by
  rw [← Impl.GetReferencedCells_InvalidateCache c2.impl_,
    ← Impl.GetReferencedCells_InvalidateCache c.impl_, Cell.shape_impl h]

theorem Cell.shape_isFormula {c c2 : Cell} (h : c2.shape = c.shape) :
    c2.impl_.isFormula = c.impl_.isFormula := by
  rw [← Impl.isFormula_InvalidateCache c2.impl_,
    ← Impl.isFormula_InvalidateCache c.impl_, Cell.shape_impl h]

theorem Sheet.CacheOnly.left {s s2 : Sheet} (h : s.CacheOnly s2) (q : Position) :
    s2.left q = s.left q := by
  unfold Sheet.left
  cases hc : s.cell q with
  | none =>
    have := h.isSome q
    rw [hc] at this
    cases h2 : s2.cell q with
    | none => rfl
    | some c2 => simp [h2] at this
  | some c =>
    obtain ⟨c2, h2, hs⟩ := h.cell_some hc
    simp [h2, Cell.shape_left hs]

theorem Sheet.CacheOnly.right {s s2 : Sheet} (h : s.CacheOnly s2) (q : Position) :
    s2.right q = s.right q := by
  unfold Sheet.right
  cases hc : s.cell q with
  | none =>
    have := h.isSome q
    rw [hc] at this
    cases h2 : s2.cell q with
    | none => rfl
    | some c2 => simp [h2] at this
  | some c =>
    obtain ⟨c2, h2, hs⟩ := h.cell_some hc
    simp [h2, Cell.shape_right hs]

theorem Sheet.CacheOnly.refs {s s2 : Sheet} (h : s.CacheOnly s2) (q : Position) :
    s2.refs q = s.refs q := by
  unfold Sheet.refs
  cases hc : s.cell q with
  | none =>
    have := h.isSome q
    rw [hc] at this
    cases h2 : s2.cell q with
    | none => rfl
    | some c2 => simp [h2] at this
  | some c =>
    obtain ⟨c2, h2, hs⟩ := h.cell_some hc
    simp [h2, Cell.shape_refs hs]

theorem Sheet.CacheOnly.formulaAt {s s2 : Sheet} (h : s.CacheOnly s2) {q : Position}
    (hq : s.formulaAt q) : s2.formulaAt q := by
  obtain ⟨c, hc, hf⟩ := hq
  obtain ⟨c2, h2, hs⟩ := h.cell_some hc
  exact ⟨c2, h2, by rw [Cell.shape_isFormula hs, hf]⟩

theorem Sheet.validCaches_put (s : Sheet) (p : Position) (c c2 : Cell)
    (hc : s.cell p = some c) :
    (s.put p (some c2)).validCaches + (if c.impl_.isCached then 1 else 0) =
      s.validCaches + (if c2.impl_.isCached then 1 else 0) := by
  have hf := Sheet.cell_eq_some.mp hc
  clear hc
  induction s with
  | nil => simp [Sheet.find] at hf
  | cons e rest ih =>
    obtain ⟨k, v⟩ := e
    by_cases hk : k = p
    · subst hk
      simp [Sheet.find] at hf
      subst hf
      simp only [Sheet.put, if_true, Sheet.validCaches]
      omega
    · simp [Sheet.find, hk] at hf
      have := ih hf
      cases v with
      | none => simpa [Sheet.put, hk, Sheet.validCaches] using this
      | some c3 =>
        simp only [Sheet.put, hk, if_false, Sheet.validCaches]
        omega

theorem Impl.isCached_of_valid_formula {i : Impl} (hf : i.isFormula = true)
    (hv : i.IsCacheValid = true) : i.isCached = true := by
  cases i with
  | EmptyImpl => simp [Impl.isFormula] at hf
  | TextImpl t => simp [Impl.isFormula] at hf
  | FormulaImpl f cache =>
    cases cache with
    | none => simp [Impl.IsCacheValid] at hv
    | some v => rfl

theorem Sheet.Invalidated.unchanged (s : Sheet) : s.Invalidated s :=
  ⟨fun _ => Or.inl rfl, fun y h1 h2 => by rw [h1] at h2; simp at h2⟩

theorem Sheet.Invalidated.not_cached {s s2 : Sheet} (h : s.Invalidated s2) {x : Position}
    (hx : (s.implAt x).isCached = false) : (s2.implAt x).isCached = false := by
  unfold Sheet.implAt at hx ⊢
  rcases h.cleared x with h1 | ⟨c, hc, hc2⟩
  · rw [h1]; exact hx
  · rw [hc2]
    exact Impl.isCached_InvalidateCache _

theorem Sheet.Invalidated.cell_of_cached {s s2 : Sheet} (h : s.Invalidated s2) {x : Position}
    (hx : (s2.implAt x).isCached = true) : s2.cell x = s.cell x := by
  rcases h.cleared x with h1 | ⟨c, hc, hc2⟩
  · exact h1
  · unfold Sheet.implAt at hx
    rw [hc2] at hx
    simp only at hx
    rw [Impl.isCached_InvalidateCache] at hx
    simp at hx

theorem Sheet.Invalidated.compose {s s2 s3 : Sheet} (h1 : s.Invalidated s2)
    (h2 : s2.Invalidated s3) (hleft : ∀ q, s2.left q = s.left q) : s.Invalidated s3 := by
  constructor
  · intro q
    rcases h1.cleared q with a | ⟨c, hc, hc2⟩
    · rcases h2.cleared q with b | ⟨c2, hc3, hc4⟩
      · exact Or.inl (b.trans a)
      · exact Or.inr ⟨c2, a ▸ hc3, hc4⟩
    · right
      refine ⟨c, hc, ?_⟩
      rcases h2.cleared q with b | ⟨c2, hc3, hc4⟩
      · exact b.trans hc2
      · rw [hc2] at hc3
        cases hc3
        rw [hc4]
        simp [Impl.InvalidateCache_idem]
  · intro y hy hy3 x hx
    cases hy2 : (s2.implAt y).isCached with
    | true => exact h2.closed y hy2 hy3 x (by rw [hleft]; exact hx)
    | false => exact h2.not_cached (h1.closed y hy hy2 x hx)

theorem Impl.isCached_false_of_not_valid {i : Impl} (h : i.IsCacheValid = false) :
    i.isCached = false := by
  cases i with
  | EmptyImpl => simp [Impl.IsCacheValid] at h
  | TextImpl t => simp [Impl.IsCacheValid] at h
  | FormulaImpl f w =>
    cases w with
    | none => rfl
    | some v => simp [Impl.IsCacheValid] at h

/-- `DoInvalidCache` returns, clears the cache of the cell it is called on, and leaves no
populated cache among the dependents of a cell whose cache it has cleared, nor, when it
is forced, among the dependents of the cell it is called on. -/
theorem Cell.DoInvalidCache_spec :
    ∀ (n : Nat) (s : Sheet) (self : Position) (flag : Bool),
      (∀ p q, q ∈ s.left p → s.formulaAt q) →
      (s.cell self).isSome = true →
      (flag = false → s.formulaAt self) →
      s.validCaches + (if flag then 2 else 1) ≤ n →
      ∃ s2, Cell.DoInvalidCache n s self flag = (s2, none) ∧ s.CacheOnly s2 ∧
        s2.validCaches ≤ s.validCaches ∧ s.Invalidated s2 ∧
        (s2.implAt self).isCached = false ∧
        (flag = true → ∀ x ∈ s.left self, (s2.implAt x).isCached = false) := by
  intro n
  induction n with
  | zero =>
    intro s self flag _ _ _ hfuel
    cases flag <;> simp at hfuel
  | succ n ih =>
    intro s self flag hleft hself hform hfuel
    obtain ⟨c, hc⟩ := Option.isSome_iff_exists.mp hself
    have hloop : ∀ (xs : List Position) (t : Sheet),
        (∀ p q, q ∈ t.left p → t.formulaAt q) →
        (∀ x ∈ xs, t.formulaAt x) →
        t.validCaches + 1 ≤ n →
        ∃ t2, forEach (fun s1 incoming => Cell.DoInvalidCache n s1 incoming false) xs t =
            (t2, none) ∧ t.CacheOnly t2 ∧ t2.validCaches ≤ t.validCaches ∧
            t.Invalidated t2 ∧ ∀ x ∈ xs, (t2.implAt x).isCached = false := by
      intro xs
      induction xs with
      | nil =>
        intro t _ _ _
        exact ⟨t, rfl, Sheet.CacheOnly.refl t, le_refl _, Sheet.Invalidated.unchanged t, by simp⟩
      | cons x rest ihx =>
        intro t htl hxs htf
        have hx := hxs x (List.mem_cons_self _ _)
        obtain ⟨cx, hcx, _⟩ := id hx
        obtain ⟨t1, h1, hco1, hv1, hin1, hnc1, _⟩ := ih t x false htl (by simp [hcx])
          (fun _ => hx) (by simpa using htf)
        obtain ⟨t2, h2, hco2, hv2, hin2, hnc2⟩ := ihx t1
          (by
            intro p q hq
            rw [hco1.left p] at hq
            exact hco1.formulaAt (htl p q hq))
          (fun y hy => hco1.formulaAt (hxs y (List.mem_cons_of_mem _ hy)))
          (by omega)
        refine ⟨t2, by simp [forEach, h1, Res.andThen, h2], hco1.trans hco2, by omega,
          hin1.compose hin2 hco1.left, ?_⟩
        intro y hy
        rcases List.mem_cons.mp hy with hy | hy
        · subst hy; exact hin2.not_cached hnc1
        · exact hnc2 y hy
    unfold Cell.DoInvalidCache
    simp only [hc]
    by_cases hcond : (c.impl_.IsCacheValid || flag) = true
    · simp only [hcond, if_true]
      have hco : s.CacheOnly (s.put self (some { c with impl_ := c.impl_.InvalidateCache })) :=
        Sheet.CacheOnly.of_put hc (Cell.shape_shape_impl c)
      have hv := Sheet.validCaches_put s self c { c with impl_ := c.impl_.InvalidateCache } hc
      simp only [Impl.isCached_InvalidateCache, Bool.false_eq_true, if_false,
        Nat.add_zero] at hv
      have hfuel2 : (s.put self (some { c with impl_ := c.impl_.InvalidateCache })).validCaches
          + 1 ≤ n := by
        cases flag with
        | true =>
          simp only [if_true] at hfuel
          omega
        | false =>
          obtain ⟨c0, hc0, hf0⟩ := hform rfl
          rw [hc] at hc0
          cases hc0
          have hval : c.impl_.IsCacheValid = true := by simpa using hcond
          have := Impl.isCached_of_valid_formula hf0 hval
          simp only [this, if_true] at hv
          simp only [Bool.false_eq_true, if_false] at hfuel
          omega
      obtain ⟨t2, h2, hco2, hv2, hin2, hnc2⟩ := hloop c.left_nods_ _
        (by
          intro p q hq
          rw [hco.left p] at hq
          exact hco.formulaAt (hleft p q hq))
        (by
          intro x hx
          exact hco.formulaAt (hleft self x (by rw [Sheet.left_of_cell hc]; exact hx)))
        hfuel2
      have hcell1 := fun q => Sheet.cell_put s self q c
        { c with impl_ := c.impl_.InvalidateCache } hc
      have hself1 : ((s.put self (some { c with impl_ := c.impl_.InvalidateCache })).implAt
          self).isCached = false := by
        unfold Sheet.implAt
        rw [hcell1 self]
        simp [Impl.isCached_InvalidateCache]
      refine ⟨t2, h2, hco.trans hco2, by omega, ?_, hin2.not_cached hself1, ?_⟩
      · constructor
        · intro q
          by_cases hq : q = self
          · subst hq
            right
            refine ⟨c, hc, ?_⟩
            rcases hin2.cleared q with a | ⟨c1, hc1, hc2⟩
            · rw [a, hcell1 q]; simp
            · rw [hcell1 q] at hc1
              simp only [if_true, Option.some.injEq] at hc1
              subst hc1
              rw [hc2]
              simp [Impl.InvalidateCache_idem]
          · have : (s.put self (some { c with impl_ := c.impl_.InvalidateCache })).cell q =
                s.cell q := by rw [hcell1 q]; simp [hq]
            rcases hin2.cleared q with a | ⟨c1, hc1, hc2⟩
            · exact Or.inl (a.trans this)
            · exact Or.inr ⟨c1, this ▸ hc1, hc2⟩
        · intro y hy hy2 x hx
          by_cases hys : y = self
          · subst hys
            exact hnc2 x (by rw [← Sheet.left_of_cell hc]; exact hx)
          · have hy1 : ((s.put self (some { c with impl_ :=
                c.impl_.InvalidateCache })).implAt y).isCached = true := by
              unfold Sheet.implAt
              rw [hcell1 y]
              simpa [hys, Sheet.implAt] using hy
            exact hin2.closed y hy1 hy2 x (by rw [hco.left]; exact hx)
      · intro _ x hx
        exact hnc2 x (by rw [← Sheet.left_of_cell hc]; exact hx)
    · have hcond2 : (c.impl_.IsCacheValid || flag) = false := by simpa using hcond
      simp only [hcond2, Bool.false_eq_true, if_false]
      refine ⟨s, rfl, Sheet.CacheOnly.refl s, le_refl _, Sheet.Invalidated.unchanged s, ?_, ?_⟩
      · have : c.impl_.IsCacheValid = false := by
          cases hv : c.impl_.IsCacheValid with
          | false => rfl
          | true => simp [hv] at hcond2
        simpa [Sheet.implAt, hc] using Impl.isCached_false_of_not_valid this
      · intro hf
        subst hf
        simp at hcond2
/-! ## The loop of `Cell::Set` that installs the new edges -/

theorem Sheet.validCaches_le_length (s : Sheet) : s.validCaches ≤ s.length := by
  induction s with
  | nil => simp [Sheet.validCaches]
  | cons e rest ih =>
    obtain ⟨k, v⟩ := e
    cases v with
    | none => simp [Sheet.validCaches]; omega
    | some c =>
      simp only [Sheet.validCaches, List.length_cons]
      split <;> omega

theorem Sheet.refs_eq_implAt (s : Sheet) (q : Position) :
    s.refs q = (s.implAt q).GetReferencedCells := by
  unfold Sheet.refs Sheet.implAt
  cases s.cell q <;> rfl

theorem Cell.makeImpl_nil (env : Env) : Cell.makeImpl env [] = .ok .EmptyImpl := rfl

theorem Cell.CheckForCyclicity_of_nil (s : Sheet) (self : Position) (impl : Impl)
    (h : impl.GetReferencedCells = []) : Cell.CheckForCyclicity s self impl = .ok false := by
  simp [Cell.CheckForCyclicity, h]

/-- The straight-line path of `Cell::Set` through its statements. -/
theorem Cell.SetWith_of_steps (SetCell : Sheet → Position → Str → Res) (env : Env)
    (s : Sheet) (self : Position) (text : Str) (c c1 : Cell) (impl : Impl) (s1 : Sheet) (r : Res)
    (hc : s.cell self = some c) (hi : Cell.makeImpl env text = .ok impl)
    (hk : Cell.CheckForCyclicity s self impl = .ok false)
    (h1 : Cell.RemoveDependenciesFrom s self self = (s1, none))
    (hc1 : s1.cell self = some c1)
    (h3 : forEach (Cell.linkStep SetCell self) impl.GetReferencedCells
      (s1.put self (some { c1 with impl_ := impl })) = r) :
    Cell.SetWith SetCell env s self text =
      r.andThen fun s3 => Cell.DoInvalidCache s3.invalidateFuel s3 self true := by
  unfold Cell.SetWith
  simp only [hc, hi, hk, h1, Res.andThen, hc1, h3]

theorem Cell.DoInvalidCache_leaf (n : Nat) (s : Sheet) (self : Position) (c : Cell)
    (hc : s.cell self = some c) (hl : c.left_nods_ = []) (hi : c.impl_ = .EmptyImpl) :
    Cell.DoInvalidCache (n + 1) s self true = (s, none) := by
  have hput : s.put self (some { c with impl_ := c.impl_.InvalidateCache }) = s := by
    have : ({ c with impl_ := c.impl_.InvalidateCache } : Cell) = c := by
      cases c with
      | mk i l r =>
        simp only at hi
        subst hi
        rfl
    rw [this]
    exact Sheet.put_same _ _ _ hc
  simp only [Cell.DoInvalidCache, hc, Bool.or_true, if_true]
  rw [hput, hl]
  rfl

theorem Sheet.SetCellFuel_succ (env : Env) (n : Nat) (s : Sheet) (pos : Position) (text : Str)
    (hv : pos.IsValid = true) :
    Sheet.SetCellFuel env (n + 1) s pos text =
      Cell.SetWith (Sheet.SetCellFuel env n) env (s.emplace pos Cell.new) pos text := by
  simp [Sheet.SetCellFuel, hv]

/-- The nested `SetCell(pos, "")` of `Cell::Set`, at a position without an entry,
only adds a fresh empty cell. -/
theorem Sheet.SetCellFuel_materialize (env : Env) (s : Sheet) (pos : Position)
    (hv : pos.IsValid = true) (hf : s.find pos = none) :
    Sheet.SetCellFuel env 1 s pos [] = (s.emplace pos Cell.new, none) := by
  have hcell : (s.emplace pos Cell.new).cell pos = some Cell.new := by
    rw [Sheet.cell_emplace]; simp [hf]
  have hput : (s.emplace pos Cell.new).put pos (some { Cell.new with impl_ := .EmptyImpl }) =
      s.emplace pos Cell.new :=
    Sheet.put_same _ _ _ hcell
  have h1 : Cell.RemoveDependenciesFrom (s.emplace pos Cell.new) pos pos =
      (s.emplace pos Cell.new, none) := by
    unfold Cell.RemoveDependenciesFrom
    simp only [hcell]
    rfl
  have h3 : forEach (Cell.linkStep (Sheet.SetCellFuel env 0) pos)
      Impl.EmptyImpl.GetReferencedCells
      ((s.emplace pos Cell.new).put pos (some { Cell.new with impl_ := .EmptyImpl })) =
      (s.emplace pos Cell.new, none) := by
    rw [hput]; rfl
  rw [Sheet.SetCellFuel_succ env 0 s pos [] hv]
  rw [Cell.SetWith_of_steps _ env _ pos [] Cell.new Cell.new .EmptyImpl _ _ hcell
    (Cell.makeImpl_nil env) (Cell.CheckForCyclicity_of_nil _ _ .EmptyImpl rfl) h1 hcell h3]
  simp only [Res.andThen, Sheet.invalidateFuel]
  exact Cell.DoInvalidCache_leaf _ _ pos Cell.new hcell rfl rfl

/-- The nested `SetCell(pos, "")` of `Cell::Set`, at a position whose entry was
reset, dereferences the null pointer. -/
theorem Sheet.SetCellFuel_reset (env : Env) (s : Sheet) (pos : Position)
    (hv : pos.IsValid = true) (hf : s.find pos = some none) (n : Nat) (text : Str) :
    Sheet.SetCellFuel env (n + 1) s pos text = (s, some .nullDereference) := by
  have hem : s.emplace pos Cell.new = s := by simp [Sheet.emplace, hf]
  have hcell : s.cell pos = none := by simp [Sheet.cell, hf]
  rw [Sheet.SetCellFuel_succ env n s pos text hv, hem]
  unfold Cell.SetWith
  simp [hcell]

theorem Sheet.left_of_none {s : Sheet} {q : Position} (h : s.cell q = none) : s.left q = [] := by
  simp [Sheet.left, h]

theorem Sheet.right_of_none {s : Sheet} {q : Position} (h : s.cell q = none) :
    s.right q = [] := by
  simp [Sheet.right, h]

/-- The two statements that link `self` to a live cell `pos`. -/
theorem Cell.link_spec (s : Sheet) (self pos : Position) (cs cp : Cell)
    (hs : s.cell self = some cs) (hp : s.cell pos = some cp) :
    ∃ s2, Cell.AddDependency
        (s.put self (some { cs with right_nods_ := setInsert pos cs.right_nods_ })) pos self =
        (s2, none) ∧ Sheet.Linked self [pos] s s2 := by
  obtain ⟨c1, hp2, hc1⟩ : ∃ c1,
      (s.put self (some { cs with right_nods_ := setInsert pos cs.right_nods_ })).cell pos =
        some c1 ∧
      c1 = (if pos = self then { cs with right_nods_ := setInsert pos cs.right_nods_ }
          else cp) := by
    refine ⟨_, ?_, rfl⟩
    rw [Sheet.cell_put s self pos cs _ hs]
    by_cases h : pos = self <;> simp [h, hp]
  refine ⟨(s.put self (some { cs with right_nods_ := setInsert pos cs.right_nods_ })).put pos
    (some { c1 with left_nods_ := setInsert self c1.left_nods_ }),
    by simp only [Cell.AddDependency, hp2], ?_⟩
  have hcell : ∀ q,
      ((s.put self (some { cs with right_nods_ := setInsert pos cs.right_nods_ })).put pos
        (some { c1 with left_nods_ := setInsert self c1.left_nods_ })).cell q =
      (s.cell q).map fun c =>
        { c with
          right_nods_ := if q = self then setInsert pos c.right_nods_ else c.right_nods_,
          left_nods_ := if q = pos then setInsert self c.left_nods_ else c.left_nods_ } := by
    intro q
    rw [Sheet.cell_put _ pos q _ _ hp2, Sheet.cell_put s self q cs _ hs]
    by_cases hqp : q = pos
    · subst hqp
      by_cases hqs : q = self
      · subst hqs; simp [hs, hc1]
      · simp [hqs, hp, hc1]
    · by_cases hqs : q = self
      · subst hqs; simp [hqp, hs]
      · cases s.cell q <;> simp [hqp, hqs]
  constructor
  · intro q
    rw [hcell q]
    constructor
    · intro h; left; simpa using h
    · rintro (h | h)
      · simpa using h
      · simp only [List.mem_singleton] at h; subst h; simp [hp]
  · intro q
    unfold Sheet.implAt
    rw [hcell q]
    cases s.cell q <;> simp
  · intro q b
    unfold Sheet.left
    rw [hcell q]
    cases hq : s.cell q with
    | none =>
      have : q ≠ pos := by rintro rfl; simp [hp] at hq
      simp [this]
    | some c =>
      by_cases hqp : q = pos
      · simp [hqp, mem_setInsert]; tauto
      · simp [hqp]
  · intro q b
    unfold Sheet.right
    rw [hcell q]
    cases hq : s.cell q with
    | none =>
      have : q ≠ self := by rintro rfl; simp [hs] at hq
      simp [this]
    | some c =>
      by_cases hqs : q = self
      · simp [hqs, mem_setInsert]; tauto
      · simp [hqs]
theorem Sheet.Linked.nil (self : Position) (s : Sheet) : Sheet.Linked self [] s s :=
  ⟨by simp, fun _ => rfl, by simp, by simp⟩

theorem Sheet.Linked.cons {self x : Position} {rest : List Position} {s s1 s2 : Sheet}
    (h1 : Sheet.Linked self [x] s s1) (h2 : Sheet.Linked self rest s1 s2) :
    Sheet.Linked self (x :: rest) s s2 := by
  constructor
  · intro q
    rw [h2.live q, h1.live q]
    simp only [List.mem_singleton, List.mem_cons]
    tauto
  · intro q
    rw [h2.impl q, h1.impl q]
  · intro q b
    rw [h2.left q b, h1.left q b]
    simp only [List.mem_singleton, List.mem_cons]
    tauto
  · intro q b
    rw [h2.right q b, h1.right q b]
    simp only [List.mem_singleton, List.mem_cons]
    tauto

theorem Sheet.Linked.of_emplace {self pos : Position} {s s2 : Sheet}
    (hf : s.find pos = none) (h : Sheet.Linked self [pos] (s.emplace pos Cell.new) s2) :
    Sheet.Linked self [pos] s s2 := by
  have hcell : ∀ q, (s.emplace pos Cell.new).cell q =
      if q = pos then some Cell.new else s.cell q := by
    intro q
    rw [Sheet.cell_emplace]
    by_cases hq : q = pos <;> simp [hq, hf]
  have hnone : s.cell pos = none := by simp [Sheet.cell, hf]
  constructor
  · intro q
    rw [h.live q, hcell q]
    by_cases hq : q = pos <;> simp [hq]
  · intro q
    rw [h.impl q]
    unfold Sheet.implAt
    rw [hcell q]
    by_cases hq : q = pos
    · subst hq; simp [hnone, Cell.new]
    · simp [hq]
  · intro q b
    rw [h.left q b]
    unfold Sheet.left
    rw [hcell q]
    by_cases hq : q = pos
    · subst hq; simp [hnone, Cell.new]
    · simp [hq]
  · intro q b
    rw [h.right q b]
    unfold Sheet.right
    rw [hcell q]
    by_cases hq : q = pos
    · subst hq; simp [hnone, Cell.new]
    · simp [hq]

/-- One iteration of the loop of `Cell::Set`: it dereferences a null pointer exactly
when the entry of the referenced position was reset, and links the two cells otherwise. -/
theorem Cell.linkStep_spec (env : Env) (s : Sheet) (self pos : Position) (cs : Cell)
    (hv : pos.IsValid = true) (hs : s.cell self = some cs) :
    (s.find pos = some none ∧
      Cell.linkStep (Sheet.SetCellFuel env 1) self s pos = (s, some .nullDereference)) ∨
    (s.find pos ≠ some none ∧
      ∃ s2, Cell.linkStep (Sheet.SetCellFuel env 1) self s pos = (s2, none) ∧
        Sheet.Linked self [pos] s s2) := by
  cases hp : s.cell pos with
  | some cp =>
    right
    have hfp : s.find pos ≠ some none := by
      rw [Sheet.cell_eq_some.mp hp]; simp
    obtain ⟨s2, h2, hl⟩ := Cell.link_spec s self pos cs cp hs hp
    refine ⟨hfp, s2, ?_, hl⟩
    unfold Cell.linkStep
    simp only [Sheet.GetCellPtr_of_valid s hv, hp, Option.isSome_some, if_true, hs]
    exact h2
  | none =>
    have hptr : s.GetCellPtr pos = .ok none := by
      rw [Sheet.GetCellPtr_of_valid s hv]; simp [hp]
    cases hf : s.find pos with
    | some v =>
      cases v with
      | some c => rw [Sheet.cell_eq_some.mpr hf] at hp; simp at hp
      | none =>
        left
        refine ⟨rfl, ?_⟩
        unfold Cell.linkStep
        simp only [hptr, Sheet.SetCellFuel_reset env s pos hv hf 0 [], Res.andThen]
    | none =>
      right
      refine ⟨by simp, ?_⟩
      have hne : self ≠ pos := by rintro rfl; simp [hs] at hp
      have hcp : (s.emplace pos Cell.new).cell pos = some Cell.new := by
        rw [Sheet.cell_emplace]; simp [hf]
      have hcs : (s.emplace pos Cell.new).cell self = some cs := by
        rw [Sheet.cell_emplace]; simp [hne, hs]
      have hptr2 : (s.emplace pos Cell.new).GetCellPtr pos = .ok (some pos) := by
        rw [Sheet.GetCellPtr_of_valid _ hv]; simp [hcp]
      obtain ⟨s2, h2, hl⟩ := Cell.link_spec _ self pos cs Cell.new hcs hcp
      refine ⟨s2, ?_, Sheet.Linked.of_emplace hf hl⟩
      unfold Cell.linkStep
      simp only [hptr, Sheet.SetCellFuel_materialize env s pos hv hf, Res.andThen, hptr2, hcs]
      exact h2

/-- The loop of `Cell::Set` over the referenced positions: it either dereferences a
null pointer or links `self` to every listed position. -/
theorem Cell.linkLoop_spec (env : Env) (self : Position) :
    ∀ (xs : List Position) (s : Sheet), (∀ p ∈ xs, p.IsValid = true) →
      (s.cell self).isSome = true →
      (∃ s2, forEach (Cell.linkStep (Sheet.SetCellFuel env 1) self) xs s =
        (s2, some .nullDereference)) ∨
      (∃ s2, forEach (Cell.linkStep (Sheet.SetCellFuel env 1) self) xs s = (s2, none) ∧
        Sheet.Linked self xs s s2)
  | [], s, _, _ => Or.inr ⟨s, rfl, Sheet.Linked.nil self s⟩
  | x :: rest, s, hv, hs => by
    obtain ⟨cs, hcs⟩ := Option.isSome_iff_exists.mp hs
    rcases Cell.linkStep_spec env s self x cs (hv x (List.mem_cons_self _ _)) hcs with
      ⟨_, h1⟩ | ⟨_, s1, h1, hl1⟩
    · left
      exact ⟨s, by simp [forEach, h1, Res.andThen]⟩
    · have hs1 : (s1.cell self).isSome = true := (hl1.live self).mpr (Or.inl hs)
      rcases Cell.linkLoop_spec env self rest s1
        (fun p hp => hv p (List.mem_cons_of_mem _ hp)) hs1 with ⟨s2, h2⟩ | ⟨s2, h2, hl2⟩
      · left
        exact ⟨s2, by simp [forEach, h1, Res.andThen, h2]⟩
      · right
        exact ⟨s2, by simp [forEach, h1, Res.andThen, h2], hl1.cons hl2⟩
/-! ## No operation shrinks the map -/

theorem Sheet.length_emplace_le (s : Sheet) (p : Position) (c : Cell) :
    s.length ≤ (s.emplace p c).length := by
  unfold Sheet.emplace
  cases s.find p <;> simp

theorem Res.andThen_length {n : Nat} {r : Res} {f : Sheet → Res} (hr : n ≤ r.1.length)
    (hf : ∀ s, s.length ≤ (f s).1.length) : n ≤ (r.andThen f).1.length := by
  obtain ⟨s, o⟩ := r
  cases o with
  | none => exact le_trans hr (hf s)
  | some e => exact hr

theorem forEach_length {α : Type} (body : Sheet → α → Res)
    (hb : ∀ s x, s.length ≤ (body s x).1.length) :
    ∀ (xs : List α) (s : Sheet), s.length ≤ (forEach body xs s).1.length
  | [], _ => le_refl _
  | x :: rest, s => Res.andThen_length (hb s x) (fun s1 => forEach_length body hb rest s1)

theorem Cell.RemoveDependency_length (s : Sheet) (self cell : Position) :
    s.length ≤ (Cell.RemoveDependency s self cell).1.length := by
  unfold Cell.RemoveDependency
  cases s.cell self <;> simp [Sheet.length_put]

theorem Cell.AddDependency_length (s : Sheet) (self cell : Position) :
    s.length ≤ (Cell.AddDependency s self cell).1.length := by
  unfold Cell.AddDependency
  cases s.cell self <;> simp [Sheet.length_put]

theorem Cell.RemoveDependenciesFrom_length (s : Sheet) (self cell : Position) :
    s.length ≤ (Cell.RemoveDependenciesFrom s self cell).1.length := by
  unfold Cell.RemoveDependenciesFrom
  cases s.cell self with
  | none => simp
  | some c => exact forEach_length _ (fun s1 x => Cell.RemoveDependency_length s1 x cell) _ _

theorem Cell.DoInvalidCache_length :
    ∀ (n : Nat) (s : Sheet) (self : Position) (flag : Bool),
      s.length ≤ (Cell.DoInvalidCache n s self flag).1.length
  | 0, s, self, flag => by simp [Cell.DoInvalidCache]
  | n + 1, s, self, flag => by
    unfold Cell.DoInvalidCache
    cases s.cell self with
    | none => simp
    | some c =>
      simp only
      split
      · have := forEach_length _ (fun s1 x => Cell.DoInvalidCache_length n s1 x false)
          c.left_nods_ (s.put self (some { c with impl_ := c.impl_.InvalidateCache }))
        rw [Sheet.length_put] at this
        exact this
      · simp

theorem Cell.linkStep_length (SetCell : Sheet → Position → Str → Res)
    (hset : ∀ s pos text, s.length ≤ (SetCell s pos text).1.length) (self : Position)
    (s : Sheet) (pos : Position) : s.length ≤ (Cell.linkStep SetCell self s pos).1.length := by
  have hlink : ∀ (s1 : Sheet) (outgoing : Position),
      s1.length ≤ (match s1.cell self with
        | none => ((s1, some Fault.nullDereference) : Res)
        | some c => Cell.AddDependency
            (s1.put self (some { c with right_nods_ := setInsert outgoing c.right_nods_ }))
            outgoing self).1.length := by
    intro s1 outgoing
    cases s1.cell self with
    | none => simp
    | some c =>
      have := Cell.AddDependency_length
        (s1.put self (some { c with right_nods_ := setInsert outgoing c.right_nods_ }))
        outgoing self
      rw [Sheet.length_put] at this
      exact this
  unfold Cell.linkStep
  cases s.GetCellPtr pos with
  | error e => simp
  | ok ptr =>
    cases ptr with
    | some outgoing => exact hlink s outgoing
    | none =>
      apply Res.andThen_length (hset s pos [])
      intro s1
      cases s1.GetCellPtr pos with
      | error e => simp
      | ok ptr1 =>
        cases ptr1 with
        | none => simp
        | some outgoing => exact hlink s1 outgoing

theorem Cell.SetWith_length (SetCell : Sheet → Position → Str → Res)
    (hset : ∀ s pos text, s.length ≤ (SetCell s pos text).1.length) (env : Env)
    (s : Sheet) (self : Position) (text : Str) :
    s.length ≤ (Cell.SetWith SetCell env s self text).1.length := by
  unfold Cell.SetWith
  cases s.cell self with
  | none => simp
  | some c =>
    simp only
    cases Cell.makeImpl env text with
    | error e => simp
    | ok impl =>
      simp only
      cases Cell.CheckForCyclicity s self impl with
      | error e => simp
      | ok b =>
        cases b with
        | true => simp
        | false =>
          simp only
          apply Res.andThen_length (Cell.RemoveDependenciesFrom_length s self self)
          intro s1
          cases s1.cell self with
          | none => simp
          | some c1 =>
            simp only
            apply Res.andThen_length
            · have := forEach_length _ (fun s2 x => Cell.linkStep_length SetCell hset self s2 x)
                impl.GetReferencedCells (s1.put self (some { c1 with impl_ := impl }))
              rw [Sheet.length_put] at this
              exact this
            · intro s3; exact Cell.DoInvalidCache_length _ _ _ _

theorem Sheet.SetCellFuel_length (env : Env) :
    ∀ (n : Nat) (s : Sheet) (pos : Position) (text : Str),
      s.length ≤ (Sheet.SetCellFuel env n s pos text).1.length
  | 0, s, pos, text => by simp [Sheet.SetCellFuel]
  | n + 1, s, pos, text => by
    unfold Sheet.SetCellFuel
    split
    · simp
    · exact le_trans (Sheet.length_emplace_le s pos Cell.new)
        (Cell.SetWith_length _ (Sheet.SetCellFuel_length env n) env _ pos text)

theorem Cell.Set_length (env : Env) (s : Sheet) (self : Position) (text : Str) :
    s.length ≤ (Cell.Set env s self text).1.length :=
  Cell.SetWith_length _ (Sheet.SetCellFuel_length env 1) env s self text
/-! ## What `Cell::Set` does -/

theorem Sheet.cell_isSome_of_mem_refs {s : Sheet} {a b : Position} (h : a ∈ s.refs b) :
    (s.cell b).isSome = true := by
  unfold Sheet.refs at h
  cases hb : s.cell b with
  | none => simp [hb] at h
  | some c => rfl

theorem Impl.isFormula_of_mem_refs {i : Impl} {a : Position} (h : a ∈ i.GetReferencedCells) :
    i.isFormula = true := by
  cases i with
  | EmptyImpl => simp [Impl.GetReferencedCells] at h
  | TextImpl t => simp [Impl.GetReferencedCells] at h
  | FormulaImpl f cache => rfl

theorem Sheet.formulaAt_of_mem_refs {s : Sheet} {a b : Position} (h : a ∈ s.refs b) :
    s.formulaAt b := by
  unfold Sheet.refs at h
  cases hb : s.cell b with
  | none => simp [hb] at h
  | some c =>
    rw [hb] at h
    exact ⟨c, hb, Impl.isFormula_of_mem_refs h⟩

theorem Sheet.formulaAt_iff {s : Sheet} {q : Position} :
    s.formulaAt q ↔ (s.implAt q).isFormula = true := by
  unfold Sheet.formulaAt Sheet.implAt
  cases h : s.cell q with
  | none => simp [Impl.isFormula]
  | some c => simp

theorem Sheet.CacheOnly.implAt {s s2 : Sheet} (h : s.CacheOnly s2) (q : Position) :
    (s2.implAt q).InvalidateCache = (s.implAt q).InvalidateCache := by
  unfold Sheet.implAt
  cases hc : s.cell q with
  | none =>
    have := h.isSome q
    rw [hc] at this
    cases h2 : s2.cell q with
    | none => rfl
    | some c2 => simp [h2] at this
  | some c =>
    obtain ⟨c2, h2, hs⟩ := h.cell_some hc
    simp [h2, Cell.shape_impl hs]

theorem Sheet.WF.left_live {s : Sheet} (h : s.WF) (p q : Position) (hq : q ∈ s.left p) :
    (s.cell q).isSome = true :=
  Sheet.cell_isSome_of_mem_refs ((h.left_iff p q).mp hq)

theorem Sheet.WF.left_formula {s : Sheet} (h : s.WF) (p q : Position) (hq : q ∈ s.left p) :
    s.formulaAt q :=
  Sheet.formulaAt_of_mem_refs ((h.left_iff p q).mp hq)

/-- A rejected `Cell::Set` whose text does not parse leaves the sheet as it was. -/
theorem Cell.Set_of_makeImpl_error (env : Env) (s : Sheet) (self : Position) (text : Str)
    (e : Fault) (hself : (s.cell self).isSome = true)
    (hi : Cell.makeImpl env text = .error e) : Cell.Set env s self text = (s, some e) := by
  obtain ⟨c, hc⟩ := Option.isSome_iff_exists.mp hself
  unfold Cell.Set Cell.SetWith
  simp only [hc, hi]

/-- `Cell::Set` with a content for which `CheckForCyclicity` answers true throws and
leaves the sheet as it was. -/
theorem Cell.Set_of_check_true (env : Env) (s : Sheet) (self : Position) (text : Str)
    (impl : Impl) (hself : (s.cell self).isSome = true)
    (hi : Cell.makeImpl env text = .ok impl)
    (hk : Cell.CheckForCyclicity s self impl = .ok true) :
    Cell.Set env s self text = (s, some .CircularDependencyException) := by
  obtain ⟨c, hc⟩ := Option.isSome_iff_exists.mp hself
  unfold Cell.Set Cell.SetWith
  simp only [hc, hi, hk]

/-- The loop of `RemoveDependenciesFrom` completes when every listed pointer leads to a
cell. -/
theorem Cell.removeLoop_live (cell : Position) :
    ∀ (xs : List Position) (s : Sheet), (∀ x ∈ xs, (s.cell x).isSome = true) →
      ∃ s2, forEach (fun s1 outgoing => Cell.RemoveDependency s1 outgoing cell) xs s =
        (s2, none)
  | [], s, _ => ⟨s, rfl⟩
  | x :: rest, s, h => by
    obtain ⟨c, hc⟩ := Option.isSome_iff_exists.mp (h x (List.mem_cons_self _ _))
    have hstep : Cell.RemoveDependency s x cell =
        (s.put x (some { c with left_nods_ := setErase cell c.left_nods_ }), none) := by
      simp [Cell.RemoveDependency, hc]
    have hrest : ∀ y ∈ rest,
        ((s.put x (some { c with left_nods_ := setErase cell c.left_nods_ })).cell
          y).isSome = true := by
      intro y hy
      rw [Sheet.cell_put s x y c _ hc]
      by_cases hyx : y = x
      · simp [hyx]
      · simp only [hyx, if_false]
        exact h y (List.mem_cons_of_mem _ hy)
    obtain ⟨s2, h2⟩ := Cell.removeLoop_live cell rest _ hrest
    refine ⟨s2, ?_⟩
    simp only [forEach, hstep, Res.andThen]
    exact h2

/-- `RemoveDependenciesFrom` completes when every pointer of `right_nods_` leads to a
cell. -/
theorem Cell.RemoveDependenciesFrom_live (s : Sheet) (self cell : Position)
    (hself : (s.cell self).isSome = true)
    (hright : ∀ x ∈ s.right self, (s.cell x).isSome = true) :
    ∃ s2, Cell.RemoveDependenciesFrom s self cell = (s2, none) := by
  obtain ⟨c, hc⟩ := Option.isSome_iff_exists.mp hself
  have hr : s.right self = c.right_nods_ := by simp [Sheet.right, hc]
  obtain ⟨s2, h2⟩ := Cell.removeLoop_live cell c.right_nods_ s (by rw [← hr]; exact hright)
  refine ⟨s2, ?_⟩
  simp only [Cell.RemoveDependenciesFrom, hc]
  exact h2

/-- The outcome of `Cell::Set` once the content is built and the cycle check has found
nothing: the graph is updated, unless a pointer of `right_nods_` dangles or a referenced
position has to be materialized through the nested `SetCell`. -/
theorem Cell.Set_outcome (env : Env) (s : Sheet) (self : Position) (text : Str)
    (impl : Impl) (hwf : s.WF) (hself : (s.cell self).isSome = true)
    (hi : Cell.makeImpl env text = .ok impl)
    (hk : Cell.CheckForCyclicity s self impl = .ok false) :
    (∃ s2, Cell.Set env s self text = (s2, some .nullDereference) ∧
      ((∃ x ∈ s.right self, s.cell x = none) ∨ impl.GetReferencedCells ≠ [])) ∨
    (∃ s2, Cell.Set env s self text = (s2, none) ∧ Sheet.SetPost self impl s s2 ∧
      Sheet.SetCaches self s s2) := by
  obtain ⟨c, hc⟩ := Option.isSome_iff_exists.mp hself
  rcases Cell.RemoveDependenciesFrom_spec s self self with ⟨s1, h1⟩ | ⟨s1, h1, _, hcell1⟩
  · left
    refine ⟨s1, ?_, ?_⟩
    · unfold Cell.Set Cell.SetWith
      simp only [hc, hi, hk, h1, Res.andThen]
    · left
      by_contra hno
      have hall : ∀ x ∈ s.right self, (s.cell x).isSome = true := by
        intro x hx
        cases hcx : s.cell x with
        | some cx => rfl
        | none => exact absurd ⟨x, hx, hcx⟩ hno
      obtain ⟨s2, h2⟩ := Cell.RemoveDependenciesFrom_live s self self hself hall
      rw [h2] at h1
      simp at h1
  · obtain ⟨c1, hc1⟩ : ∃ c1, s1.cell self = some c1 := by
      rw [hcell1 self, hc]; exact ⟨_, rfl⟩
    have hlive2 : ∀ q, ((s1.put self (some { c1 with impl_ := impl })).cell q).isSome =
        (s.cell q).isSome := by
      intro q
      rw [Sheet.cell_put s1 self q c1 _ hc1]
      by_cases hq : q = self
      · subst hq; simp [hc]
      · simp [hq, hcell1 q]
    have himpl2 : ∀ q, (s1.put self (some { c1 with impl_ := impl })).implAt q =
        if q = self then impl else s.implAt q := by
      intro q
      unfold Sheet.implAt
      rw [Sheet.cell_put s1 self q c1 _ hc1]
      by_cases hq : q = self
      · simp [hq]
      · simp only [hq, if_false, hcell1 q]
        cases s.cell q with
        | none => rfl
        | some cq => simp only [Option.map_some']; split <;> rfl
    have hleft2 : ∀ q b, b ∈ (s1.put self (some { c1 with impl_ := impl })).left q ↔
        (b ∈ s.left q ∧ ¬ (b = self ∧ q ∈ s.right self)) := by
      intro q b
      have hl1 : s1.left q = if q ∈ s.right self then setErase self (s.left q)
          else s.left q := by
        unfold Sheet.left
        rw [hcell1 q]
        cases s.cell q with
        | none => simp [setErase]
        | some cq => simp only [Option.map_some']; split <;> rfl
      rw [Sheet.left_put s1 self q c1 _ hc1]
      have : (if q = self then ({ c1 with impl_ := impl } : Cell).left_nods_ else s1.left q) =
          s1.left q := by
        by_cases hq : q = self
        · subst hq; simp [Sheet.left, hc1]
        · simp [hq]
      rw [this, hl1]
      by_cases hqr : q ∈ s.right self
      · simp only [hqr, if_true, mem_setErase]; tauto
      · simp only [hqr, if_false]; tauto
    have hright2 : ∀ q, (s1.put self (some { c1 with impl_ := impl })).right q = s.right q := by
      intro q
      have hr1 : s1.right q = s.right q := by
        unfold Sheet.right
        rw [hcell1 q]
        cases s.cell q with
        | none => rfl
        | some cq => simp only [Option.map_some']; split <;> rfl
      rw [Sheet.right_put s1 self q c1 _ hc1]
      by_cases hq : q = self
      · subst hq
        rw [← hr1]
        simp [Sheet.right, hc1]
      · simp [hq, hr1]
    rcases Cell.linkLoop_spec env self impl.GetReferencedCells
      (s1.put self (some { c1 with impl_ := impl }))
      (fun p hp => Impl.valid_of_mem_GetReferencedCells hp)
      (by rw [hlive2]; exact hself) with ⟨s3, h3⟩ | ⟨s3, h3, hl3⟩
    · left
      refine ⟨s3, ?_, ?_⟩
      · unfold Cell.Set
        rw [Cell.SetWith_of_steps _ env s self text c c1 impl s1 _ hc hi hk h1 hc1 h3]
        rfl
      · right
        intro hnil
        rw [hnil] at h3
        simp [forEach] at h3
    · right
      have himpl3 : ∀ q, s3.implAt q = if q = self then impl else s.implAt q := by
        intro q; rw [hl3.impl q, himpl2 q]
      have hform3 : ∀ p q, q ∈ s3.left p → s3.formulaAt q := by
        intro p q hq
        rw [Sheet.formulaAt_iff, himpl3 q]
        rcases (hl3.left p q).mp hq with h | ⟨h, hp⟩
        · obtain ⟨hql, hne⟩ := (hleft2 p q).mp h
          have hpr := (hwf.left_iff p q).mp hql
          have hqs : q ≠ self := by
            rintro rfl
            exact hne ⟨rfl, hwf.refs_right p q hpr⟩
          simp only [hqs, if_false]
          exact Sheet.formulaAt_iff.mp (Sheet.formulaAt_of_mem_refs hpr)
        · simp only [h, if_true]
          exact Impl.isFormula_of_mem_refs hp
      have hself3 : (s3.cell self).isSome = true :=
        (hl3.live self).mpr (Or.inl (by rw [hlive2]; exact hself))
      obtain ⟨s4, h4, hco, _, hinv, hnself, hnchild⟩ := Cell.DoInvalidCache_spec
        s3.invalidateFuel s3 self true hform3 hself3 (by simp)
        (by
          have := Sheet.validCaches_le_length s3
          simp only [Sheet.invalidateFuel, if_true]
          omega)
      have hset : Cell.Set env s self text = (s4, none) := by
        unfold Cell.Set
        rw [Cell.SetWith_of_steps _ env s self text c c1 impl s1 _ hc hi hk h1 hc1 h3]
        exact h4
      refine ⟨s4, hset, ?_, ?_⟩
      · constructor
        · intro q
          rw [hco.isSome q, hl3.live q, hlive2 q]
        · intro q
          rw [hco.implAt q, himpl3 q]
          by_cases hq : q = self <;> simp [hq]
        · intro q b
          rw [hco.left q, hl3.left q b, hleft2 q b]
        · intro q b
          rw [hco.right q, hl3.right q b, hright2 q]
      · have himpl4 : ∀ q, s4.implAt q = s3.implAt q ∨
            s4.implAt q = (s3.implAt q).InvalidateCache := by
          intro q
          unfold Sheet.implAt
          rcases hinv.cleared q with a | ⟨c3, hc3, hc4⟩
          · left; rw [a]
          · right; rw [hc3, hc4]
        constructor
        · intro x hx
          have hxs : x ≠ self := by
            rintro rfl
            rw [hnself] at hx
            simp at hx
          refine ⟨hxs, ?_⟩
          have := hinv.cell_of_cached hx
          unfold Sheet.implAt
          rw [this]
          have h3x := himpl3 x
          simp only [hxs, if_false] at h3x
          exact h3x
        · intro x hx
          exact hnchild rfl x (by rw [← hco.left]; exact hx)
        · intro y hy hcy hny x hx
          have h3y := himpl3 y
          simp only [hy, if_false] at h3y
          exact hinv.closed y (by rw [h3y]; exact hcy) hny x (by rw [← hco.left]; exact hx)
        · intro q hq hnf
          have h3q := himpl3 q
          simp only [hq, if_false] at h3q
          rcases himpl4 q with a | a
          · rw [a, h3q]
          · rw [a, h3q]
            have : (s.implAt q).isFormula = false := by
              cases hf : (s.implAt q).isFormula with
              | false => rfl
              | true => exact absurd (Sheet.formulaAt_iff.mpr hf) hnf
            cases hiq : s.implAt q with
            | EmptyImpl => rfl
            | TextImpl t => rfl
            | FormulaImpl f w => rw [hiq] at this; simp [Impl.isFormula] at this
        · have := Cell.Set_length env s self text
          rw [hset] at this
          exact this

/-- `Cell::Set` past the cycle check, on a sheet that satisfies the invariant: it
either dereferences a null or dangling pointer, or completes, and then the graph has
changed as `SetPost` says. It never runs out of budget. -/
theorem Cell.Set_of_check_false (env : Env) (s : Sheet) (self : Position) (text : Str)
    (impl : Impl) (hwf : s.WF) (hself : (s.cell self).isSome = true)
    (hi : Cell.makeImpl env text = .ok impl)
    (hk : Cell.CheckForCyclicity s self impl = .ok false) :
    (∃ s2, Cell.Set env s self text = (s2, some .nullDereference)) ∨
    (∃ s2, Cell.Set env s self text = (s2, none) ∧ Sheet.SetPost self impl s s2 ∧
      Sheet.SetCaches self s s2) := by
  rcases Cell.Set_outcome env s self text impl hwf hself hi hk with ⟨s2, h2, _⟩ | h
  · exact Or.inl ⟨s2, h2⟩
  · exact Or.inr h

/-! ## The invariant is kept -/

theorem Sheet.WF.dependent_of_dependsOn {s : Sheet} (h : s.WF) {x y : Position}
    (hxy : Relation.ReflTransGen s.DependsOn x y) : Relation.ReflTransGen s.Dependent y x := by
  induction hxy with
  | refl => exact Relation.ReflTransGen.refl
  | tail _ hstep ih =>
    exact Relation.ReflTransGen.head ((h.left_iff _ _).mpr hstep) ih

theorem Sheet.WF.dependsOn_of_dependent {s : Sheet} (h : s.WF) {x y : Position}
    (hxy : Relation.ReflTransGen s.Dependent x y) : Relation.ReflTransGen s.DependsOn y x := by
  induction hxy with
  | refl => exact Relation.ReflTransGen.refl
  | tail _ hstep ih =>
    exact Relation.ReflTransGen.head ((h.left_iff _ _).mp hstep) ih

theorem Sheet.SetPost.refs_eq {owner : Position} {content : Impl} {s s2 : Sheet}
    (hp : Sheet.SetPost owner content s s2) (q : Position) :
    s2.refs q = if q = owner then content.GetReferencedCells else s.refs q := by
  rw [Sheet.refs_eq_implAt, ← Impl.GetReferencedCells_InvalidateCache, hp.impl q]
  by_cases hq : q = owner
  · simp [hq, Impl.GetReferencedCells_InvalidateCache]
  · simp [hq, Impl.GetReferencedCells_InvalidateCache, Sheet.refs_eq_implAt]

/-- A cycle of the relation with the new content installed at `c` passes through `c`,
so one of the new references already depends on `c` or is `c`. -/
theorem Sheet.WF.installed_cycle {s : Sheet} (hwf : s.WF) {c : Position} {content : Impl}
    (hself : (s.cell c).isSome = true) {p : Position}
    (hcyc : Relation.TransGen (s.Installed c content) p p) :
    ∃ q, q ∈ content.GetReferencedCells ∧ (s.cell q).isSome = true ∧
      Relation.ReflTransGen s.DependsOn q c := by
  have hA : ∀ x, Relation.ReflTransGen (s.Installed c content) x c →
      Relation.ReflTransGen s.DependsOn x c := by
    intro x hx
    induction hx using Relation.ReflTransGen.head_induction_on with
    | refl => exact Relation.ReflTransGen.refl
    | @head a b hstep _ ih =>
      by_cases ha : a = c
      · subst ha; exact Relation.ReflTransGen.refl
      · have : s.DependsOn a b := by simpa [Sheet.Installed, ha] using hstep
        exact Relation.ReflTransGen.head this ih
  have hC : ∀ x y, Relation.TransGen (s.Installed c content) x y →
      Relation.TransGen s.DependsOn x y ∨
      (Relation.ReflTransGen (s.Installed c content) x c ∧
        ∃ n, n ∈ content.GetReferencedCells ∧
          Relation.ReflTransGen (s.Installed c content) n y) := by
    intro x y hxy
    induction hxy with
    | single hstep =>
      rename_i b
      by_cases hx : x = c
      · right
        have : b ∈ content.GetReferencedCells := by simpa [Sheet.Installed, hx] using hstep
        exact ⟨hx ▸ Relation.ReflTransGen.refl, b, this, Relation.ReflTransGen.refl⟩
      · left
        have : s.DependsOn x b := by simpa [Sheet.Installed, hx] using hstep
        exact Relation.TransGen.single this
    | tail hxb hstep ih =>
      rename_i b d
      rcases ih with ih | ⟨h1, n, hn, h2⟩
      · by_cases hb : b = c
        · right
          have : d ∈ content.GetReferencedCells := by simpa [Sheet.Installed, hb] using hstep
          exact ⟨hb ▸ hxb.to_reflTransGen, d, this, Relation.ReflTransGen.refl⟩
        · left
          have : s.DependsOn b d := by simpa [Sheet.Installed, hb] using hstep
          exact Relation.TransGen.tail ih this
      · right
        exact ⟨h1, n, hn, Relation.ReflTransGen.tail h2 hstep⟩
  rcases hC p p hcyc with h | ⟨h1, n, hn, h2⟩
  · exact absurd h (hwf.acyclic p)
  · have hn2 : Relation.ReflTransGen s.DependsOn n c := hA n (h2.trans h1)
    refine ⟨n, hn, ?_, hn2⟩
    rcases Relation.ReflTransGen.cases_head hn2 with h | ⟨z, hz, _⟩
    · rw [h]; exact hself
    · exact Sheet.cell_isSome_of_mem_refs hz

/-- A new reference that already depends on `c`, or is `c`, closes a cycle once the
new content is installed at `c`. -/
theorem Sheet.installed_cycle_of_path {s : Sheet} {c q : Position} {content : Impl}
    (hq : q ∈ content.GetReferencedCells) (hpath : Relation.ReflTransGen s.DependsOn q c) :
    Relation.TransGen (s.Installed c content) c c := by
  have hA : ∀ x, Relation.ReflTransGen s.DependsOn x c →
      Relation.ReflTransGen (s.Installed c content) x c := by
    intro x hx
    induction hx using Relation.ReflTransGen.head_induction_on with
    | refl => exact Relation.ReflTransGen.refl
    | @head a b hstep _ ih =>
      by_cases ha : a = c
      · subst ha; exact Relation.ReflTransGen.refl
      · have : s.Installed c content a b := by simpa [Sheet.Installed, ha] using hstep
        exact Relation.ReflTransGen.head this ih
  have hedge : s.Installed c content c q := by simpa [Sheet.Installed] using hq
  exact Relation.TransGen.head' hedge (hA q hpath)

/-- A completed `Cell::Set` keeps the invariant, provided no referenced cell was
reachable from the cell along the dependents relation. -/
theorem Sheet.WF.of_SetPost {owner : Position} {content : Impl} {s s2 : Sheet}
    (hwf : s.WF) (hself : (s.cell owner).isSome = true)
    (hp : Sheet.SetPost owner content s s2)
    (hno : ¬ ∃ q, Relation.ReflTransGen s.Dependent owner q ∧
      q ∈ content.GetReferencedCells ∧ (s.cell q).isSome = true) : s2.WF := by
  have hrefs := hp.refs_eq
  have hR2 : s2.DependsOn = s.Installed owner content := by
    funext x y
    unfold Sheet.DependsOn Sheet.Installed
    rw [hrefs x]
    by_cases hx : x = owner <;> simp [hx, Sheet.DependsOn]
  constructor
  · intro a b
    rw [hp.left a b, hrefs b]
    by_cases hb : b = owner
    · subst hb
      simp only [true_and, if_true]
      constructor
      · rintro (⟨h1, h2⟩ | h)
        · exact absurd (hwf.refs_right a b ((hwf.left_iff a b).mp h1)) h2
        · exact h
      · intro h; exact Or.inr h
    · simp only [hb, false_and, not_false_eq_true, and_true, or_false, if_false]
      exact hwf.left_iff a b
  · intro a b h
    rw [hrefs b] at h
    rw [hp.live a]
    by_cases hb : b = owner
    · simp only [hb, if_true] at h; exact Or.inr h
    · simp only [hb, if_false] at h; exact Or.inl (hwf.refs_live a b h)
  · intro a b h
    rw [hrefs b] at h
    rw [hp.right b a]
    by_cases hb : b = owner
    · simp only [hb, if_true] at h; exact Or.inr ⟨hb, h⟩
    · simp only [hb, if_false] at h; exact Or.inl (hwf.refs_right a b h)
  · intro p hcyc
    rw [hR2] at hcyc
    obtain ⟨q, hq, hlive, hpath⟩ := hwf.installed_cycle hself hcyc
    exact hno ⟨q, hwf.dependent_of_dependsOn hpath, hq, hlive⟩

theorem Sheet.WF.empty : Sheet.empty.WF := by
  constructor
  · intro a b; simp [Sheet.left, Sheet.refs, Sheet.cell, Sheet.find, Sheet.empty]
  · intro a b h; simp [Sheet.refs, Sheet.cell, Sheet.find, Sheet.empty] at h
  · intro a b h; simp [Sheet.refs, Sheet.cell, Sheet.find, Sheet.empty] at h
  · intro p h
    rcases Relation.TransGen.head'_iff.mp h with ⟨c, hc, _⟩
    simp [Sheet.DependsOn, Sheet.refs, Sheet.cell, Sheet.find, Sheet.empty] at hc

theorem Sheet.WF.of_views {s s2 : Sheet} (hwf : s.WF)
    (hlive : ∀ q, (s.cell q).isSome = true → (s2.cell q).isSome = true)
    (hleft : ∀ q, s2.left q = s.left q) (hright : ∀ q, s2.right q = s.right q)
    (hrefs : ∀ q, s2.refs q = s.refs q) : s2.WF := by
  have hR : s2.DependsOn = s.DependsOn := by
    funext x y
    simp [Sheet.DependsOn, hrefs]
  constructor
  · intro a b; rw [hleft, hrefs]; exact hwf.left_iff a b
  · intro a b h; rw [hrefs] at h; exact hlive a (hwf.refs_live a b h)
  · intro a b h; rw [hrefs] at h; rw [hright]; exact hwf.refs_right a b h
  · intro p; rw [hR]; exact hwf.acyclic p

theorem Sheet.WF.of_CacheOnly {s s2 : Sheet} (hwf : s.WF) (h : s.CacheOnly s2) : s2.WF :=
  hwf.of_views (fun q hq => by rw [h.isSome q]; exact hq) h.left h.right h.refs

theorem Sheet.WF.emplace {s : Sheet} (hwf : s.WF) (pos : Position) :
    (s.emplace pos Cell.new).WF := by
  cases hf : s.find pos with
  | some v =>
    have : s.emplace pos Cell.new = s := by simp [Sheet.emplace, hf]
    rw [this]; exact hwf
  | none =>
    have hnone : s.cell pos = none := by simp [Sheet.cell, hf]
    have hcell : ∀ q, (s.emplace pos Cell.new).cell q =
        if q = pos then some Cell.new else s.cell q := by
      intro q
      rw [Sheet.cell_emplace]
      by_cases hq : q = pos <;> simp [hq, hf]
    apply hwf.of_views
    · intro q hq
      rw [hcell q]
      by_cases hqp : q = pos <;> simp [hqp, hq]
    · intro q
      unfold Sheet.left
      rw [hcell q]
      by_cases hq : q = pos
      · subst hq; simp [hnone, Cell.new]
      · simp [hq]
    · intro q
      unfold Sheet.right
      rw [hcell q]
      by_cases hq : q = pos
      · subst hq; simp [hnone, Cell.new]
      · simp [hq]
    · intro q
      unfold Sheet.refs
      rw [hcell q]
      by_cases hq : q = pos
      · subst hq; simp [hnone, Cell.new, Impl.GetReferencedCells]
      · simp [hq]

/-- Destroying a cell that nothing references and that references nothing keeps the
invariant. -/
theorem Sheet.WF.reset {s : Sheet} (hwf : s.WF) (pos : Position)
    (hl : s.left pos = []) (hr : s.refs pos = []) : (s.put pos none).WF := by
  have hcell := Sheet.cell_put_none s pos
  have hleft : ∀ q, (s.put pos none).left q = s.left q := by
    intro q
    unfold Sheet.left
    rw [hcell q]
    by_cases hq : q = pos
    · subst hq
      have := hl
      unfold Sheet.left at this
      simp [this]
    · simp [hq]
  have hrefs : ∀ q, (s.put pos none).refs q = s.refs q := by
    intro q
    unfold Sheet.refs
    rw [hcell q]
    by_cases hq : q = pos
    · subst hq
      have := hr
      unfold Sheet.refs at this
      simp [this]
    · simp [hq]
  have hR : (s.put pos none).DependsOn = s.DependsOn := by
    funext x y
    simp [Sheet.DependsOn, hrefs]
  constructor
  · intro a b; rw [hleft, hrefs]; exact hwf.left_iff a b
  · intro a b h
    rw [hrefs] at h
    rw [hcell a]
    have hne : a ≠ pos := by
      rintro rfl
      have := (hwf.left_iff a b).mpr h
      rw [hl] at this
      simp at this
    simp only [hne, if_false]
    exact hwf.refs_live a b h
  · intro a b h
    rw [hrefs] at h
    have hb : b ≠ pos := by
      rintro rfl
      rw [hr] at h
      simp at h
    have := hwf.refs_right a b h
    unfold Sheet.right
    rw [hcell b]
    simpa [hb, Sheet.right] using this
  · intro p; rw [hR]; exact hwf.acyclic p

/-- The only exception the choice of the new content can throw is the parse failure;
the two `std::logic_error` of the constructors are unreachable. -/
theorem Cell.makeImpl_error {env : Env} {text : Str} {e : Fault}
    (h : Cell.makeImpl env text = .error e) : e = .FormulaException := by
  cases text with
  | nil => simp [Cell.makeImpl] at h
  | cons c rest =>
    by_cases hcond : 1 < (c :: rest).length ∧ c = FORMULA_SIGN
    · simp only [Cell.makeImpl] at h
      rw [if_pos hcond] at h
      have hc : ¬ c ≠ FORMULA_SIGN := fun hne => hne hcond.2
      simp only [Impl.newFormula] at h
      rw [if_neg hc] at h
      cases hp : env.ParseFormulaAST rest with
      | none =>
        simp only [ParseFormula, hp, Except.error.injEq] at h
        exact h.symm
      | some ast =>
        simp [ParseFormula, hp] at h
    · simp only [Cell.makeImpl] at h
      rw [if_neg hcond] at h
      simp [Impl.newText] at h

/-- On a sheet that satisfies the invariant, `Cell::Set` on a live cell never runs out
of budget, and unless it dereferences a null or dangling pointer it leaves a sheet that
satisfies the invariant. -/
theorem Cell.Set_WF (env : Env) (s : Sheet) (self : Position) (text : Str) (hwf : s.WF)
    (hself : (s.cell self).isSome = true) :
    (Cell.Set env s self text).2 ≠ some .fuelExhausted ∧
    ((Cell.Set env s self text).2 ≠ some .nullDereference → (Cell.Set env s self text).1.WF) := by
  cases hi : Cell.makeImpl env text with
  | error e =>
    rw [Cell.Set_of_makeImpl_error env s self text e hself hi]
    have := Cell.makeImpl_error hi
    subst this
    exact ⟨by simp, fun _ => hwf⟩
  | ok impl =>
    obtain ⟨b, hb, hiff⟩ := Cell.CheckForCyclicity_spec s self impl hwf.left_live hself
    cases b with
    | true =>
      rw [Cell.Set_of_check_true env s self text impl hself hi hb]
      exact ⟨by simp, fun _ => hwf⟩
    | false =>
      rcases Cell.Set_of_check_false env s self text impl hwf hself hi hb with
        ⟨s2, h2⟩ | ⟨s2, h2, hp, _⟩
      · rw [h2]; exact ⟨by simp, fun h => absurd rfl h⟩
      · rw [h2]
        refine ⟨by simp, fun _ => hwf.of_SetPost hself hp ?_⟩
        intro hex
        have := hiff.mpr hex
        simp at this
theorem Cell.Set_of_none (env : Env) (s : Sheet) (self : Position) (text : Str)
    (h : s.cell self = none) : Cell.Set env s self text = (s, some .nullDereference) := by
  unfold Cell.Set Cell.SetWith
  simp only [h]

theorem Sheet.SetCell_of_valid (env : Env) (s : Sheet) (pos : Position) (text : Str)
    (hv : pos.IsValid = true) :
    Sheet.SetCell env s pos text = Cell.Set env (s.emplace pos Cell.new) pos text := by
  unfold Sheet.SetCell Cell.Set
  exact Sheet.SetCellFuel_succ env 1 s pos text hv

theorem Sheet.SetCell_of_invalid (env : Env) (s : Sheet) (pos : Position) (text : Str)
    (hv : pos.IsValid = false) :
    Sheet.SetCell env s pos text = (s, some .InvalidPositionException) := by
  simp [Sheet.SetCell, Sheet.SetCellFuel, hv]

/-- `Sheet::SetCell` never exhausts the budget of the embedding, and unless it
dereferences a null or dangling pointer it keeps the invariant. -/
theorem Sheet.SetCell_WF (env : Env) (s : Sheet) (pos : Position) (text : Str) (hwf : s.WF) :
    (Sheet.SetCell env s pos text).2 ≠ some .fuelExhausted ∧
    ((Sheet.SetCell env s pos text).2 ≠ some .nullDereference →
      (Sheet.SetCell env s pos text).1.WF) := by
  cases hv : pos.IsValid with
  | false =>
    rw [Sheet.SetCell_of_invalid env s pos text hv]
    exact ⟨by simp, fun _ => hwf⟩
  | true =>
    rw [Sheet.SetCell_of_valid env s pos text hv]
    cases hc : (s.emplace pos Cell.new).cell pos with
    | none =>
      rw [Cell.Set_of_none env _ pos text hc]
      exact ⟨by simp, fun h => absurd rfl h⟩
    | some c =>
      exact Cell.Set_WF env _ pos text (hwf.emplace pos) (by simp [hc])

theorem Sheet.SetPost.left_owner_of_nil {owner : Position} {s s2 : Sheet}
    {content : Impl} (hp : Sheet.SetPost owner content s s2)
    (hnil : content.GetReferencedCells = []) (q : Position) :
    ∀ b, b ∈ s2.left q → b ∈ s.left q := by
  intro b hb
  rcases (hp.left q b).mp hb with h | h
  · exact h.1
  · rw [hnil] at h; simp at h

/-- `Sheet::ClearCell` never exhausts the budget of the embedding, and unless it
dereferences a null or dangling pointer it keeps the invariant. -/
theorem Sheet.ClearCell_WF (env : Env) (s : Sheet) (pos : Position) (hwf : s.WF) :
    (Sheet.ClearCell env s pos).2 ≠ some .fuelExhausted ∧
    ((Sheet.ClearCell env s pos).2 ≠ some .nullDereference →
      (Sheet.ClearCell env s pos).1.WF) := by
  unfold Sheet.ClearCell
  cases hv : pos.IsValid with
  | false => simp only [Bool.not_false, if_true]; exact ⟨by simp, fun _ => hwf⟩
  | true =>
    simp only [Bool.not_true, Bool.false_eq_true, if_false]
    cases hf : s.find pos with
    | none => exact ⟨by simp, fun _ => hwf⟩
    | some v =>
      cases v with
      | none => exact ⟨by simp, fun _ => hwf⟩
      | some c =>
        simp only
        have hself : (s.cell pos).isSome = true := by
          rw [Sheet.cell_eq_some.mpr hf]; rfl
        have hk : Cell.CheckForCyclicity s pos .EmptyImpl = .ok false :=
          Cell.CheckForCyclicity_of_nil s pos .EmptyImpl rfl
        rcases Cell.Set_of_check_false env s pos [] .EmptyImpl hwf hself
          (Cell.makeImpl_nil env) hk with ⟨s2, h2⟩ | ⟨s2, h2, hp, _⟩
        · unfold Cell.Clear
          rw [h2]
          exact ⟨by simp [Res.andThen], fun h => absurd rfl h⟩
        · have hwf2 : s2.WF := by
            apply hwf.of_SetPost hself hp
            rintro ⟨q, _, hq, _⟩
            simp [Impl.GetReferencedCells] at hq
          have hlive2 : (s2.cell pos).isSome = true := (hp.live pos).mpr (Or.inl hself)
          obtain ⟨c2, hc2⟩ := Option.isSome_iff_exists.mp hlive2
          unfold Cell.Clear
          rw [h2]
          simp only [Res.andThen, hc2]
          by_cases hr : c2.IsReferenced = true
          · simp only [hr, Bool.not_true, Bool.false_eq_true, if_false]
            exact ⟨by simp, fun _ => hwf2⟩
          · simp only [hr, Bool.not_false, if_true]
            refine ⟨by simp, fun _ => hwf2.reset pos ?_ ?_⟩
            · have : c2.left_nods_ = [] := by
                simpa [Cell.IsReferenced] using hr
              simp [Sheet.left, hc2, this]
            · rw [hp.refs_eq pos]
              simp [Impl.GetReferencedCells]

/-- Every reachable sheet satisfies the invariant of the graph. -/
theorem Sheet.Reachable.wf {env : Env} {s : Sheet} (h : Sheet.Reachable env s) : s.WF := by
  induction h with
  | empty => exact Sheet.WF.empty
  | setCell s pos text _ hok ih => exact (Sheet.SetCell_WF env s pos text ih).2 hok
  | clearCell s pos _ hok ih => exact (Sheet.ClearCell_WF env s pos ih).2 hok

/-- On a reachable sheet neither `SetCell` nor `ClearCell` exhausts the budget of the
embedding: both return, throw, or dereference a null or dangling pointer. -/
theorem Sheet.Reachable.fuel_suffices {env : Env} {s : Sheet} (h : Sheet.Reachable env s)
    (pos : Position) (text : Str) :
    (Sheet.SetCell env s pos text).2 ≠ some .fuelExhausted ∧
    (Sheet.ClearCell env s pos).2 ≠ some .fuelExhausted :=
  ⟨(Sheet.SetCell_WF env s pos text h.wf).1, (Sheet.ClearCell_WF env s pos h.wf).1⟩

theorem Sheet.WF.no_edge_cycle {s : Sheet} (hwf : s.WF) (p : Position) :
    ¬ Relation.TransGen s.Edge p p := by
  intro h
  apply hwf.acyclic p
  refine Relation.TransGen.mono ?_ h
  rintro x y ⟨cx, cy, hx, _, hy⟩
  simp [Sheet.DependsOn, Sheet.refs, hx, hy]
/-! ## The properties of the specification -/

/-- C1: in every sheet reachable from the empty sheet by finitely many `SetCell` and
`ClearCell` calls, calls that throw included, the dependency graph (an edge from the
cell at `x` to the cell at `y` whenever the current formula of `x` references the
position `y`) has no cycle. -/
theorem C1_dependency_graph_is_acyclic (env : Env) (s : Sheet)
    (h : Sheet.Reachable env s) (p : Position) : ¬ Relation.TransGen s.Edge p p :=
  h.wf.no_edge_cycle p

theorem C1_dependency_graph_is_acyclic_witness :
    Sheet.Reachable Env.sample
        (Sheet.SetCell Env.sample
          (Sheet.SetCell Env.sample Sheet.empty ⟨0, 0⟩ ['=', 'B', '1']).1
          ⟨0, 1⟩ ['=', 'A', '1']).1 ∧
      ¬ Relation.TransGen
        (Sheet.SetCell Env.sample
          (Sheet.SetCell Env.sample Sheet.empty ⟨0, 0⟩ ['=', 'B', '1']).1
          ⟨0, 1⟩ ['=', 'A', '1']).1.Edge ⟨0, 0⟩ ⟨0, 0⟩ :=
  have hr : Sheet.Reachable Env.sample
      (Sheet.SetCell Env.sample
        (Sheet.SetCell Env.sample Sheet.empty ⟨0, 0⟩ ['=', 'B', '1']).1
        ⟨0, 1⟩ ['=', 'A', '1']).1 :=
    Sheet.Reachable.setCell _ _ _
      (Sheet.Reachable.setCell _ _ _ Sheet.Reachable.empty (by decide)) (by decide)
  ⟨hr, C1_dependency_graph_is_acyclic Env.sample _ hr ⟨0, 0⟩⟩

/-- C2: on a reachable sheet, for a materialized cell `c` and a text whose content
`impl` is built without a parse failure, `Cell::Set` throws
`CircularDependencyException` exactly when installing the content would close a cycle
of dependency edges, and that is exactly when some valid position referenced by the
new content holds `c` itself or a cell that transitively depends on `c`. -/
theorem C2_set_throws_iff_cycle (env : Env) (s : Sheet) (c : Position) (text : Str)
    (impl : Impl) (h : Sheet.Reachable env s) (hc : (s.cell c).isSome = true)
    (hi : Cell.makeImpl env text = .ok impl) :
    ((Cell.Set env s c text).2 = some .CircularDependencyException ↔
      ∃ p, Relation.TransGen (s.Installed c impl) p p) ∧
    ((∃ p, Relation.TransGen (s.Installed c impl) p p) ↔
      ∃ q, q ∈ impl.GetReferencedCells ∧ (s.cell q).isSome = true ∧
        (q = c ∨ Relation.TransGen s.DependsOn q c)) := by
  have hwf := h.wf
  have hpath : ∀ q, (q = c ∨ Relation.TransGen s.DependsOn q c) ↔
      Relation.ReflTransGen s.DependsOn q c := by
    intro q
    rw [Relation.reflTransGen_iff_eq_or_transGen]
    constructor
    · rintro (h | h)
      · exact Or.inl h.symm
      · exact Or.inr h
    · rintro (h | h)
      · exact Or.inl h.symm
      · exact Or.inr h
  have hsecond : (∃ p, Relation.TransGen (s.Installed c impl) p p) ↔
      ∃ q, q ∈ impl.GetReferencedCells ∧ (s.cell q).isSome = true ∧
        (q = c ∨ Relation.TransGen s.DependsOn q c) := by
    constructor
    · rintro ⟨p, hp⟩
      obtain ⟨q, hq, hl, hqc⟩ := hwf.installed_cycle hc hp
      exact ⟨q, hq, hl, (hpath q).mpr hqc⟩
    · rintro ⟨q, hq, _, hqc⟩
      exact ⟨c, Sheet.installed_cycle_of_path hq ((hpath q).mp hqc)⟩
  refine ⟨?_, hsecond⟩
  rw [hsecond]
  obtain ⟨b, hb, hiff⟩ := Cell.CheckForCyclicity_spec s c impl hwf.left_live hc
  have hiff2 : b = true ↔ ∃ q, q ∈ impl.GetReferencedCells ∧ (s.cell q).isSome = true ∧
      (q = c ∨ Relation.TransGen s.DependsOn q c) := by
    rw [hiff]
    constructor
    · rintro ⟨q, hq1, hq2, hq3⟩
      exact ⟨q, hq2, hq3, (hpath q).mpr (hwf.dependsOn_of_dependent hq1)⟩
    · rintro ⟨q, hq2, hq3, hq1⟩
      exact ⟨q, hwf.dependent_of_dependsOn ((hpath q).mp hq1), hq2, hq3⟩
  rw [← hiff2]
  cases b with
  | true =>
    rw [Cell.Set_of_check_true env s c text impl hc hi hb]
    simp
  | false =>
    rcases Cell.Set_of_check_false env s c text impl hwf hc hi hb with ⟨s2, h2⟩ | ⟨s2, h2, _⟩
    · rw [h2]; simp
    · rw [h2]; simp

theorem C2_set_throws_iff_cycle_witness :
    ((Cell.Set Env.sample (Sheet.SetCell Env.sample Sheet.empty ⟨0, 0⟩ ['=', 'B', '1']).1
        ⟨0, 1⟩ ['=', 'A', '1']).2 = some .CircularDependencyException ↔
      ∃ p, Relation.TransGen
        ((Sheet.SetCell Env.sample Sheet.empty ⟨0, 0⟩ ['=', 'B', '1']).1.Installed ⟨0, 1⟩
          (.FormulaImpl ⟨[⟨0, 0⟩], .ask ⟨0, 0⟩ .done, ['A', '1']⟩ none)) p p) ∧
    ((∃ p, Relation.TransGen
        ((Sheet.SetCell Env.sample Sheet.empty ⟨0, 0⟩ ['=', 'B', '1']).1.Installed ⟨0, 1⟩
          (.FormulaImpl ⟨[⟨0, 0⟩], .ask ⟨0, 0⟩ .done, ['A', '1']⟩ none)) p p) ↔
      ∃ q, q ∈ (Impl.FormulaImpl ⟨[⟨0, 0⟩], .ask ⟨0, 0⟩ .done, ['A', '1']⟩
          none).GetReferencedCells ∧
        ((Sheet.SetCell Env.sample Sheet.empty ⟨0, 0⟩ ['=', 'B', '1']).1.cell q).isSome = true ∧
        (q = ⟨0, 1⟩ ∨ Relation.TransGen
          (Sheet.SetCell Env.sample Sheet.empty ⟨0, 0⟩ ['=', 'B', '1']).1.DependsOn q ⟨0, 1⟩)) :=
  C2_set_throws_iff_cycle Env.sample _ ⟨0, 1⟩ ['=', 'A', '1'] _
    (Sheet.Reachable.setCell _ _ _ Sheet.Reachable.empty (by decide)) (by decide) rfl
/-! ## A rejected `Cell::Set` changes nothing -/

theorem Res.quiet_andThen {r : Res} {f : Sheet → Res} (hr : r.quiet) (hf : ∀ s, (f s).quiet) :
    (r.andThen f).quiet := by
  obtain ⟨s, o⟩ := r
  cases o with
  | none => exact hf s
  | some e => exact hr

theorem forEach_quiet {α : Type} (body : Sheet → α → Res) (hb : ∀ s x, (body s x).quiet) :
    ∀ (xs : List α) (s : Sheet), (forEach body xs s).quiet
  | [], s => by simp [forEach, Res.quiet]
  | x :: rest, s => Res.quiet_andThen (hb s x) (fun s1 => forEach_quiet body hb rest s1)

theorem Cell.RemoveDependency_quiet (s : Sheet) (self cell : Position) :
    (Cell.RemoveDependency s self cell).quiet := by
  unfold Cell.RemoveDependency
  cases s.cell self <;> simp [Res.quiet]

theorem Cell.AddDependency_quiet (s : Sheet) (self cell : Position) :
    (Cell.AddDependency s self cell).quiet := by
  unfold Cell.AddDependency
  cases s.cell self <;> simp [Res.quiet]

theorem Cell.RemoveDependenciesFrom_quiet (s : Sheet) (self cell : Position) :
    (Cell.RemoveDependenciesFrom s self cell).quiet := by
  unfold Cell.RemoveDependenciesFrom
  cases s.cell self with
  | none => simp [Res.quiet]
  | some c => exact forEach_quiet _ (fun s1 x => Cell.RemoveDependency_quiet s1 x cell) _ _

theorem Cell.DoInvalidCache_quiet :
    ∀ (n : Nat) (s : Sheet) (self : Position) (flag : Bool),
      (Cell.DoInvalidCache n s self flag).quiet
  | 0, s, self, flag => by simp [Cell.DoInvalidCache, Res.quiet]
  | n + 1, s, self, flag => by
    unfold Cell.DoInvalidCache
    cases s.cell self with
    | none => simp [Res.quiet]
    | some c =>
      simp only
      split
      · exact forEach_quiet _ (fun s1 x => Cell.DoInvalidCache_quiet n s1 x false) _ _
      · simp [Res.quiet]

theorem Sheet.GetCellPtr_error {s : Sheet} {pos : Position} {e : Fault}
    (h : s.GetCellPtr pos = .error e) : e = .InvalidPositionException := by
  unfold Sheet.GetCellPtr at h
  split at h
  · simp only [Except.error.injEq] at h; exact h.symm
  · split at h <;> simp at h

theorem Cell.linkStep_quiet (SetCell : Sheet → Position → Str → Res)
    (hset : ∀ s pos, (SetCell s pos []).quiet) (self : Position) (s : Sheet) (pos : Position) :
    (Cell.linkStep SetCell self s pos).quiet := by
  have hlink : ∀ (s1 : Sheet) (outgoing : Position),
      Res.quiet (match s1.cell self with
        | none => ((s1, some Fault.nullDereference) : Res)
        | some c => Cell.AddDependency
            (s1.put self (some { c with right_nods_ := setInsert outgoing c.right_nods_ }))
            outgoing self) := by
    intro s1 outgoing
    cases s1.cell self with
    | none => simp [Res.quiet]
    | some c => exact Cell.AddDependency_quiet _ _ _
  unfold Cell.linkStep
  cases hp : s.GetCellPtr pos with
  | error e =>
    have := Sheet.GetCellPtr_error hp
    subst this
    simp [Res.quiet]
  | ok ptr =>
    cases ptr with
    | some outgoing => exact hlink s outgoing
    | none =>
      apply Res.quiet_andThen (hset s pos)
      intro s1
      cases hp1 : s1.GetCellPtr pos with
      | error e =>
        have := Sheet.GetCellPtr_error hp1
        subst this
        simp [Res.quiet]
      | ok ptr1 =>
        cases ptr1 with
        | none => simp [Res.quiet]
        | some outgoing => exact hlink s1 outgoing

theorem Cell.collectReferenced_error {s : Sheet} {e : Fault} :
    ∀ {xs : List Position}, Cell.collectReferenced s xs = .error e →
      e = .InvalidPositionException
  | [], h => by simp [Cell.collectReferenced] at h
  | x :: rest, h => by
    unfold Cell.collectReferenced at h
    cases hp : s.GetCellPtr x with
    | error e1 =>
      rw [hp] at h
      simp only [Except.error.injEq] at h
      subst h
      exact Sheet.GetCellPtr_error hp
    | ok ptr =>
      rw [hp] at h
      cases hr : Cell.collectReferenced s rest with
      | error e1 =>
        rw [hr] at h
        simp only [Except.error.injEq] at h
        subst h
        exact Cell.collectReferenced_error hr
      | ok ptrs => rw [hr] at h; simp at h

theorem Cell.cyclicityLoop_error (s : Sheet) (referenced : List (Option Position)) {e : Fault} :
    ∀ (n : Nat) (visited stack : List Position),
      Cell.cyclicityLoop s referenced n visited stack = .error e →
        e = .nullDereference ∨ e = .fuelExhausted
  | 0, visited, [], h => by simp [Cell.cyclicityLoop] at h
  | 0, visited, x :: rest, h => by
    simp only [Cell.cyclicityLoop, Except.error.injEq] at h
    exact Or.inr h.symm
  | n + 1, visited, [], h => by simp [Cell.cyclicityLoop] at h
  | n + 1, visited, x :: rest, h => by
    unfold Cell.cyclicityLoop at h
    split at h
    · simp at h
    · cases hc : s.cell x with
      | none =>
        rw [hc] at h
        simp only [Except.error.injEq] at h
        exact Or.inl h.symm
      | some c =>
        rw [hc] at h
        exact Cell.cyclicityLoop_error s referenced n _ _ h

theorem Cell.CheckForCyclicity_error {s : Sheet} {self : Position} {impl : Impl} {e : Fault}
    (h : Cell.CheckForCyclicity s self impl = .error e) :
    e ≠ .FormulaException ∧ e ≠ .CircularDependencyException := by
  unfold Cell.CheckForCyclicity at h
  split at h
  · simp at h
  · cases hr : Cell.collectReferenced s impl.GetReferencedCells with
    | error e1 =>
      rw [hr] at h
      simp only [Except.error.injEq] at h
      subst h
      rw [Cell.collectReferenced_error hr]
      simp
    | ok ptrs =>
      rw [hr] at h
      rcases Cell.cyclicityLoop_error s ptrs _ _ _ h with h1 | h1 <;> subst h1 <;> simp

theorem Cell.SetWith_quiet_nil (SetCell : Sheet → Position → Str → Res) (env : Env)
    (s : Sheet) (self : Position) : (Cell.SetWith SetCell env s self []).quiet := by
  unfold Cell.SetWith
  cases s.cell self with
  | none => simp [Res.quiet]
  | some c =>
    simp only [Cell.makeImpl_nil, Cell.CheckForCyclicity_of_nil s self .EmptyImpl rfl]
    apply Res.quiet_andThen (Cell.RemoveDependenciesFrom_quiet s self self)
    intro s1
    cases s1.cell self with
    | none => simp [Res.quiet]
    | some c1 =>
      apply Res.quiet_andThen
      · simp [Impl.GetReferencedCells, forEach, Res.quiet]
      · intro s3; exact Cell.DoInvalidCache_quiet _ _ _ _

theorem Sheet.SetCellFuel_quiet_nil (env : Env) (n : Nat) (s : Sheet) (pos : Position) :
    (Sheet.SetCellFuel env n s pos []).quiet := by
  cases n with
  | zero => simp [Sheet.SetCellFuel, Res.quiet]
  | succ n =>
    unfold Sheet.SetCellFuel
    split
    · simp [Res.quiet]
    · exact Cell.SetWith_quiet_nil _ env _ pos

/-- Whatever the sheet, once `Cell::Set` has passed the cycle check it throws neither
a parse failure nor a `CircularDependencyException`; and if it throws one of the two,
the sheet is the one it was called on. -/
theorem Cell.Set_rejected (env : Env) (s : Sheet) (self : Position) (text : Str)
    (h : (Cell.Set env s self text).2 = some .FormulaException ∨
      (Cell.Set env s self text).2 = some .CircularDependencyException) :
    (Cell.Set env s self text).1 = s := by
  unfold Cell.Set Cell.SetWith at h ⊢
  cases hc : s.cell self with
  | none => simp only [hc]
  | some c =>
    simp only [hc] at h ⊢
    cases hi : Cell.makeImpl env text with
    | error e => simp only [hi]
    | ok impl =>
      simp only [hi] at h ⊢
      cases hk : Cell.CheckForCyclicity s self impl with
      | error e => simp only [hk]
      | ok b =>
        cases b with
        | true => simp only [hk]
        | false =>
          exfalso
          simp only [hk] at h
          have hq : Res.quiet (Res.andThen (Cell.RemoveDependenciesFrom s self self) fun s1 =>
              match s1.cell self with
              | none => (s1, some Fault.nullDereference)
              | some c =>
                Res.andThen
                  (forEach (Cell.linkStep (Sheet.SetCellFuel env 1) self)
                    impl.GetReferencedCells (s1.put self (some { c with impl_ := impl })))
                  fun s3 => Cell.DoInvalidCache s3.invalidateFuel s3 self true) := by
            apply Res.quiet_andThen (Cell.RemoveDependenciesFrom_quiet s self self)
            intro s1
            cases s1.cell self with
            | none => simp [Res.quiet]
            | some c1 =>
              apply Res.quiet_andThen
              · exact forEach_quiet _
                  (fun s2 x => Cell.linkStep_quiet _
                    (fun s3 pos => Sheet.SetCellFuel_quiet_nil env 1 s3 pos) self s2 x) _ _
              · intro s3; exact Cell.DoInvalidCache_quiet _ _ _ _
          rcases h with h | h
          · exact hq.1 h
          · exact hq.2 h

/-- C4: whenever `Cell::Set` is rejected with a parse failure or with a
`CircularDependencyException`, the sheet it leaves behind is the sheet it was called
on: content, cache, dependency set and dependents set of every cell are unchanged. -/
theorem C4_rejected_set_changes_nothing (env : Env) (s : Sheet) (self : Position)
    (text : Str)
    (h : (Cell.Set env s self text).2 = some .FormulaException ∨
      (Cell.Set env s self text).2 = some .CircularDependencyException) :
    (Cell.Set env s self text).1 = s ∧
      ∀ q, (Cell.Set env s self text).1.cell q = s.cell q := by
  have := Cell.Set_rejected env s self text h
  exact ⟨this, fun q => by rw [this]⟩

theorem C4_rejected_set_changes_nothing_witness :
    ((Cell.Set Env.sample (Sheet.SetCell Env.sample Sheet.empty ⟨0, 0⟩ ['=', 'B', '1']).1
        ⟨0, 1⟩ ['=', 'A', '1']).2 = some .CircularDependencyException) ∧
    ((Cell.Set Env.sample (Sheet.SetCell Env.sample Sheet.empty ⟨0, 0⟩ ['=', 'B', '1']).1
        ⟨0, 1⟩ ['=', 'A', '1']).1 =
      (Sheet.SetCell Env.sample Sheet.empty ⟨0, 0⟩ ['=', 'B', '1']).1 ∧
      ∀ q, (Cell.Set Env.sample (Sheet.SetCell Env.sample Sheet.empty ⟨0, 0⟩ ['=', 'B', '1']).1
        ⟨0, 1⟩ ['=', 'A', '1']).1.cell q =
        (Sheet.SetCell Env.sample Sheet.empty ⟨0, 0⟩ ['=', 'B', '1']).1.cell q) :=
  ⟨by decide, C4_rejected_set_changes_nothing Env.sample _ ⟨0, 1⟩ ['=', 'A', '1']
    (Or.inr (by decide))⟩
/-- On a sheet that satisfies the invariant, `SetCell` with a formula that references
its own position throws `CircularDependencyException`, unless the entry of the position
was reset by `ClearCell`. -/
theorem Sheet.SetCell_self_reference (env : Env) (s : Sheet) (pos : Position) (text : Str)
    (impl : Impl) (hwf : s.WF) (hv : pos.IsValid = true) (hslot : s.find pos ≠ some none)
    (hi : Cell.makeImpl env text = .ok impl) (href : pos ∈ impl.GetReferencedCells) :
    (Sheet.SetCell env s pos text).2 = some .CircularDependencyException := by
  rw [Sheet.SetCell_of_valid env s pos text hv]
  have hlive : ((s.emplace pos Cell.new).cell pos).isSome = true := by
    rw [Sheet.cell_emplace]
    simp only [if_true]
    cases hf : s.find pos with
    | none => simp
    | some v =>
      cases v with
      | none => exact absurd hf hslot
      | some c => simp [Sheet.cell, hf]
  obtain ⟨b, hb, hiff⟩ := Cell.CheckForCyclicity_spec (s.emplace pos Cell.new) pos impl
    (hwf.emplace pos).left_live hlive
  have : b = true := hiff.mpr ⟨pos, Relation.ReflTransGen.refl, href, hlive⟩
  subst this
  rw [Cell.Set_of_check_true env _ pos text impl hlive hi hb]

/-- C3 (violated by the code): the sheet left by `SetCell(A1, "x")` and
`ClearCell(A1)` is reachable and A1 is a valid position, yet `SetCell(A1, "=A1")`,
whose formula references A1 itself, dereferences the null pointer that `ClearCell`
left in the map instead of throwing `CircularDependencyException`. -/
theorem C3_self_reference_on_cleared_position :
    Sheet.Reachable Env.sample
      (Sheet.ClearCell Env.sample
        (Sheet.SetCell Env.sample Sheet.empty ⟨0, 0⟩ ['x']).1 ⟨0, 0⟩).1 ∧
    Position.IsValid ⟨0, 0⟩ = true ∧
    (Sheet.SetCell Env.sample
      (Sheet.ClearCell Env.sample
        (Sheet.SetCell Env.sample Sheet.empty ⟨0, 0⟩ ['x']).1 ⟨0, 0⟩).1
      ⟨0, 0⟩ ['=', 'A', '1']).2 = some .nullDereference :=
  ⟨Sheet.Reachable.clearCell _ _
      (Sheet.Reachable.setCell _ _ _ Sheet.Reachable.empty (by decide)) (by decide),
    by decide, by decide⟩

/-- C5 (violated by the code): on the empty sheet `SetCell(A1, "=A1")` throws
`CircularDependencyException`, yet the cell that `SetCell` emplaced before delegating
stays in the map: `GetCell(A1)` was null and is a cell afterwards, and the printable
size grows from 0 by 0 to 1 by 1. -/
theorem C5_failed_SetCell_leaves_a_cell :
    (Sheet.SetCell Env.sample Sheet.empty ⟨0, 0⟩ ['=', 'A', '1']).2 =
      some .CircularDependencyException ∧
    (Sheet.empty.GetCell ⟨0, 0⟩ = .ok none) ∧
    (∃ c, (Sheet.SetCell Env.sample Sheet.empty ⟨0, 0⟩ ['=', 'A', '1']).1.GetCell ⟨0, 0⟩ =
      .ok (some c)) ∧
    Sheet.empty.GetPrintableSize = ⟨0, 0⟩ ∧
    (Sheet.SetCell Env.sample Sheet.empty ⟨0, 0⟩ ['=', 'A', '1']).1.GetPrintableSize = ⟨1, 1⟩ :=
  ⟨by decide, rfl, ⟨_, rfl⟩, by decide, by decide⟩

/-- C8 (violated by the code): after `SetCell(A1, "=B1")` and
`SetCell(A1, "x")` the cell B1 is still in the dependency set `right_nods_` of A1,
while A1 is no longer in the dependents set `left_nods_` of B1. -/
theorem C8_dependency_sets_not_symmetric :
    Sheet.Reachable Env.sample
      (Sheet.SetCell Env.sample
        (Sheet.SetCell Env.sample Sheet.empty ⟨0, 0⟩ ['=', 'B', '1']).1 ⟨0, 0⟩ ['x']).1 ∧
    (⟨0, 1⟩ : Position) ∈ (Sheet.SetCell Env.sample
        (Sheet.SetCell Env.sample Sheet.empty ⟨0, 0⟩ ['=', 'B', '1']).1
        ⟨0, 0⟩ ['x']).1.right ⟨0, 0⟩ ∧
    (⟨0, 0⟩ : Position) ∉ (Sheet.SetCell Env.sample
        (Sheet.SetCell Env.sample Sheet.empty ⟨0, 0⟩ ['=', 'B', '1']).1
        ⟨0, 0⟩ ['x']).1.left ⟨0, 1⟩ :=
  ⟨Sheet.Reachable.setCell _ _ _
      (Sheet.Reachable.setCell _ _ _ Sheet.Reachable.empty (by decide)) (by decide),
    by decide, by decide⟩

/-- C9 (violated by the code): `SetCell(A1, "x")` on the sheet left by
`SetCell(A1, "=B1")` succeeds and installs a literal text, which references nothing,
yet the dependency set `right_nods_` of A1 still holds B1. -/
theorem C9_dependency_set_keeps_old_references :
    (Sheet.SetCell Env.sample
      (Sheet.SetCell Env.sample Sheet.empty ⟨0, 0⟩ ['=', 'B', '1']).1 ⟨0, 0⟩ ['x']).2 = none ∧
    ((Sheet.SetCell Env.sample
      (Sheet.SetCell Env.sample Sheet.empty ⟨0, 0⟩ ['=', 'B', '1']).1
      ⟨0, 0⟩ ['x']).1.implAt ⟨0, 0⟩).GetText = ['x'] ∧
    (Sheet.SetCell Env.sample
      (Sheet.SetCell Env.sample Sheet.empty ⟨0, 0⟩ ['=', 'B', '1']).1
      ⟨0, 0⟩ ['x']).1.refs ⟨0, 0⟩ = [] ∧
    (Sheet.SetCell Env.sample
      (Sheet.SetCell Env.sample Sheet.empty ⟨0, 0⟩ ['=', 'B', '1']).1
      ⟨0, 0⟩ ['x']).1.right ⟨0, 0⟩ = [⟨0, 1⟩] :=
  ⟨by decide, by decide, by decide, by decide⟩

/-- C10 (violated by the code): `ClearCell(A1)` after `SetCell(A1, "x")`
physically removes the unreferenced cell (`GetCell(A1)` is null again), and the following
`SetCell(A1, "y")` with a non-empty literal text does not succeed: it finds the entry,
skips `emplace` and dereferences the null pointer the entry holds. -/
theorem C10_set_after_clear_dereferences_null :
    (Sheet.ClearCell Env.sample
      (Sheet.SetCell Env.sample Sheet.empty ⟨0, 0⟩ ['x']).1 ⟨0, 0⟩).2 = none ∧
    (Sheet.ClearCell Env.sample
      (Sheet.SetCell Env.sample Sheet.empty ⟨0, 0⟩ ['x']).1 ⟨0, 0⟩).1.GetCell ⟨0, 0⟩ =
        .ok none ∧
    (Sheet.SetCell Env.sample
      (Sheet.ClearCell Env.sample
        (Sheet.SetCell Env.sample Sheet.empty ⟨0, 0⟩ ['x']).1 ⟨0, 0⟩).1
      ⟨0, 0⟩ ['y']).2 = some .nullDereference :=
  ⟨by decide, rfl, by decide⟩
/-- C7 (violated by the code): the formula cell A1 set to `=1` has an empty
cache; the first `GetValue` runs `Formula::Evaluate` on it twice (once to populate the
cache, once more for the result it returns), and the second `GetValue`, which finds the
cache populated, runs it again: three evaluations where the specification allows one. -/
theorem C7_getValue_evaluates_on_every_call :
    ((Sheet.SetCell Env.sample Sheet.empty ⟨0, 0⟩ ['=', '1']).1.implAt ⟨0, 0⟩).IsCacheValid =
      false ∧
    (Sheet.GetValue Env.sample
      (Sheet.SetCell Env.sample Sheet.empty ⟨0, 0⟩ ['=', '1']).1 ⟨0, 0⟩).1.2 =
      [⟨0, 0⟩, ⟨0, 0⟩] ∧
    (Sheet.GetValue Env.sample
      (Sheet.SetCell Env.sample Sheet.empty ⟨0, 0⟩ ['=', '1']).1 ⟨0, 0⟩).2 =
      .ok (.number 1) ∧
    ((Sheet.GetValue Env.sample
      (Sheet.SetCell Env.sample Sheet.empty ⟨0, 0⟩ ['=', '1']).1 ⟨0, 0⟩).1.1.implAt
        ⟨0, 0⟩).IsCacheValid = true ∧
    (Sheet.GetValue Env.sample
      (Sheet.GetValue Env.sample
        (Sheet.SetCell Env.sample Sheet.empty ⟨0, 0⟩ ['=', '1']).1 ⟨0, 0⟩).1.1 ⟨0, 0⟩).1.2 =
      [⟨0, 0⟩] ∧
    (Sheet.GetValue Env.sample
      (Sheet.GetValue Env.sample
        (Sheet.SetCell Env.sample Sheet.empty ⟨0, 0⟩ ['=', '1']).1 ⟨0, 0⟩).1.1 ⟨0, 0⟩).2 =
      .ok (.number 1) :=
  ⟨by decide, by decide, rfl, by decide, by decide, rfl⟩
/-! ## The value of a formula: fuel and congruence -/

theorem Formula.pureRun_ask (args : Position → Except Fault FValue) (p : Position)
    (k : Number → Exec) :
    Formula.pureRun args (.ask p k) =
      match args p with
      | .error f => .error f
      | .ok (.error e) => .ok (.error e)
      | .ok (.number d) => Formula.pureRun args (k d) := by
  simp [Formula.pureRun]

theorem Formula.asked_ask (args : Position → Except Fault FValue) (p : Position)
    (k : Number → Exec) :
    Formula.asked args (.ask p k) =
      p :: (match args p with
        | .ok (.number d) => Formula.asked args (k d)
        | _ => []) := by
  simp [Formula.asked]

theorem Formula.pureRun_congr {args args2 : Position → Except Fault FValue} :
    ∀ (body : Exec), (∀ p ∈ Formula.asked args body, args2 p = args p) →
      Formula.pureRun args2 body = Formula.pureRun args body ∧
      Formula.asked args2 body = Formula.asked args body
  | .done d, _ => ⟨rfl, rfl⟩
  | .fail e, _ => ⟨rfl, rfl⟩
  | .ask p k, h => by
    have hp : args2 p = args p := h p (by simp [Formula.asked])
    cases hr : args p with
    | error f => simp [Formula.pureRun, Formula.asked, hp, hr]
    | ok r =>
      cases r with
      | error e => simp [Formula.pureRun, Formula.asked, hp, hr]
      | number d =>
        have ih := Formula.pureRun_congr (k d) (fun q hq => h q (by
          simp only [Formula.asked, hr, List.mem_cons]
          exact Or.inr hq))
        simp [Formula.pureRun, Formula.asked, hp, hr, ih.1, ih.2]

theorem Formula.asked_ok {args : Position → Except Fault FValue} :
    ∀ (body : Exec) (r : FValue), Formula.pureRun args body = .ok r →
      ∀ p ∈ Formula.asked args body, ∃ v, args p = .ok v
  | .done d, _, _ => by simp [Formula.asked]
  | .fail e, _, _ => by simp [Formula.asked]
  | .ask p k, r, h => by
    intro q hq
    rw [Formula.pureRun_ask] at h
    rw [Formula.asked_ask] at hq
    cases hr : args p with
    | error f => rw [hr] at h; simp at h
    | ok v =>
      cases v with
      | error e =>
        rw [hr] at hq
        simp only [List.mem_cons, List.not_mem_nil, or_false] at hq
        subst hq
        exact ⟨_, hr⟩
      | number d =>
        rw [hr] at hq h
        simp only [List.mem_cons] at hq
        rcases hq with hq | hq
        · subst hq; exact ⟨_, hr⟩
        · exact Formula.asked_ok (k d) r h q hq

theorem Formula.asked_mentions {args : Position → Except Fault FValue} :
    ∀ (body : Exec), ∀ p ∈ Formula.asked args body, body.Mentions p
  | .done d => by simp [Formula.asked]
  | .fail e => by simp [Formula.asked]
  | .ask p k => by
    intro q hq
    rw [Formula.asked_ask] at hq
    simp only [List.mem_cons] at hq
    rcases hq with hq | hq
    · subst hq; exact Exec.Mentions.here _ _
    · cases hr : args p with
      | error f => rw [hr] at hq; simp at hq
      | ok v =>
        cases v with
        | error e => rw [hr] at hq; simp at hq
        | number d =>
          rw [hr] at hq
          exact Exec.Mentions.later _ _ d _ (Formula.asked_mentions (k d) q hq)

theorem Formula.pureArgs_ok_mono {env : Env} {s : Sheet}
    {valueOf valueOf2 : Position → Except Fault Value}
    (h : ∀ q v, valueOf q = .ok v → valueOf2 q = .ok v) {p : Position} {r : FValue}
    (hr : Formula.pureArgs env valueOf s p = .ok r) :
    Formula.pureArgs env valueOf2 s p = .ok r := by
  unfold Formula.pureArgs at hr ⊢
  split
  · rename_i hv; simpa [hv] using hr
  · rename_i hv
    simp only [hv, if_false] at hr
    cases hp : s.GetCellPtr p with
    | error f => simp [hp] at hr
    | ok ptr =>
      cases ptr with
      | none => simpa [hp] using hr
      | some cell =>
        simp only [hp] at hr ⊢
        cases hv1 : valueOf cell with
        | error f => simp [hv1] at hr
        | ok v =>
          rw [h cell v hv1]
          rw [hv1] at hr
          exact hr

theorem Formula.pureRun_ok_mono {args args2 : Position → Except Fault FValue}
    (h : ∀ p r, args p = .ok r → args2 p = .ok r) :
    ∀ (body : Exec) (r : FValue), Formula.pureRun args body = .ok r →
      Formula.pureRun args2 body = .ok r ∧ Formula.asked args2 body = Formula.asked args body
  | body, r, hr => by
    have hok := Formula.asked_ok body r hr
    have := @Formula.pureRun_congr args args2 body (fun p hp => by
      obtain ⟨v, hv⟩ := hok p hp
      rw [hv, h p v hv])
    exact ⟨this.1.trans hr, this.2⟩

theorem Sheet.valueAt_succ_of_ok (env : Env) (s : Sheet) :
    ∀ (n : Nat) (x : Position) (v : Value),
      Sheet.valueAt env n s x = .ok v → Sheet.valueAt env (n + 1) s x = .ok v
  | 0, x, v, h => by simp [Sheet.valueAt] at h
  | n + 1, x, v, h => by
    unfold Sheet.valueAt at h ⊢
    cases hc : s.cell x with
    | none => simp [hc] at h
    | some c =>
      simp only [hc] at h ⊢
      cases hi : c.impl_ with
      | EmptyImpl => simpa [hi] using h
      | TextImpl t => simpa [hi] using h
      | FormulaImpl f cache =>
        simp only [hi] at h ⊢
        cases hr : Formula.pureRun (Formula.pureArgs env (Sheet.valueAt env n s) s) f.body with
        | error e => simp [hr] at h
        | ok r =>
          have := (@Formula.pureRun_ok_mono
            (Formula.pureArgs env (Sheet.valueAt env n s) s)
            (Formula.pureArgs env (Sheet.valueAt env (n + 1) s) s)
            (fun p r0 hp => Formula.pureArgs_ok_mono
              (fun q v0 hq => Sheet.valueAt_succ_of_ok env s n q v0 hq) hp) f.body r hr).1
          rw [this]
          rw [hr] at h
          exact h

theorem Sheet.valueAt_mono (env : Env) (s : Sheet) {n m : Nat} (hnm : n ≤ m) {x : Position}
    {v : Value} (h : Sheet.valueAt env n s x = .ok v) : Sheet.valueAt env m s x = .ok v := by
  induction hnm with
  | refl => exact h
  | step _ ih => exact Sheet.valueAt_succ_of_ok env s _ x v ih

theorem Sheet.runAt_mono (env : Env) (s : Sheet) {n m : Nat} (hnm : n ≤ m) {body : Exec}
    {r : FValue} (h : s.runAt env n body = .ok r) :
    s.runAt env m body = .ok r ∧ s.askedAt env m body = s.askedAt env n body :=
  Formula.pureRun_ok_mono
    (fun _ _ hp => Formula.pureArgs_ok_mono (fun _ _ hq => Sheet.valueAt_mono env s hnm hq) hp)
    body r h

/-- Two successful evaluations of the same body on the same sheet agree, whatever the
two depths. -/
theorem Sheet.runAt_unique (env : Env) (s : Sheet) {n m : Nat} {body : Exec} {r r2 : FValue}
    (h : s.runAt env n body = .ok r) (h2 : s.runAt env m body = .ok r2) :
    r = r2 ∧ s.askedAt env m body = s.askedAt env n body := by
  rcases Nat.le_total n m with hnm | hmn
  · have := Sheet.runAt_mono env s hnm h
    rw [this.1] at h2
    exact ⟨by simpa using h2, this.2⟩
  · have := Sheet.runAt_mono env s hmn h2
    rw [this.1] at h
    exact ⟨by simpa using h.symm, this.2.symm⟩
theorem Formula.pureArgs_of_invalid (env : Env) (valueOf : Position → Except Fault Value)
    (s : Sheet) {p : Position} (hv : p.IsValid = false) :
    Formula.pureArgs env valueOf s p = .ok (.error .Ref) := by
  simp [Formula.pureArgs, hv]

theorem Formula.pureArgs_of_live (env : Env) (valueOf : Position → Except Fault Value)
    (s : Sheet) {p : Position} (hv : p.IsValid = true) (hl : (s.cell p).isSome = true) :
    Formula.pureArgs env valueOf s p =
      match valueOf p with
      | .error f => .error f
      | .ok (.number d) => .ok (.number d)
      | .ok (.text value) =>
        if value.isEmpty then .ok (.number 0)
        else
          match env.readNumber value with
          | some result => .ok (.number result)
          | none => .ok (.error .Value)
      | .ok (.error e) => .ok (.error e) := by
  unfold Formula.pureArgs
  rw [Sheet.GetCellPtr_of_valid s hv]
  simp [hv, hl]

theorem Formula.pureArgs_of_dead (env : Env) (valueOf : Position → Except Fault Value)
    (s : Sheet) {p : Position} (hv : p.IsValid = true) (hl : s.cell p = none) :
    Formula.pureArgs env valueOf s p = .ok (.number 0) := by
  unfold Formula.pureArgs
  rw [Sheet.GetCellPtr_of_valid s hv]
  simp [hv, hl]

theorem Formula.pureArgs_live_ok {env : Env} {valueOf : Position → Except Fault Value}
    {s : Sheet} {p : Position} {r : FValue} (hv : p.IsValid = true)
    (hl : (s.cell p).isSome = true) (h : Formula.pureArgs env valueOf s p = .ok r) :
    ∃ v, valueOf p = .ok v := by
  rw [Formula.pureArgs_of_live env valueOf s hv hl] at h
  cases hq : valueOf p with
  | error f => rw [hq] at h; simp at h
  | ok v => exact ⟨v, rfl⟩

theorem Sheet.valueAt_of_not_formula (env : Env) (s t : Sheet) (n : Nat) (p : Position)
    (hs : (s.cell p).isSome = true) (ht : (t.cell p).isSome = true)
    (hnf : ¬ s.formulaAt p) (himpl : t.implAt p = s.implAt p) :
    Sheet.valueAt env n t p = Sheet.valueAt env n s p := by
  obtain ⟨c, hc⟩ := Option.isSome_iff_exists.mp hs
  obtain ⟨c2, hc2⟩ := Option.isSome_iff_exists.mp ht
  have hi : c2.impl_ = c.impl_ := by simpa [Sheet.implAt, hc, hc2] using himpl
  cases n with
  | zero => rfl
  | succ n =>
    unfold Sheet.valueAt
    simp only [hc, hc2, hi]
    cases hci : c.impl_ with
    | EmptyImpl => rfl
    | TextImpl text => rfl
    | FormulaImpl f cache =>
      exact absurd ⟨c, hc, by simp [hci, Impl.isFormula]⟩ hnf

/-- The values of a set `K` of populated formula cells carry over from the sheet `s` to
the sheet `t` when each cell of `K` holds the same formula in both and every cell its
evaluation reads is again in `K` or is a cell without formula that `t` holds unchanged. -/
theorem Sheet.valueAt_stable (env : Env) (s t : Sheet) (K : Position → Prop)
    (hK : ∀ x, K x → ∃ c c2 f v w, s.cell x = some c ∧ c.impl_ = .FormulaImpl f (some v) ∧
      t.cell x = some c2 ∧ c2.impl_ = .FormulaImpl f w)
    (hC : ∀ x c f v, K x → s.cell x = some c → c.impl_ = .FormulaImpl f (some v) →
      s.runAt env s.length f.body = .ok v)
    (hA : ∀ x c f v, K x → s.cell x = some c → c.impl_ = .FormulaImpl f (some v) →
      ∀ p ∈ s.askedAt env s.length f.body, p.IsValid = true →
        (K p ∨ ((s.cell p).isSome = true ∧ (t.cell p).isSome = true ∧ ¬ s.formulaAt p ∧
          t.implAt p = s.implAt p))) :
    ∀ (n : Nat),
      (∀ x V, K x → Sheet.valueAt env n s x = .ok V → Sheet.valueAt env n t x = .ok V) ∧
      (∀ x c f v r, K x → s.cell x = some c → c.impl_ = .FormulaImpl f (some v) →
        s.runAt env n f.body = .ok r →
          t.runAt env n f.body = .ok r ∧ t.askedAt env n f.body = s.askedAt env n f.body) := by
  have hrun : ∀ n,
      (∀ x V, K x → Sheet.valueAt env n s x = .ok V → Sheet.valueAt env n t x = .ok V) →
      (∀ x c f v r, K x → s.cell x = some c → c.impl_ = .FormulaImpl f (some v) →
        s.runAt env n f.body = .ok r →
          t.runAt env n f.body = .ok r ∧
            t.askedAt env n f.body = s.askedAt env n f.body) := by
    intro n hP x c f v r hx hc hi hr
    have hasked := (Sheet.runAt_unique env s (hC x c f v hx hc hi) hr).2
    have hok := Formula.asked_ok f.body r hr
    have hagree : ∀ p ∈ Formula.asked (Formula.pureArgs env (Sheet.valueAt env n s) s) f.body,
        Formula.pureArgs env (Sheet.valueAt env n t) t p =
          Formula.pureArgs env (Sheet.valueAt env n s) s p := by
      intro p hp
      cases hv : p.IsValid with
      | false =>
        rw [Formula.pureArgs_of_invalid env _ t hv, Formula.pureArgs_of_invalid env _ s hv]
      | true =>
        have hp2 : p ∈ s.askedAt env s.length f.body := by
          rw [← hasked]; exact hp
        rcases hA x c f v hx hc hi p hp2 hv with hKp | ⟨hs, ht, hnf, himpl⟩
        · obtain ⟨cp, cp2, fp, vp, wp, hcp, _, hcp2, _⟩ := hK p hKp
          have hs : (s.cell p).isSome = true := by simp [hcp]
          have ht : (t.cell p).isSome = true := by simp [hcp2]
          obtain ⟨r0, hr0⟩ := hok p hp
          obtain ⟨V, hV⟩ := Formula.pureArgs_live_ok hv hs hr0
          rw [Formula.pureArgs_of_live env _ t hv ht, Formula.pureArgs_of_live env _ s hv hs,
            hV, hP p V hKp hV]
        · rw [Formula.pureArgs_of_live env _ t hv ht, Formula.pureArgs_of_live env _ s hv hs,
            Sheet.valueAt_of_not_formula env s t n p hs ht hnf himpl]
    have := @Formula.pureRun_congr (Formula.pureArgs env (Sheet.valueAt env n s) s)
      (Formula.pureArgs env (Sheet.valueAt env n t) t) f.body hagree
    exact ⟨this.1.trans hr, this.2⟩
  intro n
  induction n with
  | zero =>
    have hP : ∀ x V, K x → Sheet.valueAt env 0 s x = .ok V →
        Sheet.valueAt env 0 t x = .ok V := by
      intro x V _ h; simp [Sheet.valueAt] at h
    exact ⟨hP, hrun 0 hP⟩
  | succ n ih =>
    have hP : ∀ x V, K x → Sheet.valueAt env (n + 1) s x = .ok V →
        Sheet.valueAt env (n + 1) t x = .ok V := by
      intro x V hx h
      obtain ⟨c, c2, f, v, w, hc, hi, hc2, hi2⟩ := hK x hx
      unfold Sheet.valueAt at h ⊢
      simp only [hc, hi] at h
      simp only [hc2, hi2]
      cases hr : Formula.pureRun (Formula.pureArgs env (Sheet.valueAt env n s) s) f.body with
      | error e => rw [hr] at h; simp at h
      | ok r =>
        have := (ih.2 x c f v r hx hc hi hr).1
        unfold Sheet.runAt at this
        rw [this]
        rw [hr] at h
        exact h
    exact ⟨hP, hrun (n + 1) hP⟩
/-! ## Reading a value only populates caches, coherently -/

theorem Sheet.CacheOnly.GetCellPtr {s s2 : Sheet} (h : s.CacheOnly s2) (p : Position) :
    s2.GetCellPtr p = s.GetCellPtr p := by
  cases hv : p.IsValid with
  | false => simp [Sheet.GetCellPtr, hv]
  | true => rw [Sheet.GetCellPtr_of_valid s2 hv, Sheet.GetCellPtr_of_valid s hv, h.isSome p]

theorem Sheet.CacheOnly.valueAt (env : Env) {s s2 : Sheet} (h : s.CacheOnly s2) :
    ∀ (n : Nat) (x : Position), Sheet.valueAt env n s2 x = Sheet.valueAt env n s x
  | 0, _ => rfl
  | n + 1, x => by
    unfold Sheet.valueAt
    cases hc : s.cell x with
    | none =>
      have : s2.cell x = none := by
        have := h.isSome x
        rw [hc] at this
        cases h2 : s2.cell x with
        | none => rfl
        | some c2 => simp [h2] at this
      simp [this]
    | some c =>
      obtain ⟨c2, hc2, hs⟩ := h.cell_some hc
      simp only [hc2]
      have hi := Cell.shape_impl hs
      cases hci : c.impl_ with
      | EmptyImpl =>
        cases hci2 : c2.impl_ with
        | EmptyImpl => rfl
        | TextImpl t => simp [hci, hci2, Impl.InvalidateCache] at hi
        | FormulaImpl f w => simp [hci, hci2, Impl.InvalidateCache] at hi
      | TextImpl t =>
        cases hci2 : c2.impl_ with
        | EmptyImpl => simp [hci, hci2, Impl.InvalidateCache] at hi
        | TextImpl t2 =>
          have : t2 = t := by simpa [hci, hci2, Impl.InvalidateCache] using hi
          subst this; rfl
        | FormulaImpl f w => simp [hci, hci2, Impl.InvalidateCache] at hi
      | FormulaImpl f w =>
        cases hci2 : c2.impl_ with
        | EmptyImpl => simp [hci, hci2, Impl.InvalidateCache] at hi
        | TextImpl t2 => simp [hci, hci2, Impl.InvalidateCache] at hi
        | FormulaImpl f2 w2 =>
          have : f2 = f := by simpa [hci, hci2, Impl.InvalidateCache] using hi
          subst this
          have hargs : Formula.pureArgs env (Sheet.valueAt env n s2) s2 =
              Formula.pureArgs env (Sheet.valueAt env n s) s := by
            funext p
            unfold Formula.pureArgs
            rw [h.GetCellPtr p]
            have : Sheet.valueAt env n s2 = Sheet.valueAt env n s := by
              funext q; exact Sheet.CacheOnly.valueAt env h n q
            rw [this]
          simp only [hargs]

theorem Sheet.CacheOnly.pureArgs (env : Env) {s s2 : Sheet} (h : s.CacheOnly s2) (n : Nat) :
    Formula.pureArgs env (Sheet.valueAt env n s2) s2 =
      Formula.pureArgs env (Sheet.valueAt env n s) s := by
  funext p
  unfold Formula.pureArgs
  rw [h.GetCellPtr p]
  have : Sheet.valueAt env n s2 = Sheet.valueAt env n s := by
    funext q; exact h.valueAt env n q
  rw [this]

theorem Sheet.CacheOnly.runAt (env : Env) {s s2 : Sheet} (h : s.CacheOnly s2) (n : Nat)
    (body : Exec) : s2.runAt env n body = s.runAt env n body := by
  unfold Sheet.runAt
  rw [h.pureArgs env n]

theorem Sheet.CacheOnly.askedAt (env : Env) {s s2 : Sheet} (h : s.CacheOnly s2) (n : Nat)
    (body : Exec) : s2.askedAt env n body = s.askedAt env n body := by
  unfold Sheet.askedAt
  rw [h.pureArgs env n]

theorem Sheet.CacheOnly.formulaAt_congr {s s2 : Sheet} (h : s.CacheOnly s2) (q : Position) :
    s2.formulaAt q ↔ s.formulaAt q := by
  constructor
  · rintro ⟨c2, hc2, hf⟩
    obtain ⟨c, hc, hs⟩ := h.cell_some_rev hc2
    exact ⟨c, hc, by rw [← Cell.shape_isFormula hs, hf]⟩
  · exact h.formulaAt

theorem Sheet.Fills.of_coherent {env : Env} {s : Sheet} (h : s.Coherent env) : s.Fills env s :=
  ⟨Sheet.CacheOnly.refl s, fun _ c _ _ hc hi => ⟨c, hc, hi⟩, h⟩

theorem Sheet.Fills.chain {env : Env} {s s2 s3 : Sheet} (h1 : s.Fills env s2)
    (h2 : s2.Fills env s3) : s.Fills env s3 := by
  refine ⟨h1.cacheOnly.trans h2.cacheOnly, ?_, h2.coherent⟩
  intro q c f v hc hi
  obtain ⟨c2, hc2, hi2⟩ := h1.keeps q c f v hc hi
  exact h2.keeps q c2 f v hc2 hi2

theorem Sheet.Fills.isCached {env : Env} {s s2 : Sheet} (h : s.Fills env s2) {q : Position}
    (hq : (s.implAt q).isCached = true) : (s2.implAt q).isCached = true := by
  unfold Sheet.implAt at hq ⊢
  cases hc : s.cell q with
  | none => simp [hc, Impl.isCached] at hq
  | some c =>
    rw [hc] at hq
    simp only at hq
    cases hi : c.impl_ with
    | EmptyImpl => simp [hi, Impl.isCached] at hq
    | TextImpl t => simp [hi, Impl.isCached] at hq
    | FormulaImpl f w =>
      cases w with
      | none => simp [hi, Impl.isCached] at hq
      | some v =>
        obtain ⟨c2, hc2, hi2⟩ := h.keeps q c f v hc hi
        simp [hc2, hi2, Impl.isCached]

/-- Populating the cache of a formula cell with the value of its formula, once the
formula cells its evaluation reads are populated, keeps the invariant of the caches. -/
theorem Sheet.Coherent.store {env : Env} {s : Sheet} (hs : s.Coherent env) {x : Position}
    {f : FormulaAST} {w : Option FValue} {l r : List Position} {v : FValue}
    (hc : s.cell x = some ⟨.FormulaImpl f w, l, r⟩)
    (hv : s.runAt env s.length f.body = .ok v)
    (hreads : ∀ p ∈ s.askedAt env s.length f.body, s.formulaAt p → p ≠ x →
      (s.implAt p).isCached = true) :
    s.Fills env (s.put x (some ⟨.FormulaImpl f (some v), l, r⟩)) := by
  have hco : s.CacheOnly (s.put x (some ⟨.FormulaImpl f (some v), l, r⟩)) :=
    Sheet.CacheOnly.of_put hc (by simp [Cell.shape, Impl.InvalidateCache])
  have hcell : ∀ q, (s.put x (some ⟨.FormulaImpl f (some v), l, r⟩)).cell q =
      if q = x then some ⟨.FormulaImpl f (some v), l, r⟩ else s.cell q :=
    fun q => Sheet.cell_put s x q _ _ hc
  have hcached : ∀ p, (s.implAt p).isCached = true ∨ p = x →
      ((s.put x (some ⟨.FormulaImpl f (some v), l, r⟩)).implAt p).isCached = true := by
    intro p hp
    unfold Sheet.implAt
    rw [hcell p]
    by_cases hpx : p = x
    · simp [hpx, Impl.isCached]
    · rcases hp with hp | hp
      · simpa [hpx, Sheet.implAt] using hp
      · exact absurd hp hpx
  refine ⟨hco, ?_, ?_⟩
  · intro q c g u hcq hi
    rw [hcell q]
    by_cases hq : q = x
    · subst hq
      rw [hc] at hcq
      cases hcq
      simp only at hi
      cases hi
      have := hs.cache q _ f u hc rfl
      rw [hv] at this
      cases this
      exact ⟨⟨.FormulaImpl f (some v), l, r⟩, by simp, rfl⟩
    · exact ⟨c, by simp [hq, hcq], hi⟩
  · constructor
    · intro q c g u hcq hi
      rw [hcell q] at hcq
      rw [hco.length, hco.runAt env]
      by_cases hq : q = x
      · subst hq
        simp only [if_true, Option.some.injEq] at hcq
        subst hcq
        simp only [Impl.FormulaImpl.injEq, Option.some.injEq] at hi
        obtain ⟨rfl, rfl⟩ := hi
        exact hv
      · simp only [hq, if_false] at hcq
        exact hs.cache q c g u hcq hi
    · intro q c g u hcq hi p hp hfp
      rw [hcell q] at hcq
      rw [hco.length, hco.askedAt env] at hp
      have hfp2 := (hco.formulaAt_congr p).mp hfp
      apply hcached
      by_cases hpx : p = x
      · exact Or.inr hpx
      · left
        by_cases hq : q = x
        · subst hq
          simp only [if_true, Option.some.injEq] at hcq
          subst hcq
          simp only [Impl.FormulaImpl.injEq, Option.some.injEq] at hi
          obtain ⟨rfl, rfl⟩ := hi
          exact hreads p hp hfp2 hpx
        · simp only [hq, if_false] at hcq
          exact hs.reads q c g u hcq hi p hp hfp2
    · intro q c g w2 hcq hi p hp
      rw [hcell q] at hcq
      by_cases hq : q = x
      · subst hq
        simp only [if_true, Option.some.injEq] at hcq
        subst hcq
        simp only [Impl.FormulaImpl.injEq] at hi
        obtain ⟨rfl, _⟩ := hi
        exact hs.covered q _ f w hc rfl p hp
      · simp only [hq, if_false] at hcq
        exact hs.covered q c g w2 hcq hi p hp
    · intro q hq
      rw [hco.isSome q] at hq
      exact hs.valid q hq
theorem Sheet.Fills.length {env : Env} {s s2 : Sheet} (h : s.Fills env s2) :
    s2.length = s.length := h.cacheOnly.length

theorem Sheet.not_formulaAt_of_none {s : Sheet} {p : Position} (h : s.cell p = none) :
    ¬ s.formulaAt p := by
  rintro ⟨c, hc, _⟩
  rw [h] at hc
  simp at hc

/-- The resolver of `Formula::Evaluate`, whose up to three `GetValue` calls on the
referenced cell agree, returns what the pure resolver returns. -/
theorem Formula.args_spec (env : Env) (n : Nat)
    (g : Reading → Position → Reading × Except Fault Value) (hg : GoodRead env n g)
    (st : Reading) (p : Position) (hco : st.1.Coherent env) (hn : n ≤ st.1.length + 1) :
    st.1.Fills env (Formula.args env g st p).1.1 ∧
    (Formula.args env g st p).2 = Formula.pureArgs env (Sheet.valueAt env n st.1) st.1 p ∧
    (∀ v, (Formula.args env g st p).2 = .ok v → (Formula.args env g st p).1.1.formulaAt p →
      ((Formula.args env g st p).1.1.implAt p).isCached = true) := by
  cases hv : p.IsValid with
  | false =>
    have hargs : Formula.args env g st p = (st, .ok (.error .Ref)) := by
      simp [Formula.args, hv]
    rw [hargs, Formula.pureArgs_of_invalid env _ _ hv]
    refine ⟨Sheet.Fills.of_coherent hco, rfl, ?_⟩
    intro v _ hf
    obtain ⟨c, hc, _⟩ := hf
    have := hco.valid p (by simp [hc])
    rw [hv] at this
    simp at this
  | true =>
    cases hl : st.1.cell p with
    | none =>
      have hargs : Formula.args env g st p = (st, .ok (.number 0)) := by
        unfold Formula.args
        rw [Sheet.GetCellPtr_of_valid _ hv]
        simp [hv, hl]
      rw [hargs, Formula.pureArgs_of_dead env _ _ hv hl]
      exact ⟨Sheet.Fills.of_coherent hco, rfl, fun v _ hf => absurd hf (Sheet.not_formulaAt_of_none hl)⟩
    | some c =>
      have hlive : (st.1.cell p).isSome = true := by simp [hl]
      have H1 := hg st p hco hn
      rcases h1 : g st p with ⟨st1, v1⟩
      rw [h1] at H1
      obtain ⟨F1, V1, C1⟩ := H1
      simp only at F1 V1 C1
      have H2 := hg st1 p F1.coherent (by rw [F1.length]; exact hn)
      rcases h2 : g st1 p with ⟨st2, v2⟩
      rw [h2] at H2
      obtain ⟨F2, V2, C2⟩ := H2
      simp only at F2 V2 C2
      rw [F1.cacheOnly.valueAt env n p] at V2
      have H3 := hg st2 p F2.coherent (by rw [F2.length, F1.length]; exact hn)
      rcases h3 : g st2 p with ⟨st3, v3⟩
      rw [h3] at H3
      obtain ⟨F3, V3, C3⟩ := H3
      simp only at F3 V3 C3
      rw [F2.cacheOnly.valueAt env n p, F1.cacheOnly.valueAt env n p] at V3
      have hunf : Formula.args env g st p =
          match g st p with
          | (st1, .error f) => (st1, .error f)
          | (st1, .ok (.number _)) =>
            match g st1 p with
            | (st2, .error f) => (st2, .error f)
            | (st2, .ok (.number d)) => (st2, .ok (.number d))
            | (st2, .ok _) => (st2, .error .bad_variant_access)
          | (st1, .ok _) =>
            match g st1 p with
            | (st2, .error f) => (st2, .error f)
            | (st2, .ok (.text _)) =>
              match g st2 p with
              | (st3, .error f) => (st3, .error f)
              | (st3, .ok (.text value)) =>
                if value.isEmpty then (st3, .ok (.number 0))
                else
                  match env.readNumber value with
                  | some result => (st3, .ok (.number result))
                  | none => (st3, .ok (.error .Value))
              | (st3, .ok _) => (st3, .error .bad_variant_access)
            | (st2, .ok _) =>
              match g st2 p with
              | (st3, .error f) => (st3, .error f)
              | (st3, .ok (.error e)) => (st3, .ok (.error e))
              | (st3, .ok _) => (st3, .error .bad_variant_access) := by
        unfold Formula.args
        rw [Sheet.GetCellPtr_of_valid _ hv]
        simp [hv, hlive]
      rw [Formula.pureArgs_of_live env _ _ hv hlive, hunf, h1]
      cases hV : Sheet.valueAt env n st.1 p with
      | error f =>
        rw [hV] at V1
        subst V1
        exact ⟨F1, rfl, fun v h => by simp at h⟩
      | ok V =>
        rw [hV] at V1 V2 V3
        subst V1 V2 V3
        cases V with
        | number d =>
          simp only [h2]
          exact ⟨F1.chain F2, trivial, fun v _ hf => C2 _ rfl hf⟩
        | text t =>
          simp only [h2, h3]
          by_cases ht : t.isEmpty = true
          · simp only [ht, if_true]
            exact ⟨(F1.chain F2).chain F3, trivial, fun v _ hf => C3 _ rfl hf⟩
          · simp only [ht, Bool.false_eq_true, if_false]
            cases env.readNumber t with
            | none => exact ⟨(F1.chain F2).chain F3, rfl, fun v _ hf => C3 _ rfl hf⟩
            | some d => exact ⟨(F1.chain F2).chain F3, rfl, fun v _ hf => C3 _ rfl hf⟩
        | error e =>
          simp only [h2, h3]
          exact ⟨(F1.chain F2).chain F3, trivial, fun v _ hf => C3 _ rfl hf⟩
theorem Formula.run_ask (args : Reading → Position → Reading × Except Fault FValue)
    (p : Position) (k : Number → Exec) (st : Reading) :
    Formula.run args (.ask p k) st =
      match args st p with
      | (st1, .error f) => (st1, .error f)
      | (st1, .ok (.error e)) => (st1, .ok (.error e))
      | (st1, .ok (.number d)) => Formula.run args (k d) st1 := by
  simp [Formula.run]

/-- The run of `Execute` inside `Formula::Evaluate` returns what the pure run returns,
and leaves every formula cell it has read with a populated cache. -/
theorem Formula.run_spec (env : Env) (n : Nat)
    (g : Reading → Position → Reading × Except Fault Value) (hg : GoodRead env n g) :
    ∀ (body : Exec) (st : Reading), st.1.Coherent env → n ≤ st.1.length + 1 →
      st.1.Fills env (Formula.run (Formula.args env g) body st).1.1 ∧
      (Formula.run (Formula.args env g) body st).2 = st.1.runAt env n body ∧
      (∀ v, (Formula.run (Formula.args env g) body st).2 = .ok v →
        ∀ p ∈ st.1.askedAt env n body,
          (Formula.run (Formula.args env g) body st).1.1.formulaAt p →
          ((Formula.run (Formula.args env g) body st).1.1.implAt p).isCached = true) := by
  intro body
  induction body with
  | done d =>
    intro st hco _
    exact ⟨Sheet.Fills.of_coherent hco, rfl, fun v _ p hp => by simp [Sheet.askedAt, Formula.asked] at hp⟩
  | fail e =>
    intro st hco _
    exact ⟨Sheet.Fills.of_coherent hco, rfl, fun v _ p hp => by simp [Sheet.askedAt, Formula.asked] at hp⟩
  | ask p k ih =>
    intro st hco hn
    have HA := Formula.args_spec env n g hg st p hco hn
    rcases ha : Formula.args env g st p with ⟨st1, r1⟩
    rw [ha] at HA
    obtain ⟨F1, V1, C1⟩ := HA
    simp only at F1 V1 C1
    rw [Formula.run_ask, ha]
    unfold Sheet.runAt Sheet.askedAt
    rw [Formula.pureRun_ask, Formula.asked_ask, ← V1]
    cases r1 with
    | error f => exact ⟨F1, rfl, fun v h => by simp at h⟩
    | ok r =>
      cases r with
      | error e =>
        refine ⟨F1, rfl, ?_⟩
        intro v _ q hq hf
        simp only [List.mem_cons, List.not_mem_nil, or_false] at hq
        subst hq
        exact C1 _ rfl hf
      | number d =>
        simp only
        have IH := ih d st1 F1.coherent (by rw [F1.length]; exact hn)
        obtain ⟨F2, V2, C2⟩ := IH
        refine ⟨F1.chain F2, ?_, ?_⟩
        · rw [V2, F1.cacheOnly.runAt env n]
          rfl
        · intro v hv q hq hf
          simp only [List.mem_cons] at hq
          rcases hq with hq | hq
          · subst hq
            exact F2.isCached (C1 _ rfl ((F2.cacheOnly.formulaAt_congr q).mp hf))
          · apply C2 v hv q _ hf
            rw [F1.cacheOnly.askedAt env n]
            exact hq
theorem Sheet.valueAt_formula (env : Env) (n : Nat) (s : Sheet) (x : Position) (c : Cell)
    (f : FormulaAST) (w : Option FValue) (hc : s.cell x = some c)
    (hi : c.impl_ = .FormulaImpl f w) :
    Sheet.valueAt env (n + 1) s x =
      match s.runAt env n f.body with
      | .error e => .error e
      | .ok (.number d) => .ok (.number d)
      | .ok (.error e) => .ok (.error e) := by
  simp only [Sheet.valueAt, hc, hi, Sheet.runAt]

theorem Cell.GetValue_formula (env : Env) (n : Nat) (st : Reading) (x : Position) (c : Cell)
    (f : FormulaAST) (w : Option FValue) (hc : st.1.cell x = some c)
    (hi : c.impl_ = .FormulaImpl f w) :
    Cell.GetValue env (n + 1) st x =
      match (match w with
        | some _ => ((st, none) : Reading × Option Fault)
        | none =>
          match Formula.Evaluate env (Cell.GetValue env n) f x st with
          | (st1, .error e) => (st1, some e)
          | (st1, .ok v) => Cell.storeCache st1 x v) with
      | (st1, some e) => (st1, .error e)
      | (st1, none) =>
        match Formula.Evaluate env (Cell.GetValue env n) f x st1 with
        | (st2, .error e) => (st2, .error e)
        | (st2, .ok (.number d)) => (st2, .ok (.number d))
        | (st2, .ok (.error e)) => (st2, .ok (.error e)) := by
  simp only [Cell.GetValue, hc, hi]

theorem Impl.isFormula_false_of_text {c : Cell} {t : Str} (h : c.impl_ = .TextImpl t) :
    c.impl_.isFormula = false := by
  rw [h]; rfl

/-- `Cell::GetValue` returns the value of the cell, whatever the caches hold, and only
populates caches with the values of their formulas. -/
theorem Cell.GetValue_good (env : Env) : ∀ (n : Nat), GoodRead env n (Cell.GetValue env n)
  | 0 => by
    intro st x hco _
    exact ⟨Sheet.Fills.of_coherent hco, rfl, fun v h => by simp [Cell.GetValue] at h⟩
  | n + 1 => by
    intro st x hco hn
    have hg := Cell.GetValue_good env n
    have hn2 : n ≤ st.1.length + 1 := by omega
    cases hc : st.1.cell x with
    | none =>
      have : Cell.GetValue env (n + 1) st x = (st, .error .nullDereference) := by
        simp only [Cell.GetValue, hc]
      rw [this]
      exact ⟨Sheet.Fills.of_coherent hco, by simp [Sheet.valueAt, hc], fun v h => by simp at h⟩
    | some c =>
      cases hi : c.impl_ with
      | EmptyImpl =>
        have : Cell.GetValue env (n + 1) st x = (st, .ok (.text [])) := by
          simp only [Cell.GetValue, hc, hi]
        rw [this]
        refine ⟨Sheet.Fills.of_coherent hco, by simp [Sheet.valueAt, hc, hi], ?_⟩
        rintro v _ ⟨c2, hc2, hf⟩
        rw [hc] at hc2
        cases hc2
        simp [hi, Impl.isFormula] at hf
      | TextImpl t =>
        have : Cell.GetValue env (n + 1) st x = (st, .ok (.text (Impl.textValue t))) := by
          simp only [Cell.GetValue, hc, hi]
        rw [this]
        refine ⟨Sheet.Fills.of_coherent hco, by simp [Sheet.valueAt, hc, hi], ?_⟩
        rintro v _ ⟨c2, hc2, hf⟩
        rw [hc] at hc2
        cases hc2
        simp [hi, Impl.isFormula] at hf
      | FormulaImpl f w =>
        rw [Cell.GetValue_formula env n st x c f w hc hi,
          Sheet.valueAt_formula env n st.1 x c f w hc hi]
        have hE : ∀ st0 : Reading, Formula.Evaluate env (Cell.GetValue env n) f x st0 =
            Formula.run (Formula.args env (Cell.GetValue env n)) f.body
              (st0.1, st0.2 ++ [x]) := fun _ => rfl
        cases w with
        | some v0 =>
          simp only
          have HE := Formula.run_spec env n _ hg f.body (st.1, st.2 ++ [x]) hco hn2
          rw [hE st]
          rcases he : Formula.run (Formula.args env (Cell.GetValue env n)) f.body
            (st.1, st.2 ++ [x]) with ⟨st2, r2⟩
          rw [he] at HE
          obtain ⟨F2, V2, _⟩ := HE
          simp only at F2 V2
          rw [← V2]
          have hx : (st2.1.implAt x).isCached = true :=
            F2.isCached (by simp [Sheet.implAt, hc, hi, Impl.isCached])
          cases r2 with
          | error e => exact ⟨F2, rfl, fun _ _ _ => hx⟩
          | ok r =>
            cases r with
            | number d => exact ⟨F2, rfl, fun _ _ _ => hx⟩
            | error e => exact ⟨F2, rfl, fun _ _ _ => hx⟩
        | none =>
          simp only
          have HE := Formula.run_spec env n _ hg f.body (st.1, st.2 ++ [x]) hco hn2
          rw [hE st]
          rcases he : Formula.run (Formula.args env (Cell.GetValue env n)) f.body
            (st.1, st.2 ++ [x]) with ⟨st1, r1⟩
          rw [he] at HE
          obtain ⟨F1, V1, C1⟩ := HE
          simp only at F1 V1 C1
          rw [← V1]
          cases r1 with
          | error e => exact ⟨F1, rfl, fun v h => by simp at h⟩
          | ok v =>
            simp only
            obtain ⟨c1, hc1, hs1⟩ := F1.cacheOnly.cell_some hc
            have hi1 : ∃ w1, c1.impl_ = .FormulaImpl f w1 := by
              have := Cell.shape_impl hs1
              rw [hi] at this
              cases hci : c1.impl_ with
              | EmptyImpl => simp [hci, Impl.InvalidateCache] at this
              | TextImpl t => simp [hci, Impl.InvalidateCache] at this
              | FormulaImpl f1 w1 =>
                have : f1 = f := by simpa [hci, Impl.InvalidateCache] using this
                subst this
                exact ⟨w1, rfl⟩
            obtain ⟨w1, hi1⟩ := hi1
            obtain ⟨i1, l1, rr1⟩ := c1
            simp only at hi1
            subst hi1
            have hrun1 : st1.1.runAt env st1.1.length f.body = .ok v := by
              have h0 : st1.1.runAt env n f.body = .ok v := by
                rw [F1.cacheOnly.runAt env n]; exact V1.symm
              exact (Sheet.runAt_mono env st1.1 (by rw [F1.length]; omega) h0).1
            have hasked1 : st1.1.askedAt env st1.1.length f.body = st.1.askedAt env n f.body := by
              have h0 : st1.1.runAt env n f.body = .ok v := by
                rw [F1.cacheOnly.runAt env n]; exact V1.symm
              rw [(Sheet.runAt_mono env st1.1 (by rw [F1.length]; omega) h0).2,
                F1.cacheOnly.askedAt env n]
            have FS := Sheet.Coherent.store F1.coherent hc1 hrun1
              (fun p hp hf _ => C1 v rfl p (hasked1 ▸ hp) hf)
            have hst : Cell.storeCache st1 x v =
                ((st1.1.put x (some ⟨.FormulaImpl f (some v), l1, rr1⟩), st1.2), none) := by
              simp only [Cell.storeCache, hc1]
            rw [hst]
            simp only
            have HE2 := Formula.run_spec env n _ hg f.body
              (st1.1.put x (some ⟨.FormulaImpl f (some v), l1, rr1⟩), st1.2 ++ [x])
              FS.coherent (by simp only; rw [FS.length, F1.length]; exact hn2)
            rw [hE]
            rcases he2 : Formula.run (Formula.args env (Cell.GetValue env n)) f.body
              (st1.1.put x (some ⟨.FormulaImpl f (some v), l1, rr1⟩), st1.2 ++ [x])
              with ⟨st3, r3⟩
            rw [he2] at HE2
            obtain ⟨F3, V3, _⟩ := HE2
            simp only at F3 V3
            rw [FS.cacheOnly.runAt env n, F1.cacheOnly.runAt env n, ← V1] at V3
            subst V3
            have hx : (st3.1.implAt x).isCached = true := by
              apply F3.isCached
              unfold Sheet.implAt
              rw [Sheet.cell_put _ x x _ _ hc1]
              simp [Impl.isCached]
            cases v with
            | number d => exact ⟨(F1.chain FS).chain F3, rfl, fun _ _ _ => hx⟩
            | error e => exact ⟨(F1.chain FS).chain F3, rfl, fun _ _ _ => hx⟩
/-! ## Carrying the invariant of the caches from one sheet to another -/

theorem Impl.isCached_iff {i : Impl} :
    i.isCached = true ↔ ∃ f v, i = .FormulaImpl f (some v) := by
  cases i with
  | EmptyImpl => simp [Impl.isCached]
  | TextImpl t => simp [Impl.isCached]
  | FormulaImpl f w =>
    cases w with
    | none => simp [Impl.isCached]
    | some v => simp [Impl.isCached]

theorem Sheet.isCached_implAt_iff {s : Sheet} {x : Position} :
    (s.implAt x).isCached = true ↔
      ∃ c f v, s.cell x = some c ∧ c.impl_ = .FormulaImpl f (some v) := by
  unfold Sheet.implAt
  cases hc : s.cell x with
  | none => simp [Impl.isCached]
  | some c =>
    simp only [Impl.isCached_iff]
    constructor
    · rintro ⟨f, v, h⟩; exact ⟨c, f, v, rfl, h⟩
    · rintro ⟨c2, f, v, h1, h2⟩
      cases h1
      exact ⟨f, v, h2⟩

/-- The invariant of the caches carries over from `s` to a sheet `t` that is at least as
long, every populated cache of which is a populated cache of `s`, provided that every
cell read by the evaluation of such a formula is populated in `t` or is a cell without
formula that `t` holds unchanged. -/
theorem Sheet.Coherent.transfer {env : Env} {s t : Sheet} (hs : s.Coherent env)
    (hlen : s.length ≤ t.length)
    (hkept : ∀ x c2 f v, t.cell x = some c2 → c2.impl_ = .FormulaImpl f (some v) →
      ∃ c, s.cell x = some c ∧ c.impl_ = .FormulaImpl f (some v))
    (hA : ∀ x c2 f v, t.cell x = some c2 → c2.impl_ = .FormulaImpl f (some v) →
      ∀ p ∈ s.askedAt env s.length f.body, p.IsValid = true →
        ((t.implAt p).isCached = true ∨
          ((s.cell p).isSome = true ∧ (t.cell p).isSome = true ∧ ¬ s.formulaAt p ∧
            t.implAt p = s.implAt p)))
    (hcov : ∀ q c f cache, t.cell q = some c → c.impl_ = .FormulaImpl f cache →
      ∀ p, f.body.Mentions p → p ∈ f.cells)
    (hvalid : ∀ q, (t.cell q).isSome = true → q.IsValid = true) : t.Coherent env := by
  have hstable := Sheet.valueAt_stable env s t
    (fun x => (t.implAt x).isCached = true)
    (by
      intro x hx
      obtain ⟨c2, f, v, hc2, hi2⟩ := Sheet.isCached_implAt_iff.mp hx
      obtain ⟨c, hc, hi⟩ := hkept x c2 f v hc2 hi2
      exact ⟨c, c2, f, v, some v, hc, hi, hc2, hi2⟩)
    (by
      intro x c f v _ hc hi
      exact hs.cache x c f v hc hi)
    (by
      intro x c f v hx hc hi p hp hv
      obtain ⟨c2, f2, v2, hc2, hi2⟩ := Sheet.isCached_implAt_iff.mp hx
      obtain ⟨c0, hc0, hi0⟩ := hkept x c2 f2 v2 hc2 hi2
      rw [hc] at hc0
      cases hc0
      rw [hi] at hi0
      cases hi0
      exact hA x c2 f v hc2 hi2 p hp hv)
  constructor
  · intro x c2 f v hc2 hi2
    obtain ⟨c, hc, hi⟩ := hkept x c2 f v hc2 hi2
    have h1 := (Sheet.runAt_mono env s hlen (hs.cache x c f v hc hi)).1
    exact ((hstable t.length).2 x c f v v
      (Sheet.isCached_implAt_iff.mpr ⟨c2, f, v, hc2, hi2⟩) hc hi h1).1
  · intro x c2 f v hc2 hi2 p hp hfp
    obtain ⟨c, hc, hi⟩ := hkept x c2 f v hc2 hi2
    have h0 := hs.cache x c f v hc hi
    have h1 := Sheet.runAt_mono env s hlen h0
    have h2 := ((hstable t.length).2 x c f v v
      (Sheet.isCached_implAt_iff.mpr ⟨c2, f, v, hc2, hi2⟩) hc hi h1.1).2
    rw [h2, h1.2] at hp
    have hv : p.IsValid = true := by
      obtain ⟨cp, hcp, _⟩ := hfp
      exact hvalid p (by simp [hcp])
    rcases hA x c2 f v hc2 hi2 p hp hv with h | ⟨_, _, hnf, himpl⟩
    · exact h
    · exfalso
      apply hnf
      have := Sheet.formulaAt_iff.mp hfp
      rw [himpl] at this
      exact Sheet.formulaAt_iff.mpr this
  · exact hcov
  · exact hvalid
theorem Sheet.Coherent.asked_mem_refs {env : Env} {s : Sheet} (hs : s.Coherent env)
    {x : Position} {c : Cell} {f : FormulaAST} {w : Option FValue} (hc : s.cell x = some c)
    (hi : c.impl_ = .FormulaImpl f w) {n : Nat} {p : Position}
    (hp : p ∈ s.askedAt env n f.body) (hv : p.IsValid = true) : p ∈ s.refs x := by
  have hm := Formula.asked_mentions f.body p hp
  have hcells := hs.covered x c f w hc hi p hm
  simp only [Sheet.refs, hc, hi, Impl.GetReferencedCells, FormulaAST.GetReferencedCells]
  exact mem_referencedOf.mpr ⟨hcells, hv⟩

theorem Impl.formula_of_shape_eq {i j : Impl} {f : FormulaAST} {w : Option FValue}
    (h : i.InvalidateCache = j.InvalidateCache) (hi : i = .FormulaImpl f w) :
    ∃ w2, j = .FormulaImpl f w2 := by
  subst hi
  cases j with
  | EmptyImpl => simp [Impl.InvalidateCache] at h
  | TextImpl t => simp [Impl.InvalidateCache] at h
  | FormulaImpl g w2 =>
    have : f = g := by simpa [Impl.InvalidateCache] using h
    subst this
    exact ⟨w2, rfl⟩

theorem Sheet.cell_of_implAt_formula {s : Sheet} {x : Position} {f : FormulaAST}
    {w : Option FValue} (h : s.implAt x = .FormulaImpl f w) :
    ∃ c, s.cell x = some c ∧ c.impl_ = .FormulaImpl f w := by
  unfold Sheet.implAt at h
  cases hc : s.cell x with
  | none => rw [hc] at h; simp at h
  | some c => rw [hc] at h; exact ⟨c, rfl, h⟩

theorem Sheet.implAt_of_cell {s : Sheet} {x : Position} {c : Cell} (h : s.cell x = some c) :
    s.implAt x = c.impl_ := by
  simp [Sheet.implAt, h]

/-- A completed `Cell::Set` keeps the invariant of the caches. -/
theorem Sheet.Coherent.of_Set {env : Env} {owner : Position} {content : Impl} {s s4 : Sheet}
    (hs : s.Coherent env) (hwf : s.WF) (hwf4 : s4.WF)
    (hp : Sheet.SetPost owner content s s4) (hc : Sheet.SetCaches owner s s4)
    (hcov : ∀ f w, content = .FormulaImpl f w → ∀ p, f.body.Mentions p → p ∈ f.cells) :
    s4.Coherent env := by
  apply hs.transfer hc.length
  · intro x c2 f v hc2 hi2
    have hx : (s4.implAt x).isCached = true :=
      Sheet.isCached_implAt_iff.mpr ⟨c2, f, v, hc2, hi2⟩
    have := (hc.kept x hx).2
    rw [Sheet.implAt_of_cell hc2, hi2] at this
    exact Sheet.cell_of_implAt_formula this.symm
  · intro x c2 f v hc2 hi2 p hpa hv
    have hx : (s4.implAt x).isCached = true :=
      Sheet.isCached_implAt_iff.mpr ⟨c2, f, v, hc2, hi2⟩
    obtain ⟨hxo, hxi⟩ := hc.kept x hx
    rw [Sheet.implAt_of_cell hc2, hi2] at hxi
    obtain ⟨c, hcx, hix⟩ := Sheet.cell_of_implAt_formula hxi.symm
    have hpr : p ∈ s.refs x := hs.asked_mem_refs hcx hix hpa hv
    have hpl : (s.cell p).isSome = true := hwf.refs_live p x hpr
    have hpr4 : p ∈ s4.refs x := by
      rw [hp.refs_eq x]; simpa [hxo] using hpr
    have hxl4 : x ∈ s4.left p := (hwf4.left_iff p x).mpr hpr4
    have hpo : p ≠ owner := by
      rintro rfl
      have := hc.children x hxl4
      rw [hx] at this
      simp at this
    have hpl4 : (s4.cell p).isSome = true := (hp.live p).mpr (Or.inl hpl)
    by_cases hfp : s.formulaAt p
    · left
      have hcp := hs.reads x c f v hcx hix p hpa hfp
      cases h4 : (s4.implAt p).isCached with
      | true => rfl
      | false =>
        have := hc.closed p hpo hcp h4 x hxl4
        rw [hx] at this
        simp at this
    · right
      exact ⟨hpl, hpl4, hfp, hc.plain p hpo hfp⟩
  · intro q c f cache hcq hiq p hm
    have hsh := hp.impl q
    rw [Sheet.implAt_of_cell hcq] at hsh
    by_cases hq : q = owner
    · simp only [hq, if_true] at hsh
      obtain ⟨w2, hw2⟩ := Impl.formula_of_shape_eq hsh hiq
      exact hcov f w2 hw2 p hm
    · simp only [hq, if_false] at hsh
      obtain ⟨w2, hw2⟩ := Impl.formula_of_shape_eq hsh hiq
      obtain ⟨c0, hc0, hi0⟩ := Sheet.cell_of_implAt_formula hw2
      exact hs.covered q c0 f w2 hc0 hi0 p hm
  · intro q hq
    rcases (hp.live q).mp hq with h | h
    · exact hs.valid q h
    · exact Impl.valid_of_mem_GetReferencedCells h

theorem Sheet.Coherent.of_empty (env : Env) : Sheet.empty.Coherent env := by
  constructor
  · intro q c f v hc; simp [Sheet.cell, Sheet.find, Sheet.empty] at hc
  · intro q c f v hc; simp [Sheet.cell, Sheet.find, Sheet.empty] at hc
  · intro q c f w hc; simp [Sheet.cell, Sheet.find, Sheet.empty] at hc
  · intro q hq; simp [Sheet.cell, Sheet.find, Sheet.empty] at hq

/-- Adding a fresh empty cell at a valid position keeps the invariant of the caches. -/
theorem Sheet.Coherent.emplace_keeps {env : Env} {s : Sheet} (hs : s.Coherent env) (hwf : s.WF)
    (pos : Position) (hv : pos.IsValid = true) : (s.emplace pos Cell.new).Coherent env := by
  cases hf : s.find pos with
  | some v =>
    have : s.emplace pos Cell.new = s := by simp [Sheet.emplace, hf]
    rw [this]; exact hs
  | none =>
    have hnone : s.cell pos = none := by simp [Sheet.cell, hf]
    have hcell : ∀ q, (s.emplace pos Cell.new).cell q =
        if q = pos then some Cell.new else s.cell q := by
      intro q
      rw [Sheet.cell_emplace]
      by_cases hq : q = pos <;> simp [hq, hf]
    have hsame : ∀ q c, (s.emplace pos Cell.new).cell q = some c → c.impl_.isFormula = true →
        s.cell q = some c := by
      intro q c hq hfq
      rw [hcell q] at hq
      by_cases hqp : q = pos
      · simp only [hqp, if_true, Option.some.injEq] at hq
        subst hq
        simp [Cell.new, Impl.isFormula] at hfq
      · simpa [hqp] using hq
    have hlive : ∀ q c, s.cell q = some c → (s.emplace pos Cell.new).cell q = some c := by
      intro q c hq
      rw [hcell q]
      have : q ≠ pos := by rintro rfl; rw [hnone] at hq; simp at hq
      simp [this, hq]
    apply hs.transfer (Sheet.length_emplace_le s pos Cell.new)
    · intro x c2 f v hc2 hi2
      exact ⟨c2, hsame x c2 hc2 (by simp [hi2, Impl.isFormula]), hi2⟩
    · intro x c2 f v hc2 hi2 p hpa hvp
      have hcx := hsame x c2 hc2 (by simp [hi2, Impl.isFormula])
      have hpr : p ∈ s.refs x := hs.asked_mem_refs hcx hi2 hpa hvp
      have hpl : (s.cell p).isSome = true := hwf.refs_live p x hpr
      obtain ⟨cp, hcp⟩ := Option.isSome_iff_exists.mp hpl
      have hcp2 := hlive p cp hcp
      by_cases hfp : s.formulaAt p
      · left
        have := hs.reads x c2 f v hcx hi2 p hpa hfp
        rw [Sheet.implAt_of_cell hcp] at this
        rw [Sheet.implAt_of_cell hcp2]
        exact this
      · right
        exact ⟨hpl, by simp [hcp2], hfp, by
          rw [Sheet.implAt_of_cell hcp, Sheet.implAt_of_cell hcp2]⟩
    · intro q c f cache hcq hiq p hm
      exact hs.covered q c f cache (hsame q c hcq (by simp [hiq, Impl.isFormula])) hiq p hm
    · intro q hq
      rw [hcell q] at hq
      by_cases hqp : q = pos
      · rw [hqp]; exact hv
      · simp only [hqp, if_false] at hq
        exact hs.valid q hq

/-- Destroying a cell that nothing references keeps the invariant of the caches. -/
theorem Sheet.Coherent.reset_keeps {env : Env} {s : Sheet} (hs : s.Coherent env) (hwf : s.WF)
    (pos : Position) (hl : s.left pos = []) : (s.put pos none).Coherent env := by
  have hcell := Sheet.cell_put_none s pos
  have hsame : ∀ q c, (s.put pos none).cell q = some c → s.cell q = some c := by
    intro q c hq
    rw [hcell q] at hq
    by_cases hqp : q = pos
    · simp [hqp] at hq
    · simpa [hqp] using hq
  apply hs.transfer (by rw [Sheet.length_put])
  · intro x c2 f v hc2 hi2
    exact ⟨c2, hsame x c2 hc2, hi2⟩
  · intro x c2 f v hc2 hi2 p hpa hvp
    have hcx := hsame x c2 hc2
    have hpr : p ∈ s.refs x := hs.asked_mem_refs hcx hi2 hpa hvp
    have hpl : (s.cell p).isSome = true := hwf.refs_live p x hpr
    have hpp : p ≠ pos := by
      rintro rfl
      have := (hwf.left_iff p x).mpr hpr
      rw [hl] at this
      simp at this
    obtain ⟨cp, hcp⟩ := Option.isSome_iff_exists.mp hpl
    have hcp2 : (s.put pos none).cell p = some cp := by
      rw [hcell p]; simp [hpp, hcp]
    by_cases hfp : s.formulaAt p
    · left
      have := hs.reads x c2 f v hcx hi2 p hpa hfp
      rw [Sheet.implAt_of_cell hcp] at this
      rw [Sheet.implAt_of_cell hcp2]
      exact this
    · right
      exact ⟨hpl, by simp [hcp2], hfp, by
        rw [Sheet.implAt_of_cell hcp, Sheet.implAt_of_cell hcp2]⟩
  · intro q c f cache hcq hiq p hm
    exact hs.covered q c f cache (hsame q c hcq) hiq p hm
  · intro q hq
    obtain ⟨c, hc⟩ := Option.isSome_iff_exists.mp hq
    exact hs.valid q (by simp [hsame q c hc])
/-! ## The invariant of the caches on every observable sheet -/

theorem Cell.makeImpl_covered {env : Env} (hcov : env.Covers) {text : Str} {impl : Impl}
    (h : Cell.makeImpl env text = .ok impl) :
    ∀ f w, impl = .FormulaImpl f w → ∀ p, f.body.Mentions p → p ∈ f.cells := by
  intro f w himpl p hm
  subst himpl
  cases text with
  | nil => simp [Cell.makeImpl] at h
  | cons c rest =>
    by_cases hcond : 1 < (c :: rest).length ∧ c = FORMULA_SIGN
    · simp only [Cell.makeImpl] at h
      rw [if_pos hcond] at h
      have hc : ¬ c ≠ FORMULA_SIGN := fun hne => hne hcond.2
      simp only [Impl.newFormula] at h
      rw [if_neg hc] at h
      cases hp : env.ParseFormulaAST rest with
      | none => simp [ParseFormula, hp] at h
      | some ast =>
        simp only [ParseFormula, hp, Except.ok.injEq, Impl.FormulaImpl.injEq] at h
        obtain ⟨rfl, _⟩ := h
        exact hcov rest ast hp p hm
    · simp only [Cell.makeImpl] at h
      rw [if_neg hcond] at h
      simp [Impl.newText] at h

/-- Unless it dereferences a null or dangling pointer, `Cell::Set` keeps the invariant
of the caches. -/
theorem Cell.Set_Coherent (env : Env) (hcov : env.Covers) (s : Sheet) (self : Position)
    (text : Str) (hs : s.Coherent env) (hwf : s.WF) (hself : (s.cell self).isSome = true)
    (hok : (Cell.Set env s self text).2 ≠ some .nullDereference) :
    (Cell.Set env s self text).1.Coherent env := by
  cases hi : Cell.makeImpl env text with
  | error e =>
    rw [Cell.Set_of_makeImpl_error env s self text e hself hi]
    exact hs
  | ok impl =>
    obtain ⟨b, hb, hiff⟩ := Cell.CheckForCyclicity_spec s self impl hwf.left_live hself
    cases b with
    | true =>
      rw [Cell.Set_of_check_true env s self text impl hself hi hb]
      exact hs
    | false =>
      rcases Cell.Set_of_check_false env s self text impl hwf hself hi hb with
        ⟨s2, h2⟩ | ⟨s2, h2, hp, hc⟩
      · rw [h2] at hok; exact absurd rfl hok
      · rw [h2]
        have hwf2 : s2.WF := hwf.of_SetPost hself hp (by
          intro hex
          have := hiff.mpr hex
          simp at this)
        exact hs.of_Set hwf hwf2 hp hc (Cell.makeImpl_covered hcov hi)

theorem Sheet.SetCell_Coherent (env : Env) (hcov : env.Covers) (s : Sheet) (pos : Position)
    (text : Str) (hs : s.Coherent env) (hwf : s.WF)
    (hok : (Sheet.SetCell env s pos text).2 ≠ some .nullDereference) :
    (Sheet.SetCell env s pos text).1.Coherent env := by
  cases hv : pos.IsValid with
  | false =>
    rw [Sheet.SetCell_of_invalid env s pos text hv]
    exact hs
  | true =>
    rw [Sheet.SetCell_of_valid env s pos text hv] at hok ⊢
    cases hc : (s.emplace pos Cell.new).cell pos with
    | none =>
      rw [Cell.Set_of_none env _ pos text hc] at hok
      exact absurd rfl hok
    | some c =>
      exact Cell.Set_Coherent env hcov _ pos text (hs.emplace_keeps hwf pos hv) (hwf.emplace pos)
        (by simp [hc]) hok

theorem Sheet.ClearCell_Coherent (env : Env) (s : Sheet) (pos : Position)
    (hs : s.Coherent env) (hwf : s.WF)
    (hok : (Sheet.ClearCell env s pos).2 ≠ some .nullDereference) :
    (Sheet.ClearCell env s pos).1.Coherent env := by
  unfold Sheet.ClearCell at hok ⊢
  cases hv : pos.IsValid with
  | false => simp only [hv, Bool.not_false, if_true]; exact hs
  | true =>
    simp only [hv, Bool.not_true, Bool.false_eq_true, if_false] at hok ⊢
    cases hf : s.find pos with
    | none => exact hs
    | some v =>
      cases v with
      | none => exact hs
      | some c =>
        simp only [hf] at hok ⊢
        have hself : (s.cell pos).isSome = true := by
          rw [Sheet.cell_eq_some.mpr hf]; rfl
        have hk : Cell.CheckForCyclicity s pos .EmptyImpl = .ok false :=
          Cell.CheckForCyclicity_of_nil s pos .EmptyImpl rfl
        rcases Cell.Set_of_check_false env s pos [] .EmptyImpl hwf hself
          (Cell.makeImpl_nil env) hk with ⟨s2, h2⟩ | ⟨s2, h2, hp, hc⟩
        · unfold Cell.Clear at hok
          rw [h2] at hok
          exact absurd rfl hok
        · have hwf2 : s2.WF := by
            apply hwf.of_SetPost hself hp
            rintro ⟨q, _, hq, _⟩
            simp [Impl.GetReferencedCells] at hq
          have hs2 : s2.Coherent env := hs.of_Set hwf hwf2 hp hc (by
            intro f w h; simp at h)
          have hlive2 : (s2.cell pos).isSome = true := (hp.live pos).mpr (Or.inl hself)
          obtain ⟨c2, hc2⟩ := Option.isSome_iff_exists.mp hlive2
          unfold Cell.Clear
          rw [h2]
          simp only [Res.andThen, hc2]
          by_cases hr : c2.IsReferenced = true
          · simp only [hr, Bool.not_true, Bool.false_eq_true, if_false]
            exact hs2
          · simp only [hr, Bool.not_false, if_true]
            apply hs2.reset_keeps hwf2 pos
            have : c2.left_nods_ = [] := by
              simpa [Cell.IsReferenced] using hr
            simp [Sheet.left, hc2, this]

/-- A client read only populates caches and keeps the invariant of the caches. -/
theorem Sheet.GetValue_Fills (env : Env) (s : Sheet) (pos : Position) (hs : s.Coherent env) :
    s.Fills env (Sheet.GetValue env s pos).1.1 ∧
    ∀ cell, s.GetCellPtr pos = .ok (some cell) →
      (Sheet.GetValue env s pos).2 = Sheet.valueAt env s.readFuel s cell := by
  unfold Sheet.GetValue
  cases hp : s.GetCellPtr pos with
  | error f => exact ⟨Sheet.Fills.of_coherent hs, fun cell h => by simp at h⟩
  | ok ptr =>
    cases ptr with
    | none => exact ⟨Sheet.Fills.of_coherent hs, fun cell h => by simp at h⟩
    | some cell =>
      have := Cell.GetValue_good env s.readFuel (s, []) cell hs (by simp [Sheet.readFuel])
      refine ⟨this.1, ?_⟩
      intro cell2 h
      simp only [Except.ok.injEq, Option.some.injEq] at h
      subst h
      exact this.2.1

/-- Every observable sheet satisfies the invariant of the graph and, when the parser
lists every position a formula can read, the invariant of the caches. -/
theorem Sheet.Observable.invariants {env : Env} (hcov : env.Covers) {s : Sheet}
    (h : Sheet.Observable env s) : s.WF ∧ s.Coherent env := by
  induction h with
  | empty => exact ⟨Sheet.WF.empty, Sheet.Coherent.of_empty env⟩
  | setCell s pos text _ hok ih =>
    exact ⟨(Sheet.SetCell_WF env s pos text ih.1).2 hok,
      Sheet.SetCell_Coherent env hcov s pos text ih.2 ih.1 hok⟩
  | clearCell s pos _ hok ih =>
    exact ⟨(Sheet.ClearCell_WF env s pos ih.1).2 hok,
      Sheet.ClearCell_Coherent env s pos ih.2 ih.1 hok⟩
  | getValue s pos _ ih =>
    have := (Sheet.GetValue_Fills env s pos ih.2).1
    exact ⟨ih.1.of_CacheOnly this.cacheOnly, this.coherent⟩

theorem Env.sample_covers : Env.sample.Covers := by
  intro text ast h p hm
  simp only [Env.sample] at h
  split at h
  all_goals first
    | (simp only [Option.some.injEq] at h
       subst h
       cases hm <;> first
         | (simp; done)
         | (rename_i hq; cases hq))
    | simp at h
/-! ## A read never exhausts its budget -/

theorem Sheet.mem_keys_of_find {s : Sheet} {q : Position} (h : (s.find q).isSome = true) :
    q ∈ s.map Prod.fst := by
  induction s with
  | nil => simp [Sheet.find] at h
  | cons e rest ih =>
    obtain ⟨k, v⟩ := e
    by_cases hk : k = q
    · simp [hk]
    · simp only [Sheet.find, hk, if_false] at h
      simp only [List.map_cons, List.mem_cons]
      exact Or.inr (ih h)

theorem Sheet.length_le_of_nodup_live {s : Sheet} {path : List Position} (hn : path.Nodup)
    (hl : ∀ y ∈ path, (s.cell y).isSome = true) : path.length ≤ s.length := by
  have hsub : path ⊆ s.map Prod.fst := by
    intro y hy
    apply Sheet.mem_keys_of_find
    obtain ⟨c, hc⟩ := Option.isSome_iff_exists.mp (hl y hy)
    rw [Sheet.cell_eq_some.mp hc]
    rfl
  have := (List.subperm_of_subset hn hsub).length_le
  simpa using this

theorem Formula.pureRun_error {args : Position → Except Fault FValue} {e : Fault} :
    ∀ (body : Exec), Formula.pureRun args body = .error e →
      ∃ p ∈ Formula.asked args body, args p = .error e
  | .done d, h => by simp [Formula.pureRun] at h
  | .fail c, h => by simp [Formula.pureRun] at h
  | .ask p k, h => by
    rw [Formula.pureRun_ask] at h
    rw [Formula.asked_ask]
    cases hr : args p with
    | error f =>
      rw [hr] at h
      simp only [Except.error.injEq] at h
      subst h
      exact ⟨p, by simp, hr⟩
    | ok v =>
      cases v with
      | error c => rw [hr] at h; simp at h
      | number d =>
        rw [hr] at h
        obtain ⟨q, hq, hqe⟩ := Formula.pureRun_error (k d) h
        exact ⟨q, by simp [hq], hqe⟩

theorem Formula.pureArgs_error {env : Env} {valueOf : Position → Except Fault Value}
    {s : Sheet} {p : Position} {e : Fault} (h : Formula.pureArgs env valueOf s p = .error e) :
    p.IsValid = true ∧ (s.cell p).isSome = true ∧ valueOf p = .error e := by
  cases hv : p.IsValid with
  | false => rw [Formula.pureArgs_of_invalid env _ _ hv] at h; simp at h
  | true =>
    cases hl : s.cell p with
    | none => rw [Formula.pureArgs_of_dead env _ _ hv hl] at h; simp at h
    | some c =>
      have hlive : (s.cell p).isSome = true := by simp [hl]
      rw [Formula.pureArgs_of_live env _ _ hv hlive] at h
      refine ⟨rfl, rfl, ?_⟩
      cases hq : valueOf p with
      | error f =>
        rw [hq] at h
        simp only [Except.error.injEq] at h
        rw [h]
      | ok v =>
        rw [hq] at h
        cases v with
        | number d => simp at h
        | error c => simp at h
        | text t =>
          simp only at h
          split at h
          · simp at h
          · split at h <;> simp at h

/-- On a sheet whose dependency relation has no cycle, a chain of nested reads visits
each cell at most once, so a read with depth `n` cannot exhaust its budget once the
cells already on the chain and `n` together exceed the length of the map. -/
theorem Sheet.valueAt_ne_fuelExhausted (env : Env) (s : Sheet) (hwf : s.WF)
    (hcov : ∀ q c f cache, s.cell q = some c → c.impl_ = .FormulaImpl f cache →
      ∀ p, f.body.Mentions p → p ∈ f.cells) :
    ∀ (n : Nat) (path : List Position) (x : Position), path.Nodup →
      (∀ y ∈ path, (s.cell y).isSome = true) →
      (∀ y ∈ path, Relation.TransGen s.DependsOn y x) →
      (s.cell x).isSome = true → s.length + 1 ≤ path.length + n →
      Sheet.valueAt env n s x ≠ .error .fuelExhausted := by
  intro n
  induction n with
  | zero =>
    intro path x hn hl _ _ hlen
    have := Sheet.length_le_of_nodup_live hn hl
    omega
  | succ n ih =>
    intro path x hn hl hdep hx hlen hfault
    obtain ⟨c, hc⟩ := Option.isSome_iff_exists.mp hx
    cases hi : c.impl_ with
    | EmptyImpl => simp [Sheet.valueAt, hc, hi] at hfault
    | TextImpl t => simp [Sheet.valueAt, hc, hi] at hfault
    | FormulaImpl f w =>
      rw [Sheet.valueAt_formula env n s x c f w hc hi] at hfault
      cases hr : s.runAt env n f.body with
      | ok r =>
        rw [hr] at hfault
        cases r <;> simp at hfault
      | error e =>
        rw [hr] at hfault
        simp only [Except.error.injEq] at hfault
        subst hfault
        obtain ⟨p, hp, hpe⟩ := Formula.pureRun_error f.body hr
        obtain ⟨hv, hpl, hpv⟩ := Formula.pureArgs_error hpe
        have hm := Formula.asked_mentions f.body p hp
        have hpr : s.DependsOn x p := by
          simp only [Sheet.DependsOn, Sheet.refs, hc, hi, Impl.GetReferencedCells,
            FormulaAST.GetReferencedCells]
          exact mem_referencedOf.mpr ⟨hcov x c f w hc hi p hm, hv⟩
        have hxp : x ∉ path := fun hmem => hwf.acyclic x (hdep x hmem)
        refine ih (x :: path) p (List.nodup_cons.mpr ⟨hxp, hn⟩) ?_ ?_ hpl ?_ hpv
        · intro y hy
          rcases List.mem_cons.mp hy with rfl | hy
          · exact hx
          · exact hl y hy
        · intro y hy
          rcases List.mem_cons.mp hy with rfl | hy
          · exact Relation.TransGen.single hpr
          · exact Relation.TransGen.tail (hdep y hy) hpr
        · simp only [List.length_cons]
          omega

/-- On every observable sheet a client read returns: the budget of `GetValue` is never
exhausted. -/
theorem Sheet.Observable.read_returns {env : Env} (hcov : env.Covers) {s : Sheet}
    (h : Sheet.Observable env s) (pos : Position) :
    (Sheet.GetValue env s pos).2 ≠ .error .fuelExhausted := by
  obtain ⟨hwf, hs⟩ := h.invariants hcov
  cases hp : s.GetCellPtr pos with
  | error f =>
    have := Sheet.GetCellPtr_error hp
    subst this
    simp [Sheet.GetValue, hp]
  | ok ptr =>
    cases ptr with
    | none => simp [Sheet.GetValue, hp]
    | some cell =>
      rw [(Sheet.GetValue_Fills env s pos hs).2 cell hp]
      have hlive : (s.cell cell).isSome = true := by
        unfold Sheet.GetCellPtr at hp
        split at hp
        · simp at hp
        · unfold Sheet.cell
          split at hp
          · simp at hp
          · simp at hp
          · rename_i heq
            simp only [Except.ok.injEq, Option.some.injEq] at hp
            subst hp
            simp [heq]
      exact Sheet.valueAt_ne_fuelExhausted env s hwf hs.covered s.readFuel [] cell
        List.nodup_nil (by simp) (by simp) hlive (by simp [Sheet.readFuel])

/-- C6: on every sheet observable through `SetCell`, `ClearCell` and `GetValue` calls,
a formula cell whose cache is populated holds in it exactly the result of evaluating its
current formula against the current values of the sheet: `Formula::Evaluate` run now
returns the cached result, and so does a read of the cell. The parser is assumed to list
in `GetCells()` every position its expression can hand to the resolver. -/
theorem C6_populated_cache_holds_current_value (env : Env) (hcov : env.Covers) (s : Sheet)
    (h : Sheet.Observable env s) (p : Position) (c : Cell) (f : FormulaAST) (v : FValue)
    (hc : s.cell p = some c) (hi : c.impl_ = .FormulaImpl f (some v)) :
    (Formula.Evaluate env (Cell.GetValue env s.readFuel) f p (s, [])).2 = .ok v ∧
    (Sheet.GetValue env s p).2 = .ok v.toValue := by
  have hs := (h.invariants hcov).2
  have hrun : s.runAt env s.length f.body = .ok v := hs.cache p c f v hc hi
  constructor
  · have := (Formula.run_spec env s.readFuel _ (Cell.GetValue_good env s.readFuel) f.body
      (s, [] ++ [p]) hs (by simp [Sheet.readFuel])).2.1
    have hE : Formula.Evaluate env (Cell.GetValue env s.readFuel) f p (s, []) =
        Formula.run (Formula.args env (Cell.GetValue env s.readFuel)) f.body
          (s, [] ++ [p]) := rfl
    rw [hE, this]
    exact (Sheet.runAt_mono env s (by simp [Sheet.readFuel]) hrun).1
  · have hv : p.IsValid = true := hs.valid p (by simp [hc])
    have hptr : s.GetCellPtr p = .ok (some p) := by
      rw [Sheet.GetCellPtr_of_valid s hv]; simp [hc]
    rw [(Sheet.GetValue_Fills env s p hs).2 p hptr]
    have : s.readFuel = s.length + 1 := rfl
    rw [this, Sheet.valueAt_formula env s.length s p c f (some v) hc hi, hrun]
    cases v <;> rfl

theorem C6_populated_cache_holds_current_value_witness :
    (Formula.Evaluate Env.sample (Cell.GetValue Env.sample Sheet.sampleRead.readFuel)
      ⟨[⟨0, 1⟩], .ask ⟨0, 1⟩ .done, ['B', '1']⟩ ⟨0, 0⟩ (Sheet.sampleRead, [])).2 =
      .ok (.number 1) ∧
    (Sheet.GetValue Env.sample Sheet.sampleRead ⟨0, 0⟩).2 = .ok (FValue.number 1).toValue :=
  C6_populated_cache_holds_current_value Env.sample Env.sample_covers Sheet.sampleRead
    (Sheet.Observable.getValue _ _
      (Sheet.Observable.setCell _ _ _
        (Sheet.Observable.setCell _ _ _ Sheet.Observable.empty (by decide)) (by decide)))
    ⟨0, 0⟩
    ⟨.FormulaImpl ⟨[⟨0, 1⟩], .ask ⟨0, 1⟩ .done, ['B', '1']⟩ (some (.number 1)), [], [⟨0, 1⟩]⟩
    ⟨[⟨0, 1⟩], .ask ⟨0, 1⟩ .done, ['B', '1']⟩ (.number 1) rfl rfl

/-! ## The dependents sets: exactness and the cycle check -/

/-- C19: on every sheet reachable by `SetCell` and `ClearCell` calls, for all materialized
cells `A` (at `a`) and `B` (at `b`), `B` is in the dependents set `left_nods_` of `A`
exactly when the current content of `B` is a formula whose valid referenced positions
include `a`. -/
theorem C19_dependents_set_is_exact (env : Env) (s : Sheet) (h : Sheet.Reachable env s)
    (a b : Position) (ca cb : Cell) (ha : s.cell a = some ca) (hb : s.cell b = some cb) :
    b ∈ ca.left_nods_ ↔
      ∃ f cache, cb.impl_ = .FormulaImpl f cache ∧ a ∈ f.cells ∧ a.IsValid = true := by
  have h1 := h.wf.left_iff a b
  rw [Sheet.left_of_cell ha] at h1
  rw [h1]
  unfold Sheet.refs
  rw [hb]
  rcases cb with ⟨impl, l, r⟩
  cases impl with
  | EmptyImpl => simp [Impl.GetReferencedCells]
  | TextImpl t => simp [Impl.GetReferencedCells]
  | FormulaImpl f cache =>
    simp only [Impl.GetReferencedCells, FormulaAST.GetReferencedCells, mem_referencedOf]
    constructor
    · intro hm
      exact ⟨f, cache, rfl, hm⟩
    · rintro ⟨f2, cache2, heq, hm⟩
      cases heq
      exact hm

theorem C19_dependents_set_is_exact_witness :
    Sheet.Reachable Env.sample
        (Sheet.SetCell Env.sample
          (Sheet.SetCell Env.sample
            (Sheet.SetCell Env.sample Sheet.empty ⟨0, 0⟩ ['=', 'B', '1']).1
            ⟨0, 0⟩ ['=', 'C', '1']).1
          ⟨0, 0⟩ ['=', 'B', '1']).1 ∧
      ((⟨0, 0⟩ : Position) ∈ (Cell.mk .EmptyImpl [⟨0, 0⟩] []).left_nods_ ↔
        ∃ f cache,
          (Cell.mk (.FormulaImpl ⟨[⟨0, 1⟩], .ask ⟨0, 1⟩ .done, ['B', '1']⟩ none) []
              [⟨0, 1⟩, ⟨0, 2⟩]).impl_ = .FormulaImpl f cache ∧
            (⟨0, 1⟩ : Position) ∈ f.cells ∧ (⟨0, 1⟩ : Position).IsValid = true) :=
  have hr : Sheet.Reachable Env.sample
      (Sheet.SetCell Env.sample
        (Sheet.SetCell Env.sample
          (Sheet.SetCell Env.sample Sheet.empty ⟨0, 0⟩ ['=', 'B', '1']).1
          ⟨0, 0⟩ ['=', 'C', '1']).1
        ⟨0, 0⟩ ['=', 'B', '1']).1 :=
    Sheet.Reachable.setCell _ _ _
      (Sheet.Reachable.setCell _ _ _
        (Sheet.Reachable.setCell _ _ _ Sheet.Reachable.empty (by decide)) (by decide))
      (by decide)
  ⟨hr, C19_dependents_set_is_exact Env.sample _ hr ⟨0, 1⟩ ⟨0, 0⟩ _ _ rfl rfl⟩
/-- A sheet whose dependents sets form a cycle: the cell at A1 lists B1 and the cell at B1
lists A1. No sequence of calls produces it; it instantiates statements about the
cycle check on arbitrary graphs. -/
theorem Sheet.cyclic_left_live :
    ∀ p q, q ∈ Sheet.left
        [(⟨0, 0⟩, some ⟨.EmptyImpl, [⟨0, 1⟩], []⟩), (⟨0, 1⟩, some ⟨.EmptyImpl, [⟨0, 0⟩], []⟩)]
        p →
      (Sheet.cell
        [(⟨0, 0⟩, some ⟨.EmptyImpl, [⟨0, 1⟩], []⟩), (⟨0, 1⟩, some ⟨.EmptyImpl, [⟨0, 0⟩], []⟩)]
        q).isSome = true := by
  intro p q hq
  by_cases h0 : (⟨0, 0⟩ : Position) = p
  · subst h0
    have : q = ⟨0, 1⟩ := by simpa [Sheet.left, Sheet.cell, Sheet.find] using hq
    subst this
    decide
  · by_cases h1 : (⟨0, 1⟩ : Position) = p
    · subst h1
      have : q = ⟨0, 0⟩ := by simpa [Sheet.left, Sheet.cell, Sheet.find] using hq
      subst this
      decide
    · simp [Sheet.left, Sheet.cell, Sheet.find, h0, h1] at hq

/-- C17: on every finite graph of dependents sets whose pointers lead to cells (cycles
allowed), for every start cell `c` and every new content, `CheckForCyclicity` returns,
and it returns `true` exactly when the cells at the referenced positions include `c`
or a cell reachable from `c` along `left_nods_` edges; it returns `false` when the new
content references no cell. -/
theorem C17_cycle_check_is_reachability (s : Sheet) (c : Position) (impl : Impl)
    (hlive : ∀ p q, q ∈ s.left p → (s.cell q).isSome = true)
    (hc : (s.cell c).isSome = true) :
    ∃ b, Cell.CheckForCyclicity s c impl = .ok b ∧
      (b = true ↔
        (c ∈ impl.GetReferencedCells ∨
          ∃ q, q ∈ impl.GetReferencedCells ∧ (s.cell q).isSome = true ∧
            Relation.TransGen s.Dependent c q)) ∧
      (impl.GetReferencedCells = [] → b = false) := by
  obtain ⟨b, hb, hiff⟩ := Cell.CheckForCyclicity_spec s c impl hlive hc
  refine ⟨b, hb, ?_, ?_⟩
  · rw [hiff]
    constructor
    · rintro ⟨q, hpath, hq, hl⟩
      rcases Relation.reflTransGen_iff_eq_or_transGen.mp hpath with h | h
      · exact Or.inl (h ▸ hq)
      · exact Or.inr ⟨q, hq, hl, h⟩
    · rintro (h | ⟨q, hq, hl, h⟩)
      · exact ⟨c, Relation.ReflTransGen.refl, h, hc⟩
      · exact ⟨q, h.to_reflTransGen, hq, hl⟩
  · intro hnil
    rw [Cell.CheckForCyclicity_of_nil s c impl hnil] at hb
    cases hb
    rfl

theorem C17_cycle_check_is_reachability_witness :
    ∃ b, Cell.CheckForCyclicity
        [(⟨0, 0⟩, some ⟨.EmptyImpl, [⟨0, 1⟩], []⟩), (⟨0, 1⟩, some ⟨.EmptyImpl, [⟨0, 0⟩], []⟩)]
        ⟨0, 0⟩ (.FormulaImpl ⟨[⟨0, 2⟩], .ask ⟨0, 2⟩ .done, ['C', '1']⟩ none) = .ok b ∧
      (b = true ↔
        ((⟨0, 0⟩ : Position) ∈
            (Impl.FormulaImpl ⟨[⟨0, 2⟩], .ask ⟨0, 2⟩ .done, ['C', '1']⟩
              none).GetReferencedCells ∨
          ∃ q, q ∈ (Impl.FormulaImpl ⟨[⟨0, 2⟩], .ask ⟨0, 2⟩ .done, ['C', '1']⟩
              none).GetReferencedCells ∧
            (Sheet.cell
              [(⟨0, 0⟩, some ⟨.EmptyImpl, [⟨0, 1⟩], []⟩),
                (⟨0, 1⟩, some ⟨.EmptyImpl, [⟨0, 0⟩], []⟩)] q).isSome = true ∧
            Relation.TransGen
              (Sheet.Dependent
                [(⟨0, 0⟩, some ⟨.EmptyImpl, [⟨0, 1⟩], []⟩),
                  (⟨0, 1⟩, some ⟨.EmptyImpl, [⟨0, 0⟩], []⟩)]) ⟨0, 0⟩ q)) ∧
      ((Impl.FormulaImpl ⟨[⟨0, 2⟩], .ask ⟨0, 2⟩ .done, ['C', '1']⟩
          none).GetReferencedCells = [] → b = false) :=
  C17_cycle_check_is_reachability _ ⟨0, 0⟩ _ Sheet.cyclic_left_live (by decide)
/-! ## Materialization of referenced cells -/

/-- What a `SetCell` that completes leaves behind: the position is valid, the content was
built, the cycle check found nothing, and the graph is updated as `Cell::Set` does. -/
theorem Sheet.SetCell_completed (env : Env) (s : Sheet) (pos : Position) (text : Str)
    (s2 : Sheet) (hwf : s.WF) (hok : Sheet.SetCell env s pos text = (s2, none)) :
    pos.IsValid = true ∧ ((s.emplace pos Cell.new).cell pos).isSome = true ∧
    ∃ impl, Cell.makeImpl env text = .ok impl ∧
      Cell.CheckForCyclicity (s.emplace pos Cell.new) pos impl = .ok false ∧
      Sheet.SetPost pos impl (s.emplace pos Cell.new) s2 ∧
      Sheet.SetCaches pos (s.emplace pos Cell.new) s2 := by
  have hv : pos.IsValid = true := by
    cases hv : pos.IsValid with
    | true => rfl
    | false =>
      rw [Sheet.SetCell_of_invalid env s pos text hv] at hok
      simp at hok
  rw [Sheet.SetCell_of_valid env s pos text hv] at hok
  have hwf1 : (s.emplace pos Cell.new).WF := hwf.emplace pos
  have hself : ((s.emplace pos Cell.new).cell pos).isSome = true := by
    cases hc : (s.emplace pos Cell.new).cell pos with
    | some c => rfl
    | none =>
      rw [Cell.Set_of_none env _ pos text hc] at hok
      simp at hok
  refine ⟨hv, hself, ?_⟩
  cases hi : Cell.makeImpl env text with
  | error e =>
    rw [Cell.Set_of_makeImpl_error env _ pos text e hself hi] at hok
    simp at hok
  | ok impl =>
    obtain ⟨b, hb, _⟩ := Cell.CheckForCyclicity_spec (s.emplace pos Cell.new) pos impl
      hwf1.left_live hself
    cases b with
    | true =>
      rw [Cell.Set_of_check_true env _ pos text impl hself hi hb] at hok
      simp at hok
    | false =>
      rcases Cell.Set_of_check_false env _ pos text impl hwf1 hself hi hb with
        ⟨s3, h3⟩ | ⟨s3, h3, hp, hcs⟩
      · rw [h3] at hok
        simp at hok
      · rw [h3] at hok
        have : s3 = s2 := by simpa using hok
        subst this
        exact ⟨impl, rfl, hb, hp, hcs⟩

/-- `Sheet::GetCell` at a valid position is the cell the entry holds. -/
theorem Sheet.GetCell_of_valid (s : Sheet) {p : Position} (h : p.IsValid = true) :
    s.GetCell p = .ok (s.cell p) := by
  unfold Sheet.GetCell
  rw [Sheet.GetCellPtr_of_valid s h]
  cases hc : s.cell p with
  | none => simp
  | some c => simp [hc]

/-- C11: on every sheet reachable by `SetCell` and `ClearCell` calls, after every
`SetCell(p, text)` that completes with a formula as content, each valid position `q`
among the cells of the formula holds a materialized cell whose `IsReferenced()` is
true; and when `GetCell(q)` was absent before the call that cell has empty text. -/
theorem C11_referenced_cells_are_materialized (env : Env) (s : Sheet)
    (h : Sheet.Reachable env s) (p : Position) (text : Str) (f : FormulaAST)
    (cache : Option FValue) (hi : Cell.makeImpl env text = .ok (.FormulaImpl f cache))
    (s2 : Sheet) (hok : Sheet.SetCell env s p text = (s2, none))
    (q : Position) (hq : q ∈ f.cells) (hv : q.IsValid = true) :
    ∃ c, s2.GetCell q = .ok (some c) ∧ c.IsReferenced = true ∧
      (s.GetCell q = .ok none → c.impl_.GetText = []) := by
  obtain ⟨_, hself, impl, hi2, hb, hp, _⟩ :=
    Sheet.SetCell_completed env s p text s2 h.wf hok
  rw [hi] at hi2
  cases hi2
  have hwf1 : (s.emplace p Cell.new).WF := h.wf.emplace p
  have hqr : q ∈ (Impl.FormulaImpl f cache).GetReferencedCells :=
    mem_referencedOf.mpr ⟨hq, hv⟩
  obtain ⟨b, hb2, hiff⟩ := Cell.CheckForCyclicity_spec (s.emplace p Cell.new) p
    (.FormulaImpl f cache) hwf1.left_live hself
  rw [hb] at hb2
  cases hb2
  have hne : q ≠ p := by
    intro heq
    subst heq
    have : false = true := hiff.mpr ⟨q, Relation.ReflTransGen.refl, hqr, hself⟩
    cases this
  have hlive : (s2.cell q).isSome = true := (hp.live q).mpr (Or.inr hqr)
  obtain ⟨c, hc⟩ := Option.isSome_iff_exists.mp hlive
  refine ⟨c, ?_, ?_, ?_⟩
  · rw [Sheet.GetCell_of_valid s2 hv, hc]
  · have hl : p ∈ s2.left q := (hp.left q p).mpr (Or.inr ⟨rfl, hqr⟩)
    rw [Sheet.left_of_cell hc] at hl
    cases hln : c.left_nods_ with
    | nil => rw [hln] at hl; cases hl
    | cons a rest => simp [Cell.IsReferenced, hln]
  · intro hnone
    rw [Sheet.GetCell_of_valid s hv] at hnone
    have hsq : s.cell q = none := by simpa using hnone
    have h1 : (s.emplace p Cell.new).cell q = none := by
      rw [Sheet.cell_emplace, if_neg hne, hsq]
    have h2 := hp.impl q
    rw [if_neg hne] at h2
    simp only [Sheet.implAt, hc, h1] at h2
    cases hci : c.impl_ with
    | EmptyImpl => rfl
    | TextImpl t => rw [hci] at h2; simp [Impl.InvalidateCache] at h2
    | FormulaImpl g w => rw [hci] at h2; simp [Impl.InvalidateCache] at h2

theorem C11_referenced_cells_are_materialized_witness :
    Sheet.Reachable Env.sample Sheet.empty ∧
      ∃ c, (Sheet.SetCell Env.sample Sheet.empty ⟨0, 0⟩ ['=', 'B', '1']).1.GetCell ⟨0, 1⟩ =
          .ok (some c) ∧ c.IsReferenced = true ∧
        (Sheet.empty.GetCell ⟨0, 1⟩ = .ok none → c.impl_.GetText = []) :=
  ⟨Sheet.Reachable.empty,
    C11_referenced_cells_are_materialized Env.sample Sheet.empty Sheet.Reachable.empty ⟨0, 0⟩
      ['=', 'B', '1'] ⟨[⟨0, 1⟩], .ask ⟨0, 1⟩ .done, ['B', '1']⟩ none rfl _ rfl ⟨0, 1⟩
      (by decide) (by decide)⟩
/-! ## Literal text -/

/-- The content `Cell::Set` builds for a non-empty text that is not a formula. -/
theorem Cell.makeImpl_text (env : Env) (t : Str) (ht : t ≠ [])
    (hnf : t.head? ≠ some FORMULA_SIGN ∨ t = [FORMULA_SIGN]) :
    Cell.makeImpl env t = .ok (.TextImpl t) := by
  cases t with
  | nil => exact absurd rfl ht
  | cons c rest =>
    have hcond : ¬ (1 < (c :: rest).length ∧ c = FORMULA_SIGN) := by
      rintro ⟨hlen, hc⟩
      rcases hnf with h | h
      · exact h (by simp [hc])
      · rw [h] at hlen
        simp at hlen
    unfold Cell.makeImpl
    simp only
    rw [if_neg hcond]
    simp [Impl.newText]

/-- `TextImpl::GetValue` in words: one leading escape marker is dropped. -/
theorem Impl.textValue_eq (t : Str) :
    Impl.textValue t = if t.head? = some ESCAPE_SIGN then t.tail else t := by
  cases t with
  | nil => simp [Impl.textValue]
  | cons c rest =>
    by_cases hc : c = ESCAPE_SIGN
    · simp [Impl.textValue, hc]
    · simp [Impl.textValue, hc]

/-- `Cell::GetValue` on a cell that holds literal text. -/
theorem Cell.GetValue_text (env : Env) (n : Nat) (st : Reading) (self : Position) (c : Cell)
    (t : Str) (hc : st.1.cell self = some c) (hi : c.impl_ = .TextImpl t) :
    Cell.GetValue env (n + 1) st self = (st, .ok (.text (Impl.textValue t))) := by
  simp only [Cell.GetValue, hc, hi]

/-- `Cell::Set` with a content that references nothing completes when every pointer of
`right_nods_` leads to a cell. -/
theorem Cell.Set_of_right_live (env : Env) (s : Sheet) (self : Position) (text : Str)
    (impl : Impl) (hwf : s.WF) (hself : (s.cell self).isSome = true)
    (hi : Cell.makeImpl env text = .ok impl) (hnil : impl.GetReferencedCells = [])
    (hright : ∀ x ∈ s.right self, (s.cell x).isSome = true) :
    ∃ s2, Cell.Set env s self text = (s2, none) ∧ Sheet.SetPost self impl s s2 ∧
      Sheet.SetCaches self s s2 := by
  rcases Cell.Set_outcome env s self text impl hwf hself hi
    (Cell.CheckForCyclicity_of_nil s self impl hnil) with ⟨s2, _, hcause⟩ | h
  · rcases hcause with ⟨x, hx, hdead⟩ | hne
    · have := hright x hx
      rw [hdead] at this
      cases this
    · exact absurd hnil hne
  · exact h

/-! ## The printable size -/

/-- The loop of `GetPrintableSize`, started from any intermediate result: the result
only grows, it covers every entry that holds a cell, and each of its components is the
initial one or comes from an entry that holds a cell. -/
theorem Sheet.printable_fold (s : Sheet) : ∀ (acc : Size),
    let r := s.foldl
      (fun (result : Size) (entry : Position × Option Cell) =>
        match entry.2 with
        | some _ => ⟨max result.rows (entry.1.row + 1), max result.cols (entry.1.col + 1)⟩
        | none => result) acc
    (acc.rows ≤ r.rows ∧ acc.cols ≤ r.cols) ∧
    (∀ p c, (p, some c) ∈ s → p.row + 1 ≤ r.rows ∧ p.col + 1 ≤ r.cols) ∧
    (r.rows = acc.rows ∨ ∃ p c, (p, some c) ∈ s ∧ r.rows = p.row + 1) ∧
    (r.cols = acc.cols ∨ ∃ p c, (p, some c) ∈ s ∧ r.cols = p.col + 1) := by
  induction s with
  | nil =>
    intro acc
    simp
  | cons e rest ih =>
    intro acc
    obtain ⟨q, v⟩ := e
    cases v with
    | none =>
      have h := ih acc
      simp only [List.foldl_cons] at h ⊢
      obtain ⟨h1, h2, h3, h4⟩ := h
      refine ⟨h1, ?_, ?_, ?_⟩
      · intro p c hm
        rcases List.mem_cons.mp hm with heq | hm
        · cases heq
        · exact h2 p c hm
      · rcases h3 with h | ⟨p, c, hm, h⟩
        · exact Or.inl h
        · exact Or.inr ⟨p, c, List.mem_cons_of_mem _ hm, h⟩
      · rcases h4 with h | ⟨p, c, hm, h⟩
        · exact Or.inl h
        · exact Or.inr ⟨p, c, List.mem_cons_of_mem _ hm, h⟩
    | some cq =>
      have h := ih ⟨max acc.rows (q.row + 1), max acc.cols (q.col + 1)⟩
      simp only [List.foldl_cons] at h ⊢
      obtain ⟨⟨h1r, h1c⟩, h2, h3, h4⟩ := h
      refine ⟨⟨le_trans (le_max_left _ _) h1r, le_trans (le_max_left _ _) h1c⟩, ?_, ?_, ?_⟩
      · intro p c hm
        rcases List.mem_cons.mp hm with heq | hm
        · cases heq
          exact ⟨le_trans (le_max_right _ _) h1r, le_trans (le_max_right _ _) h1c⟩
        · exact h2 p c hm
      · rcases h3 with h | ⟨p, c, hm, h⟩
        · rcases max_cases acc.rows (q.row + 1) with ⟨hm, _⟩ | ⟨hm, _⟩
          · exact Or.inl (by rw [h, hm])
          · exact Or.inr ⟨q, cq, List.mem_cons_self _ _, by rw [h, hm]⟩
        · exact Or.inr ⟨p, c, List.mem_cons_of_mem _ hm, h⟩
      · rcases h4 with h | ⟨p, c, hm, h⟩
        · rcases max_cases acc.cols (q.col + 1) with ⟨hm, _⟩ | ⟨hm, _⟩
          · exact Or.inl (by rw [h, hm])
          · exact Or.inr ⟨q, cq, List.mem_cons_self _ _, by rw [h, hm]⟩
        · exact Or.inr ⟨p, c, List.mem_cons_of_mem _ hm, h⟩

/-- In a map, which has one entry per key, the entry of a key is what `find` returns. -/
theorem Sheet.mem_iff_find {s : Sheet} (hkeys : (s.map Prod.fst).Nodup) (p : Position)
    (v : Option Cell) : (p, v) ∈ s ↔ s.find p = some v := by
  induction s with
  | nil => simp [Sheet.find]
  | cons e rest ih =>
    obtain ⟨q, w⟩ := e
    simp only [List.map_cons, List.nodup_cons] at hkeys
    obtain ⟨hq, hrest⟩ := hkeys
    have ih2 := ih hrest
    by_cases hqp : q = p
    · subst hqp
      simp only [Sheet.find, if_true, List.mem_cons, Prod.mk.injEq, true_and, Option.some.injEq]
      constructor
      · rintro (h | h)
        · exact h.symm
        · exact absurd (List.mem_map_of_mem Prod.fst h) hq
      · intro h
        exact Or.inl h.symm
    · simp only [Sheet.find, hqp, if_false, List.mem_cons, Prod.mk.injEq]
      rw [← ih2]
      constructor
      · rintro (⟨h, _⟩ | h)
        · exact absurd h.symm hqp
        · exact h
      · intro h
        exact Or.inr h
/-- What `GetPrintableSize` computes, on every sheet whose map has one entry per
position: the smallest rectangle from the origin that contains every materialized cell,
whatever its text. Each materialized cell lies inside, no smaller rectangle contains
them all, `rows` is 0 or one more than the row of a materialized cell, `cols` likewise,
and the size is 0 by 0 when no cell is materialized. -/
theorem Sheet.GetPrintableSize_encloses (s : Sheet)
    (hkeys : (s.map Prod.fst).Nodup) :
    (∀ p c, s.cell p = some c →
      p.row < s.GetPrintableSize.rows ∧ p.col < s.GetPrintableSize.cols) ∧
    (∀ sz : Size, 0 ≤ sz.rows → 0 ≤ sz.cols →
      (∀ p c, s.cell p = some c → p.row < sz.rows ∧ p.col < sz.cols) →
      s.GetPrintableSize.rows ≤ sz.rows ∧ s.GetPrintableSize.cols ≤ sz.cols) ∧
    (s.GetPrintableSize.rows = 0 ∨
      ∃ p c, s.cell p = some c ∧ s.GetPrintableSize.rows = p.row + 1) ∧
    (s.GetPrintableSize.cols = 0 ∨
      ∃ p c, s.cell p = some c ∧ s.GetPrintableSize.cols = p.col + 1) ∧
    ((∀ p, s.cell p = none) → s.GetPrintableSize = ⟨0, 0⟩) := by
  have hmem : ∀ p c, (p, some c) ∈ s ↔ s.cell p = some c := by
    intro p c
    rw [Sheet.mem_iff_find hkeys, Sheet.cell_eq_some]
  obtain ⟨_, h2, h3, h4⟩ := Sheet.printable_fold s ⟨0, 0⟩
  simp only at h2 h3 h4
  have hrows : s.GetPrintableSize.rows = 0 ∨
      ∃ p c, s.cell p = some c ∧ s.GetPrintableSize.rows = p.row + 1 := by
    rcases h3 with h | ⟨p, c, hm, h⟩
    · exact Or.inl h
    · exact Or.inr ⟨p, c, (hmem p c).mp hm, h⟩
  have hcols : s.GetPrintableSize.cols = 0 ∨
      ∃ p c, s.cell p = some c ∧ s.GetPrintableSize.cols = p.col + 1 := by
    rcases h4 with h | ⟨p, c, hm, h⟩
    · exact Or.inl h
    · exact Or.inr ⟨p, c, (hmem p c).mp hm, h⟩
  refine ⟨?_, ?_, hrows, hcols, ?_⟩
  · intro p c hc
    have := h2 p c ((hmem p c).mpr hc)
    exact ⟨by unfold Sheet.GetPrintableSize; omega, by unfold Sheet.GetPrintableSize; omega⟩
  · intro sz hr hcl hall
    constructor
    · rcases hrows with h | ⟨p, c, hc, h⟩
      · rw [h]; exact hr
      · rw [h]; have := (hall p c hc).1; omega
    · rcases hcols with h | ⟨p, c, hc, h⟩
      · rw [h]; exact hcl
      · rw [h]; have := (hall p c hc).2; omega
  · intro hnone
    have hr0 : s.GetPrintableSize.rows = 0 := by
      rcases hrows with h | ⟨p, c, hc, _⟩
      · exact h
      · rw [hnone p] at hc; cases hc
    have hc0 : s.GetPrintableSize.cols = 0 := by
      rcases hcols with h | ⟨p, c, hc, _⟩
      · exact h
      · rw [hnone p] at hc; cases hc
    cases hsz : s.GetPrintableSize with
    | mk r c =>
      rw [hsz] at hr0 hc0
      simp only at hr0 hc0
      rw [hr0, hc0]

/-- The sheet left by `SetCell(A1, "=B1")` and `ClearCell(A1)`: the entry of A1 is reset
and B1 holds the empty cell that the formula materialized. -/
theorem Sheet.cleared_reference_eq :
    (Sheet.ClearCell Env.sample
      (Sheet.SetCell Env.sample Sheet.empty ⟨0, 0⟩ ['=', 'B', '1']).1 ⟨0, 0⟩).1 =
      [(⟨0, 0⟩, none), (⟨0, 1⟩, some ⟨.EmptyImpl, [], []⟩)] :=
  rfl

/-- C13 (violated by the code): after `SetCell(A1, "=B1")` on the empty sheet the only
cell with non-empty text is A1, in row 0 and column 0, yet `GetPrintableSize` returns
1 by 2 and not 1 by 1; and after `ClearCell(A1)` on top of that, a reachable sheet in
which no cell has text at all, it still returns 1 by 2 and not 0 by 0. The empty cell
materialized at B1 counts, because the loop tests the entry for null only. -/
theorem C13_empty_cell_widens_printable_size :
    ((∀ p c, (Sheet.SetCell Env.sample Sheet.empty ⟨0, 0⟩ ['=', 'B', '1']).1.cell p = some c →
        c.impl_.GetText ≠ [] → p = ⟨0, 0⟩) ∧
      (Sheet.SetCell Env.sample Sheet.empty ⟨0, 0⟩ ['=', 'B', '1']).1.GetPrintableSize =
        ⟨1, 2⟩) ∧
    (Sheet.Reachable Env.sample
        (Sheet.ClearCell Env.sample
          (Sheet.SetCell Env.sample Sheet.empty ⟨0, 0⟩ ['=', 'B', '1']).1 ⟨0, 0⟩).1 ∧
      (∀ p c, (Sheet.ClearCell Env.sample
          (Sheet.SetCell Env.sample Sheet.empty ⟨0, 0⟩ ['=', 'B', '1']).1 ⟨0, 0⟩).1.cell p =
            some c → c.impl_.GetText = []) ∧
      (Sheet.ClearCell Env.sample
        (Sheet.SetCell Env.sample Sheet.empty ⟨0, 0⟩ ['=', 'B', '1']).1
          ⟨0, 0⟩).1.GetPrintableSize = ⟨1, 2⟩) := by
  refine ⟨⟨?_, by decide⟩, ⟨?_, ?_, by decide⟩⟩
  · intro p c hc ht
    have hs : (Sheet.SetCell Env.sample Sheet.empty ⟨0, 0⟩ ['=', 'B', '1']).1 =
        [(⟨0, 0⟩, some ⟨.FormulaImpl ⟨[⟨0, 1⟩], .ask ⟨0, 1⟩ .done, ['B', '1']⟩ none, [],
            [⟨0, 1⟩]⟩),
          (⟨0, 1⟩, some ⟨.EmptyImpl, [⟨0, 0⟩], []⟩)] := rfl
    rw [hs] at hc
    by_cases h0 : (⟨0, 0⟩ : Position) = p
    · exact h0.symm
    · by_cases h1 : (⟨0, 1⟩ : Position) = p
      · subst h1
        have : c = ⟨.EmptyImpl, [⟨0, 0⟩], []⟩ := by
          simpa [Sheet.cell, Sheet.find] using hc.symm
        subst this
        exact absurd rfl ht
      · simp [Sheet.cell, Sheet.find, h0, h1] at hc
  · exact Sheet.Reachable.clearCell _ _
      (Sheet.Reachable.setCell _ _ _ Sheet.Reachable.empty (by decide)) (by decide)
  · intro p c hc
    rw [Sheet.cleared_reference_eq] at hc
    by_cases h0 : (⟨0, 0⟩ : Position) = p
    · subst h0
      simp [Sheet.cell, Sheet.find] at hc
    · by_cases h1 : (⟨0, 1⟩ : Position) = p
      · subst h1
        have : c = ⟨.EmptyImpl, [], []⟩ := by
          simpa [Sheet.cell, Sheet.find] using hc.symm
        subst this
        rfl
      · simp [Sheet.cell, Sheet.find, h0, h1] at hc

/-! ## The referenced cells of a formula -/

theorem mem_firstOccurrences {x : Position} :
    ∀ {l : List Position}, x ∈ firstOccurrences l ↔ x ∈ l
  | [] => by simp [firstOccurrences]
  | a :: rest => by
    have ih := @mem_firstOccurrences x rest
    simp only [firstOccurrences, List.mem_cons, List.mem_filter, ih, decide_eq_true_eq]
    by_cases hxa : x = a
    · simp [hxa]
    · simp [hxa]

theorem firstOccurrences_nodup : ∀ (l : List Position), (firstOccurrences l).Nodup
  | [] => by simp [firstOccurrences]
  | a :: rest => by
    simp only [firstOccurrences, List.nodup_cons, List.mem_filter, decide_eq_true_eq]
    exact ⟨fun h => h.2 rfl, (firstOccurrences_nodup rest).filter _⟩

theorem unique_sublist : ∀ (l : List Position), (unique l).Sublist l
  | [] => by simp [unique]
  | [a] => by simp [unique]
  | a :: b :: rest => by
    have ih := unique_sublist (b :: rest)
    by_cases hab : a = b
    · simp only [unique, hab, if_true]
      exact List.Sublist.cons _ ih
    · simp only [unique, hab, if_false]
      exact List.Sublist.cons₂ _ ih

theorem unique_head : ∀ (a : Position) (l : List Position), ∃ t, unique (a :: l) = a :: t
  | a, [] => ⟨[], rfl⟩
  | a, b :: rest => by
    by_cases hab : a = b
    · obtain ⟨t, ht⟩ := unique_head b rest
      refine ⟨t, ?_⟩
      simp only [unique, hab, if_true]
      rw [ht]
    · exact ⟨unique (b :: rest), by simp [unique, hab]⟩

theorem unique_chain : ∀ (l : List Position), List.Chain' (fun a b => a ≠ b) (unique l)
  | [] => by simp [unique]
  | [a] => by simp [unique]
  | a :: b :: rest => by
    have ih := unique_chain (b :: rest)
    by_cases hab : a = b
    · simp only [unique, hab, if_true]
      exact ih
    · simp only [unique, hab, if_false]
      obtain ⟨t, ht⟩ := unique_head b rest
      rw [ht] at ih ⊢
      exact List.Chain'.cons hab ih

theorem unique_of_grouped : ∀ (l : List Position), grouped l = true →
    unique l = firstOccurrences l
  | [], _ => rfl
  | [a], _ => by simp [unique, firstOccurrences]
  | a :: b :: rest, h => by
    simp only [grouped, Bool.and_eq_true, decide_eq_true_eq] at h
    obtain ⟨ha, hb, hrest⟩ := h
    have hg : grouped (b :: rest) = true := by
      simp only [grouped, Bool.and_eq_true, decide_eq_true_eq]
      exact ⟨hb, hrest⟩
    have ih := unique_of_grouped (b :: rest) hg
    by_cases hab : a = b
    · subst hab
      simp only [unique, if_true]
      rw [ih]
      simp only [firstOccurrences, List.filter_cons, decide_not, decide_True, Bool.not_true,
        Bool.false_eq_true, if_false, List.filter_filter, Bool.and_self]
    · simp only [unique, hab, if_false]
      rw [ih]
      have hdrop : (b :: rest).dropWhile (fun c => decide (c = a)) = b :: rest := by
        simp [List.dropWhile, Ne.symm hab]
      rw [hdrop] at ha
      have hnot : a ∉ firstOccurrences (b :: rest) := fun hm => ha (mem_firstOccurrences.mp hm)
      show a :: firstOccurrences (b :: rest) =
        a :: (firstOccurrences (b :: rest)).filter fun c => decide (c ≠ a)
      congr 1
      symm
      rw [List.filter_eq_self]
      intro c hc
      simp only [decide_eq_true_eq]
      rintro rfl
      exact hnot hc
theorem unique_eq_destutter : ∀ (a : Position) (l : List Position),
    unique (a :: l) = List.destutter' (fun x y => x ≠ y) a l
  | a, [] => by simp [unique]
  | a, b :: rest => by
    by_cases hab : a = b
    · subst hab
      simp only [unique, if_true, List.destutter', ne_eq, not_true_eq_false, if_false]
      exact unique_eq_destutter a rest
    · simp only [unique, hab, if_false, List.destutter', ne_eq, not_false_eq_true, if_true]
      rw [unique_eq_destutter b rest]

/-- What `Formula::GetReferencedCells` computes, for every sequence of positions the parser
lists: the valid positions of the sequence, in its order, with every run of equal
neighbours reduced to one entry (`List.destutter`). The result holds exactly the valid
positions and is a subsequence of the parser's. When equal positions are neighbours once
the invalid ones are dropped (a sorted sequence, for one), it is the valid positions,
each one once, in the order of first occurrence. -/
theorem FormulaAST.GetReferencedCells_spec (f : FormulaAST) :
    f.GetReferencedCells =
      (f.cells.filter fun c => c.IsValid).destutter (fun x y => x ≠ y) ∧
    (∀ x, x ∈ f.GetReferencedCells ↔ x ∈ f.cells ∧ x.IsValid = true) ∧
    f.GetReferencedCells.Sublist f.cells ∧
    (grouped (f.cells.filter fun c => c.IsValid) = true →
      f.GetReferencedCells = firstOccurrences (f.cells.filter fun c => c.IsValid) ∧
        f.GetReferencedCells.Nodup) := by
  refine ⟨?_, fun x => mem_referencedOf, ?_, ?_⟩
  · show unique (f.cells.filter fun c => c.IsValid) = _
    cases hl : f.cells.filter fun c => c.IsValid with
    | nil => simp [unique]
    | cons a l => rw [unique_eq_destutter]; rfl
  · exact (unique_sublist _).trans (List.filter_sublist _)
  · intro hg
    have h : f.GetReferencedCells = firstOccurrences (f.cells.filter fun c => c.IsValid) :=
      unique_of_grouped _ hg
    exact ⟨h, h ▸ firstOccurrences_nodup _⟩

/-- C14 (violated by the code): for the parser's sequence A1, B1, A1 the result of
`GetReferencedCells` is A1, B1, A1, where A1 occurs twice, and not the valid positions
A1, B1 each once in the order of first occurrence: `std::unique` removes equal
neighbours only, and the sequence is not sorted first. -/
theorem C14_distant_duplicates_are_kept :
    (FormulaAST.mk [⟨0, 0⟩, ⟨0, 1⟩, ⟨0, 0⟩] (.done 0) []).GetReferencedCells =
        [⟨0, 0⟩, ⟨0, 1⟩, ⟨0, 0⟩] ∧
      firstOccurrences ((FormulaAST.mk [⟨0, 0⟩, ⟨0, 1⟩, ⟨0, 0⟩] (.done 0) []).cells.filter
        fun c => c.IsValid) = [⟨0, 0⟩, ⟨0, 1⟩] ∧
      ¬ (FormulaAST.mk [⟨0, 0⟩, ⟨0, 1⟩, ⟨0, 0⟩] (.done 0) []).GetReferencedCells.Nodup := by
  decide
/-! ## Clearing a cell -/

/-- `ClearCell` on a materialized cell whose `right_nods_` pointers all lead to cells, on a
sheet that satisfies the invariant of the graph: the call completes; when the current
formula of some cell references the position, the cell stays, with empty text and the
empty text as value; otherwise the entry is reset and `GetCell` returns null. -/
theorem Sheet.ClearCell_spec (env : Env) (s : Sheet) (pos : Position) (c : Cell)
    (hwf : s.WF) (hv : pos.IsValid = true) (hc : s.cell pos = some c)
    (hright : ∀ q ∈ c.right_nods_, (s.cell q).isSome = true) :
    ∃ s2, Sheet.ClearCell env s pos = (s2, none) ∧
      ((∃ b, pos ∈ s.refs b) →
        ∃ c2, s2.GetCell pos = .ok (some c2) ∧ c2.impl_.GetText = [] ∧
          ∀ n log, Cell.GetValue env (n + 1) (s2, log) pos = ((s2, log), .ok (.text []))) ∧
      ((¬ ∃ b, pos ∈ s.refs b) → s2.GetCell pos = .ok none ∧ s2.find pos = some none) := by
  have hself : (s.cell pos).isSome = true := by rw [hc]; rfl
  have hr : ∀ x ∈ s.right pos, (s.cell x).isSome = true := by
    intro x hx
    have : s.right pos = c.right_nods_ := by simp [Sheet.right, hc]
    exact hright x (this ▸ hx)
  obtain ⟨s1, hset, hp, _⟩ := Cell.Set_of_right_live env s pos [] .EmptyImpl hwf hself
    (Cell.makeImpl_nil env) rfl hr
  have hlive : (s1.cell pos).isSome = true := (hp.live pos).mpr (Or.inl hself)
  obtain ⟨c1, hc1⟩ := Option.isSome_iff_exists.mp hlive
  have himpl : c1.impl_ = .EmptyImpl := by
    have h2 := hp.impl pos
    simp only [if_true, Sheet.implAt, hc1] at h2
    cases hci : c1.impl_ with
    | EmptyImpl => rfl
    | TextImpl u => rw [hci] at h2; simp [Impl.InvalidateCache] at h2
    | FormulaImpl g w => rw [hci] at h2; simp [Impl.InvalidateCache] at h2
  have hleft : ∀ b, b ∈ c1.left_nods_ ↔ pos ∈ s.refs b := by
    intro b
    rw [← Sheet.left_of_cell hc1, hp.left pos b, hwf.left_iff pos b]
    constructor
    · rintro (⟨h, _⟩ | ⟨_, h⟩)
      · exact h
      · simp [Impl.GetReferencedCells] at h
    · intro h
      refine Or.inl ⟨h, ?_⟩
      rintro ⟨hb, _⟩
      subst hb
      exact hwf.acyclic b (Relation.TransGen.single h)
  have hfind : s.find pos = some (some c) := Sheet.cell_eq_some.mp hc
  have hclear : Sheet.ClearCell env s pos =
      if !c1.IsReferenced then (s1.put pos none, none) else (s1, none) := by
    unfold Sheet.ClearCell Cell.Clear
    simp only [hv, Bool.not_true, Bool.false_eq_true, if_false, hfind, hset, Res.andThen, hc1]
  by_cases href : ∃ b, pos ∈ s.refs b
  · obtain ⟨b, hb⟩ := href
    have hisref : c1.IsReferenced = true := by
      have hm := (hleft b).mpr hb
      cases hl : c1.left_nods_ with
      | nil => rw [hl] at hm; cases hm
      | cons a rest => simp [Cell.IsReferenced, hl]
    refine ⟨s1, ?_, ?_, ?_⟩
    · rw [hclear]; simp [hisref]
    · intro _
      refine ⟨c1, ?_, ?_, ?_⟩
      · rw [Sheet.GetCell_of_valid s1 hv, hc1]
      · rw [himpl]; rfl
      · intro n log
        simp only [Cell.GetValue, hc1, himpl]
    · intro hno
      exact absurd ⟨b, hb⟩ hno
  · have hisref : c1.IsReferenced = false := by
      cases hl : c1.left_nods_ with
      | nil => simp [Cell.IsReferenced, hl]
      | cons a rest =>
        have hm : a ∈ c1.left_nods_ := by rw [hl]; exact List.mem_cons_self _ _
        exact absurd ⟨a, (hleft a).mp hm⟩ href
    refine ⟨s1.put pos none, ?_, ?_, ?_⟩
    · rw [hclear]; simp [hisref]
    · intro h
      exact absurd h href
    · intro _
      constructor
      · rw [Sheet.GetCell_of_valid _ hv, Sheet.cell_put_none]
        simp
      · rw [Sheet.find_put]
        simp [Sheet.cell_eq_some.mp hc1]

/-- C12 (violated by the code): after `SetCell(A1, "=B1")`, `SetCell(A1, "x")` and
`ClearCell(B1)`, the sheet is reachable and A1 holds a materialized cell that no formula
references, yet `ClearCell(A1)` has undefined behaviour: `right_nods_` of A1 still holds
the pointer to the destroyed cell of B1, and `RemoveDependenciesFrom` dereferences it. -/
theorem C12_clear_follows_dangling_dependency :
    Sheet.Reachable Env.sample
        (Sheet.ClearCell Env.sample
          (Sheet.SetCell Env.sample
            (Sheet.SetCell Env.sample Sheet.empty ⟨0, 0⟩ ['=', 'B', '1']).1
            ⟨0, 0⟩ ['x']).1
          ⟨0, 1⟩).1 ∧
      ((Sheet.ClearCell Env.sample
          (Sheet.SetCell Env.sample
            (Sheet.SetCell Env.sample Sheet.empty ⟨0, 0⟩ ['=', 'B', '1']).1
            ⟨0, 0⟩ ['x']).1
          ⟨0, 1⟩).1.cell ⟨0, 0⟩).isSome = true ∧
      (Sheet.ClearCell Env.sample
          (Sheet.SetCell Env.sample
            (Sheet.SetCell Env.sample Sheet.empty ⟨0, 0⟩ ['=', 'B', '1']).1
            ⟨0, 0⟩ ['x']).1
          ⟨0, 1⟩).1.right ⟨0, 0⟩ = [⟨0, 1⟩] ∧
      (Sheet.ClearCell Env.sample
          (Sheet.SetCell Env.sample
            (Sheet.SetCell Env.sample Sheet.empty ⟨0, 0⟩ ['=', 'B', '1']).1
            ⟨0, 0⟩ ['x']).1
          ⟨0, 1⟩).1.cell ⟨0, 1⟩ = none ∧
      (Sheet.ClearCell Env.sample
        (Sheet.ClearCell Env.sample
          (Sheet.SetCell Env.sample
            (Sheet.SetCell Env.sample Sheet.empty ⟨0, 0⟩ ['=', 'B', '1']).1
            ⟨0, 0⟩ ['x']).1
          ⟨0, 1⟩).1
        ⟨0, 0⟩).2 = some .nullDereference :=
  ⟨Sheet.Reachable.clearCell _ _
      (Sheet.Reachable.setCell _ _ _
        (Sheet.Reachable.setCell _ _ _ Sheet.Reachable.empty (by decide)) (by decide))
      (by decide),
    by decide, by decide, rfl, by decide⟩
/-! ## Reads on arbitrary sheets

`FormulaImpl::GetValue` returns a fresh evaluation on every call, so what a read
returns never depends on the caches. -/

/-- The resolver of `Formula::Evaluate`, for all its repeated calls of `GetValue`, returns
what the resolver without side effects returns. -/
theorem Formula.args_pure (env : Env) (n : Nat)
    (g : Reading → Position → Reading × Except Fault Value) (hg : PureRead env n g)
    (st : Reading) (p : Position) :
    st.1.CacheOnly (Formula.args env g st p).1.1 ∧
    (Formula.args env g st p).2 = Formula.pureArgs env (Sheet.valueAt env n st.1) st.1 p := by
  cases hv : p.IsValid with
  | false =>
    have hargs : Formula.args env g st p = (st, .ok (.error .Ref)) := by
      simp [Formula.args, hv]
    rw [hargs, Formula.pureArgs_of_invalid env _ _ hv]
    exact ⟨Sheet.CacheOnly.refl _, rfl⟩
  | true =>
    cases hl : st.1.cell p with
    | none =>
      have hargs : Formula.args env g st p = (st, .ok (.number 0)) := by
        unfold Formula.args
        rw [Sheet.GetCellPtr_of_valid _ hv]
        simp [hv, hl]
      rw [hargs, Formula.pureArgs_of_dead env _ _ hv hl]
      exact ⟨Sheet.CacheOnly.refl _, rfl⟩
    | some c =>
      have hlive : (st.1.cell p).isSome = true := by simp [hl]
      have H1 := hg st p
      rcases h1 : g st p with ⟨st1, v1⟩
      rw [h1] at H1
      obtain ⟨F1, V1⟩ := H1
      simp only at F1 V1
      have H2 := hg st1 p
      rcases h2 : g st1 p with ⟨st2, v2⟩
      rw [h2] at H2
      obtain ⟨F2, V2⟩ := H2
      simp only at F2 V2
      rw [F1.valueAt env n p] at V2
      have H3 := hg st2 p
      rcases h3 : g st2 p with ⟨st3, v3⟩
      rw [h3] at H3
      obtain ⟨F3, V3⟩ := H3
      simp only at F3 V3
      rw [F2.valueAt env n p, F1.valueAt env n p] at V3
      have hunf : Formula.args env g st p =
          match g st p with
          | (st1, .error f) => (st1, .error f)
          | (st1, .ok (.number _)) =>
            match g st1 p with
            | (st2, .error f) => (st2, .error f)
            | (st2, .ok (.number d)) => (st2, .ok (.number d))
            | (st2, .ok _) => (st2, .error .bad_variant_access)
          | (st1, .ok _) =>
            match g st1 p with
            | (st2, .error f) => (st2, .error f)
            | (st2, .ok (.text _)) =>
              match g st2 p with
              | (st3, .error f) => (st3, .error f)
              | (st3, .ok (.text value)) =>
                if value.isEmpty then (st3, .ok (.number 0))
                else
                  match env.readNumber value with
                  | some result => (st3, .ok (.number result))
                  | none => (st3, .ok (.error .Value))
              | (st3, .ok _) => (st3, .error .bad_variant_access)
            | (st2, .ok _) =>
              match g st2 p with
              | (st3, .error f) => (st3, .error f)
              | (st3, .ok (.error e)) => (st3, .ok (.error e))
              | (st3, .ok _) => (st3, .error .bad_variant_access) := by
        unfold Formula.args
        rw [Sheet.GetCellPtr_of_valid _ hv]
        simp [hv, hlive]
      rw [Formula.pureArgs_of_live env _ _ hv hlive, hunf, h1]
      cases hV : Sheet.valueAt env n st.1 p with
      | error f =>
        rw [hV] at V1
        subst V1
        exact ⟨F1, rfl⟩
      | ok V =>
        rw [hV] at V1 V2 V3
        subst V1 V2 V3
        cases V with
        | number d =>
          simp only [h2]
          exact ⟨F1.trans F2, trivial⟩
        | text t =>
          simp only [h2, h3]
          by_cases ht : t.isEmpty = true
          · simp only [ht, if_true]
            exact ⟨(F1.trans F2).trans F3, trivial⟩
          · simp only [ht, Bool.false_eq_true, if_false]
            cases env.readNumber t with
            | none => exact ⟨(F1.trans F2).trans F3, rfl⟩
            | some d => exact ⟨(F1.trans F2).trans F3, rfl⟩
        | error e =>
          simp only [h2, h3]
          exact ⟨(F1.trans F2).trans F3, trivial⟩

/-- The run of `Execute` inside `Formula::Evaluate` returns what the pure run returns, on
any sheet. -/
theorem Formula.run_pure (env : Env) (n : Nat)
    (g : Reading → Position → Reading × Except Fault Value) (hg : PureRead env n g) :
    ∀ (body : Exec) (st : Reading),
      st.1.CacheOnly (Formula.run (Formula.args env g) body st).1.1 ∧
      (Formula.run (Formula.args env g) body st).2 = st.1.runAt env n body := by
  intro body
  induction body with
  | done d => intro st; exact ⟨Sheet.CacheOnly.refl _, rfl⟩
  | fail e => intro st; exact ⟨Sheet.CacheOnly.refl _, rfl⟩
  | ask p k ih =>
    intro st
    have HA := Formula.args_pure env n g hg st p
    rcases ha : Formula.args env g st p with ⟨st1, r1⟩
    rw [ha] at HA
    obtain ⟨F1, V1⟩ := HA
    simp only at F1 V1
    rw [Formula.run_ask, ha]
    unfold Sheet.runAt
    rw [Formula.pureRun_ask, ← V1]
    cases r1 with
    | error f => exact ⟨F1, rfl⟩
    | ok r =>
      cases r with
      | error e => exact ⟨F1, rfl⟩
      | number d =>
        simp only
        obtain ⟨F2, V2⟩ := ih d st1
        refine ⟨F1.trans F2, ?_⟩
        rw [V2, F1.runAt env n]
        rfl

/-- `Cell::GetValue` changes nothing but caches and returns the value computed from the
contents alone, on any sheet and with any budget. -/
theorem Cell.GetValue_pure (env : Env) : ∀ (n : Nat), PureRead env n (Cell.GetValue env n)
  | 0 => by
    intro st x
    exact ⟨Sheet.CacheOnly.refl _, rfl⟩
  | n + 1 => by
    intro st x
    have hg := Cell.GetValue_pure env n
    cases hc : st.1.cell x with
    | none =>
      have : Cell.GetValue env (n + 1) st x = (st, .error .nullDereference) := by
        simp only [Cell.GetValue, hc]
      rw [this]
      exact ⟨Sheet.CacheOnly.refl _, by simp [Sheet.valueAt, hc]⟩
    | some c =>
      cases hi : c.impl_ with
      | EmptyImpl =>
        have : Cell.GetValue env (n + 1) st x = (st, .ok (.text [])) := by
          simp only [Cell.GetValue, hc, hi]
        rw [this]
        exact ⟨Sheet.CacheOnly.refl _, by simp [Sheet.valueAt, hc, hi]⟩
      | TextImpl t =>
        have : Cell.GetValue env (n + 1) st x = (st, .ok (.text (Impl.textValue t))) := by
          simp only [Cell.GetValue, hc, hi]
        rw [this]
        exact ⟨Sheet.CacheOnly.refl _, by simp [Sheet.valueAt, hc, hi]⟩
      | FormulaImpl f w =>
        rw [Cell.GetValue_formula env n st x c f w hc hi,
          Sheet.valueAt_formula env n st.1 x c f w hc hi]
        have hE : ∀ st0 : Reading, Formula.Evaluate env (Cell.GetValue env n) f x st0 =
            Formula.run (Formula.args env (Cell.GetValue env n)) f.body
              (st0.1, st0.2 ++ [x]) := fun _ => rfl
        cases w with
        | some v0 =>
          simp only
          have HE := Formula.run_pure env n _ hg f.body (st.1, st.2 ++ [x])
          rw [hE st]
          rcases he : Formula.run (Formula.args env (Cell.GetValue env n)) f.body
            (st.1, st.2 ++ [x]) with ⟨st2, r2⟩
          rw [he] at HE
          obtain ⟨F2, V2⟩ := HE
          simp only at F2 V2
          rw [← V2]
          cases r2 with
          | error e => exact ⟨F2, rfl⟩
          | ok r =>
            cases r with
            | number d => exact ⟨F2, rfl⟩
            | error e => exact ⟨F2, rfl⟩
        | none =>
          simp only
          have HE := Formula.run_pure env n _ hg f.body (st.1, st.2 ++ [x])
          rw [hE st]
          rcases he : Formula.run (Formula.args env (Cell.GetValue env n)) f.body
            (st.1, st.2 ++ [x]) with ⟨st1, r1⟩
          rw [he] at HE
          obtain ⟨F1, V1⟩ := HE
          simp only at F1 V1
          rw [← V1]
          cases r1 with
          | error e => exact ⟨F1, rfl⟩
          | ok v =>
            simp only
            obtain ⟨c1, hc1, hs1⟩ := F1.cell_some hc
            have hi1 : ∃ w1, c1.impl_ = .FormulaImpl f w1 := by
              have := Cell.shape_impl hs1
              rw [hi] at this
              cases hci : c1.impl_ with
              | EmptyImpl => simp [hci, Impl.InvalidateCache] at this
              | TextImpl t => simp [hci, Impl.InvalidateCache] at this
              | FormulaImpl f1 w1 =>
                have : f1 = f := by simpa [hci, Impl.InvalidateCache] using this
                subst this
                exact ⟨w1, rfl⟩
            obtain ⟨w1, hi1⟩ := hi1
            obtain ⟨i1, l1, rr1⟩ := c1
            simp only at hi1
            subst hi1
            have FS : st1.1.CacheOnly
                (st1.1.put x (some ⟨.FormulaImpl f (some v), l1, rr1⟩)) :=
              Sheet.CacheOnly.of_put hc1 rfl
            have hst : Cell.storeCache st1 x v =
                ((st1.1.put x (some ⟨.FormulaImpl f (some v), l1, rr1⟩), st1.2), none) := by
              simp only [Cell.storeCache, hc1]
            rw [hst]
            simp only
            have HE2 := Formula.run_pure env n _ hg f.body
              (st1.1.put x (some ⟨.FormulaImpl f (some v), l1, rr1⟩), st1.2 ++ [x])
            rw [hE]
            rcases he2 : Formula.run (Formula.args env (Cell.GetValue env n)) f.body
              (st1.1.put x (some ⟨.FormulaImpl f (some v), l1, rr1⟩), st1.2 ++ [x])
              with ⟨st3, r3⟩
            rw [he2] at HE2
            obtain ⟨F3, V3⟩ := HE2
            simp only at F3 V3
            rw [FS.runAt env n, F1.runAt env n, ← V1] at V3
            subst V3
            cases v with
            | number d => exact ⟨(F1.trans FS).trans F3, rfl⟩
            | error e => exact ⟨(F1.trans FS).trans F3, rfl⟩
/-- A read that returns a value has found a cell. -/
theorem Sheet.valueAt_ok_live (env : Env) (n : Nat) (s : Sheet) (p : Position) (v : Value)
    (h : Sheet.valueAt env n s p = .ok v) : (s.cell p).isSome = true := by
  cases n with
  | zero => simp [Sheet.valueAt] at h
  | succ m =>
    cases hc : s.cell p with
    | none => simp [Sheet.valueAt, hc] at h
    | some c => rfl

/-- C15 (as the code has it): for every sheet and every position `p`, the resolver that
`Formula::Evaluate` passes to the expression raises the `Ref` category when `p` is not
valid; for a valid `p` it returns 0 when no cell is materialized at `p`, the number when
the value of the cell is a number, 0 when the value is the empty text, the number read
from a non-empty text that parses in full and the `Value` category when it does not,
and the same category when the value of the cell is an error. A category raised at a
call of the resolver is what the run returns as its result; nothing is thrown. -/
theorem C15_resolver_coerces_cell_values (env : Env) (n : Nat) (st : Reading)
    (p : Position) :
    (p.IsValid = false →
      Formula.args env (Cell.GetValue env n) st p = (st, .ok (.error .Ref))) ∧
    (p.IsValid = true →
      (st.1.cell p = none →
        Formula.args env (Cell.GetValue env n) st p = (st, .ok (.number 0))) ∧
      (∀ d, (Cell.GetValue env n st p).2 = .ok (.number d) →
        (Formula.args env (Cell.GetValue env n) st p).2 = .ok (.number d)) ∧
      ((Cell.GetValue env n st p).2 = .ok (.text []) →
        (Formula.args env (Cell.GetValue env n) st p).2 = .ok (.number 0)) ∧
      (∀ t, t ≠ [] → (Cell.GetValue env n st p).2 = .ok (.text t) →
        (Formula.args env (Cell.GetValue env n) st p).2 =
          match env.readNumber t with
          | some d => .ok (.number d)
          | none => .ok (.error .Value)) ∧
      (∀ e, (Cell.GetValue env n st p).2 = .ok (.error e) →
        (Formula.args env (Cell.GetValue env n) st p).2 = .ok (.error e))) ∧
    (∀ e k, (Formula.args env (Cell.GetValue env n) st p).2 = .ok (.error e) →
      (Formula.run (Formula.args env (Cell.GetValue env n)) (.ask p k) st).2 =
        .ok (.error e)) := by
  have hg := Cell.GetValue_pure env n
  have hargs := (Formula.args_pure env n _ hg st p).2
  have hval := (hg st p).2
  refine ⟨?_, ?_, ?_⟩
  · intro hv
    simp [Formula.args, hv]
  · intro hv
    have hlive : ∀ v, (Cell.GetValue env n st p).2 = .ok v →
        (Formula.args env (Cell.GetValue env n) st p).2 =
          match (.ok v : Except Fault Value) with
          | .error f => .error f
          | .ok (.number d) => .ok (.number d)
          | .ok (.text value) =>
            if value.isEmpty then .ok (.number 0)
            else
              match env.readNumber value with
              | some result => .ok (.number result)
              | none => .ok (.error .Value)
          | .ok (.error e) => .ok (.error e) := by
      intro v h
      rw [hval] at h
      rw [hargs, Formula.pureArgs_of_live env _ _ hv
        (Sheet.valueAt_ok_live env n st.1 p v h), h]
    refine ⟨?_, ?_, ?_, ?_, ?_⟩
    · intro hnone
      unfold Formula.args
      rw [Sheet.GetCellPtr_of_valid _ hv]
      simp [hv, hnone]
    · intro d h
      rw [hlive _ h]
    · intro h
      rw [hlive _ h]
      rfl
    · intro t ht h
      rw [hlive _ h]
      have : t.isEmpty = false := by
        cases t with
        | nil => exact absurd rfl ht
        | cons a r => rfl
      simp only [this, Bool.false_eq_true, if_false]
    · intro e h
      rw [hlive _ h]
  · intro e k h
    rw [Formula.run_ask]
    rcases ha : Formula.args env (Cell.GetValue env n) st p with ⟨st1, r⟩
    rw [ha] at h
    simp only at h
    subst h
    rfl

theorem C15_resolver_coerces_cell_values_witness :
    (⟨0, 1⟩ : Position).IsValid = true ∧
      (Cell.GetValue Env.sample 2
        ((Sheet.SetCell Env.sample Sheet.empty ⟨0, 1⟩ ['a', 'b', 'c']).1, []) ⟨0, 1⟩).2 =
          .ok (.text ['a', 'b', 'c']) ∧
      (Formula.args Env.sample (Cell.GetValue Env.sample 2)
        ((Sheet.SetCell Env.sample Sheet.empty ⟨0, 1⟩ ['a', 'b', 'c']).1, []) ⟨0, 1⟩).2 =
          .ok (.error .Value) :=
  ⟨by decide, rfl,
    ((C15_resolver_coerces_cell_values Env.sample 2
      ((Sheet.SetCell Env.sample Sheet.empty ⟨0, 1⟩ ['a', 'b', 'c']).1, []) ⟨0, 1⟩).2.1
        (by decide)).2.2.2.1 ['a', 'b', 'c'] (by simp) rfl⟩

/-- C15 as the specification words it (violated by the code): no cell is materialized at
the position with row -1 of the empty sheet, and the resolver does not return 0 there;
it raises the `Ref` category. -/
theorem C15_invalid_position_raises_ref :
    Sheet.empty.cell ⟨-1, 0⟩ = none ∧
      (Formula.args Env.sample (Cell.GetValue Env.sample 1) (Sheet.empty, []) ⟨-1, 0⟩).2 =
        .ok (.error .Ref) ∧
      (Formula.args Env.sample (Cell.GetValue Env.sample 1) (Sheet.empty, []) ⟨-1, 0⟩).2 ≠
        .ok (.number 0) := by
  refine ⟨rfl, rfl, ?_⟩
  intro h
  cases h
/-! ## Which caches an invalidation leaves populated -/

theorem Sheet.sampleShortCircuit_observable (leftFirst : Bool) :
    Sheet.Observable (Env.sampleSum leftFirst) (Sheet.sampleShortCircuit leftFirst) := by
  cases leftFirst <;>
  exact Sheet.Observable.getValue _ _
    (Sheet.Observable.setCell _ _ _
      (Sheet.Observable.setCell _ _ _
        (Sheet.Observable.setCell _ _ _
          (Sheet.Observable.setCell _ _ _
            (Sheet.Observable.setCell _ _ _ Sheet.Observable.empty (by decide)) (by decide))
          (by decide))
        (by decide))
      (by decide))

/-- C18 as the specification words it (violated by the code): with A1 and A2 holding the
text `x`, B1 `=A1`, C1 `=A2` and D1 `=B1+C1`, a read of D1 stops at the operand it
evaluates first, whose value is an error, and never reaches the other. When the left
operand comes first, the formula cell C1 has an empty cache in the sheet left by the
read while D1, which depends on it, has a populated one, and after the successful
`SetCell(A2, "y")` the cell D1, which depends on A2 through C1, still has its cache.
When the right operand comes first the same holds with B1 and A1. -/
theorem C18_unread_operand_keeps_dependent_cached :
    (Sheet.Observable (Env.sampleSum true) (Sheet.sampleShortCircuit true) ∧
      ((Sheet.sampleShortCircuit true).implAt ⟨0, 2⟩).isFormula = true ∧
      ((Sheet.sampleShortCircuit true).implAt ⟨0, 2⟩).isCached = false ∧
      (⟨0, 2⟩ : Position) ∈ (Sheet.sampleShortCircuit true).refs ⟨0, 3⟩ ∧
      ((Sheet.sampleShortCircuit true).implAt ⟨0, 3⟩).isCached = true ∧
      (Sheet.SetCell (Env.sampleSum true) (Sheet.sampleShortCircuit true) ⟨1, 0⟩ ['y']).2 =
        none ∧
      (⟨0, 2⟩ : Position) ∈
        (Sheet.SetCell (Env.sampleSum true) (Sheet.sampleShortCircuit true) ⟨1, 0⟩
          ['y']).1.refs ⟨0, 3⟩ ∧
      (⟨1, 0⟩ : Position) ∈
        (Sheet.SetCell (Env.sampleSum true) (Sheet.sampleShortCircuit true) ⟨1, 0⟩
          ['y']).1.refs ⟨0, 2⟩ ∧
      ((Sheet.SetCell (Env.sampleSum true) (Sheet.sampleShortCircuit true) ⟨1, 0⟩
        ['y']).1.implAt ⟨0, 3⟩).isCached = true) ∧
    (Sheet.Observable (Env.sampleSum false) (Sheet.sampleShortCircuit false) ∧
      ((Sheet.sampleShortCircuit false).implAt ⟨0, 1⟩).isFormula = true ∧
      ((Sheet.sampleShortCircuit false).implAt ⟨0, 1⟩).isCached = false ∧
      (⟨0, 1⟩ : Position) ∈ (Sheet.sampleShortCircuit false).refs ⟨0, 3⟩ ∧
      ((Sheet.sampleShortCircuit false).implAt ⟨0, 3⟩).isCached = true ∧
      (Sheet.SetCell (Env.sampleSum false) (Sheet.sampleShortCircuit false) ⟨0, 0⟩ ['y']).2 =
        none ∧
      (⟨0, 1⟩ : Position) ∈
        (Sheet.SetCell (Env.sampleSum false) (Sheet.sampleShortCircuit false) ⟨0, 0⟩
          ['y']).1.refs ⟨0, 3⟩ ∧
      (⟨0, 0⟩ : Position) ∈
        (Sheet.SetCell (Env.sampleSum false) (Sheet.sampleShortCircuit false) ⟨0, 0⟩
          ['y']).1.refs ⟨0, 1⟩ ∧
      ((Sheet.SetCell (Env.sampleSum false) (Sheet.sampleShortCircuit false) ⟨0, 0⟩
        ['y']).1.implAt ⟨0, 3⟩).isCached = true) :=
  ⟨⟨Sheet.sampleShortCircuit_observable true, by decide, by decide, by decide, by decide,
      by decide, by decide, by decide, by decide⟩,
    ⟨Sheet.sampleShortCircuit_observable false, by decide, by decide, by decide, by decide,
      by decide, by decide, by decide, by decide⟩⟩

/-- A formula cell whose evaluation reads a formula cell with an empty cache has an empty
cache itself. -/
theorem Sheet.Coherent.uncached_of_reads {env : Env} {s : Sheet} (hs : s.Coherent env)
    {x z : Position} (hr : s.Reads env x z) (hz : s.formulaAt z)
    (hzc : (s.implAt z).isCached = false) : (s.implAt x).isCached = false := by
  cases hx : (s.implAt x).isCached with
  | false => rfl
  | true =>
    obtain ⟨c, f, v, hc, hi⟩ := Sheet.isCached_implAt_iff.mp hx
    obtain ⟨c2, f2, w2, hc2, hi2, hm⟩ := hr
    rw [hc] at hc2
    cases hc2
    rw [hi] at hi2
    cases hi2
    have := hs.reads x c f v hc hi z hm hz
    rw [hzc] at this
    cases this

/-- A cell that reads another is a formula cell. -/
theorem Sheet.Reads.reader_is_formula {env : Env} {s : Sheet} {x y : Position}
    (h : s.Reads env x y) : s.formulaAt x := by
  obtain ⟨c, f, w, hc, hi, _⟩ := h
  exact ⟨c, hc, by rw [hi]; rfl⟩

/-- The short-circuit of `DoInvalidCache` along the reads: above a formula cell with an
empty cache, every cell that reads it through any number of cells has an empty cache. -/
theorem Sheet.Coherent.uncached_above {env : Env} {s : Sheet} (hs : s.Coherent env)
    {x y : Position} (hp : Relation.TransGen (s.Reads env) x y) (hy : s.formulaAt y)
    (hyc : (s.implAt y).isCached = false) : (s.implAt x).isCached = false := by
  induction hp using Relation.TransGen.head_induction_on with
  | base hr => exact hs.uncached_of_reads hr hy hyc
  | @ih a b hab hby ih =>
    have hb : s.formulaAt b := by
      rcases Relation.TransGen.head'_iff.mp hby with ⟨m, hbm, _⟩
      exact hbm.reader_is_formula
    exact hs.uncached_of_reads hab hb ih

/-- C18 (as the code has it): on every sheet reachable by `SetCell`, `ClearCell` and
`GetValue` calls, the parser listing every position its expression can read: whenever a
formula cell has an empty cache, so has every formula cell whose evaluation reads it,
directly or through other cells; and immediately after a `SetCell` on `X` that
completes, the cache of `X`, of every cell in the dependents set of `X`, and of every
formula cell whose evaluation reads `X`, directly or through other cells, is empty. -/
theorem C18_invalidation_follows_the_reads (env : Env) (hcov : env.Covers) (s : Sheet)
    (h : Sheet.Observable env s) :
    (∀ x y, s.formulaAt y → (s.implAt y).isCached = false →
      Relation.TransGen (s.Reads env) x y → (s.implAt x).isCached = false) ∧
    (∀ X text s2, Sheet.SetCell env s X text = (s2, none) →
      (s2.implAt X).isCached = false ∧
      (∀ x, x ∈ s2.left X → (s2.implAt x).isCached = false) ∧
      (∀ x, Relation.TransGen (s2.Reads env) x X → (s2.implAt x).isCached = false)) := by
  obtain ⟨hwf, hco⟩ := h.invariants hcov
  refine ⟨fun x y hy hyc hp => hco.uncached_above hp hy hyc, ?_⟩
  intro X text s2 hset
  have hobs2 : Sheet.Observable env s2 := by
    have := Sheet.Observable.setCell s X text h (by rw [hset]; simp)
    rw [hset] at this
    exact this
  obtain ⟨hwf2, hco2⟩ := hobs2.invariants hcov
  obtain ⟨hv, _, impl, _, _, _, hcs⟩ := Sheet.SetCell_completed env s X text s2 hwf hset
  have hself : (s2.implAt X).isCached = false := by
    cases hx : (s2.implAt X).isCached with
    | false => rfl
    | true => exact absurd rfl (hcs.kept X hx).1
  have hdirect : ∀ x, s2.Reads env x X → (s2.implAt x).isCached = false := by
    intro x hr
    obtain ⟨c, f, w, hc, hi, hm⟩ := hr
    have hrefs : X ∈ s2.refs x := hco2.asked_mem_refs hc hi hm hv
    exact hcs.children x ((hwf2.left_iff X x).mpr hrefs)
  refine ⟨hself, hcs.children, ?_⟩
  intro x hp
  rcases Relation.TransGen.tail'_iff.mp hp with ⟨w, hxw, hwX⟩
  have hw : (s2.implAt w).isCached = false := hdirect w hwX
  rcases Relation.reflTransGen_iff_eq_or_transGen.mp hxw with heq | hxw2
  · rw [← heq]; exact hw
  · exact hco2.uncached_above hxw2 hwX.reader_is_formula hw

theorem C18_invalidation_follows_the_reads_witness :
    Env.sample.Covers ∧ Sheet.Observable Env.sample Sheet.sampleRead ∧
      ((Sheet.SetCell Env.sample Sheet.sampleRead ⟨0, 1⟩ ['x']).1.implAt ⟨0, 1⟩).isCached =
        false ∧
      (∀ x, x ∈ (Sheet.SetCell Env.sample Sheet.sampleRead ⟨0, 1⟩ ['x']).1.left ⟨0, 1⟩ →
        ((Sheet.SetCell Env.sample Sheet.sampleRead ⟨0, 1⟩ ['x']).1.implAt x).isCached =
          false) :=
  have hobs : Sheet.Observable Env.sample Sheet.sampleRead :=
    Sheet.Observable.getValue _ _
      (Sheet.Observable.setCell _ _ _
        (Sheet.Observable.setCell _ _ _ Sheet.Observable.empty (by decide)) (by decide))
  have hall := (C18_invalidation_follows_the_reads Env.sample Env.sample_covers
    Sheet.sampleRead hobs).2 ⟨0, 1⟩ ['x']
      (Sheet.SetCell Env.sample Sheet.sampleRead ⟨0, 1⟩ ['x']).1 rfl
  ⟨Env.sample_covers, hobs, hall.1, hall.2.1⟩
/-! ## Termination and cost of the invalidation -/

/-- A read leaves everything but caches as it was. -/
theorem Sheet.GetValue_CacheOnly (env : Env) (s : Sheet) (pos : Position) :
    s.CacheOnly (Sheet.GetValue env s pos).1.1 := by
  unfold Sheet.GetValue
  cases hp : s.GetCellPtr pos with
  | error e => exact Sheet.CacheOnly.refl s
  | ok ptr =>
    cases ptr with
    | none => exact Sheet.CacheOnly.refl s
    | some cell => exact (Cell.GetValue_pure env s.readFuel (s, []) cell).1

/-- Every sheet reachable by `SetCell`, `ClearCell` and `GetValue` calls satisfies the
invariant of the graph, whatever the parser. -/
theorem Sheet.Observable.graph_invariant {env : Env} {s : Sheet}
    (h : Sheet.Observable env s) : s.WF := by
  induction h with
  | empty => exact Sheet.WF.empty
  | setCell s pos text _ hok ih => exact (Sheet.SetCell_WF env s pos text ih).2 hok
  | clearCell s pos _ hok ih => exact (Sheet.ClearCell_WF env s pos ih).2 hok
  | getValue s pos _ ih => exact ih.of_CacheOnly (Sheet.GetValue_CacheOnly env s pos)

/-- Every sheet reachable by `SetCell`, `ClearCell` and `GetValue` calls has formula cells
only in its dependents sets. -/
theorem Sheet.Observable.dependents_are_formulas {env : Env} {s : Sheet}
    (h : Sheet.Observable env s) : ∀ p q, q ∈ s.left p → s.formulaAt q :=
  h.graph_invariant.left_formula

/-- What `Cell::Set` does with literal text: on every sheet reachable by `SetCell`, `ClearCell` and `GetValue` calls, for
every materialized cell, at `p`, and every non-empty text `t` that is not a formula (`t`
does not begin with `=`, or `t` is exactly `=`): after `Cell::Set(t)` has returned,
`GetText` returns `t`, `GetValue` returns `t` with one leading escape marker removed if
`t` begins with it and `t` itself otherwise, and `GetReferencedCells` is empty; in
particular the escape marker followed by `=` and `r` has the value `=` followed by `r`.
The call does return whenever the pointers in `right_nods_` of the cell lead to cells. -/
theorem Cell.Set_text_spec (env : Env) (s : Sheet) (h : Sheet.Observable env s)
    (p : Position) (c : Cell) (hc : s.cell p = some c)
    (t : Str) (ht : t ≠ []) (hnf : t.head? ≠ some FORMULA_SIGN ∨ t = [FORMULA_SIGN]) :
    (∀ s2, Cell.Set env s p t = (s2, none) →
      ∃ c2, s2.cell p = some c2 ∧
        c2.impl_.GetText = t ∧ c2.impl_.GetReferencedCells = [] ∧
        (∀ n log, Cell.GetValue env (n + 1) (s2, log) p =
          ((s2, log), .ok (.text (if t.head? = some ESCAPE_SIGN then t.tail else t)))) ∧
        (∀ r, t = ESCAPE_SIGN :: FORMULA_SIGN :: r → ∀ n log,
          Cell.GetValue env (n + 1) (s2, log) p =
            ((s2, log), .ok (.text (FORMULA_SIGN :: r))))) ∧
    ((∀ q ∈ c.right_nods_, (s.cell q).isSome = true) →
      ∃ s2, Cell.Set env s p t = (s2, none)) := by
  have hself : (s.cell p).isSome = true := by rw [hc]; rfl
  have hi := Cell.makeImpl_text env t ht hnf
  constructor
  · intro s2 hset
    rcases Cell.Set_outcome env s p t (.TextImpl t) h.graph_invariant hself hi
      (Cell.CheckForCyclicity_of_nil s p (.TextImpl t) rfl) with ⟨s3, h3, _⟩ | ⟨s3, h3, hp, _⟩
    · rw [h3] at hset
      simp at hset
    · rw [h3] at hset
      have : s3 = s2 := by simpa using hset
      subst this
      have hlive : (s3.cell p).isSome = true := (hp.live p).mpr (Or.inl hself)
      obtain ⟨c2, hc2⟩ := Option.isSome_iff_exists.mp hlive
      have himpl : c2.impl_ = .TextImpl t := by
        have h2 := hp.impl p
        simp only [if_true, Sheet.implAt, hc2] at h2
        cases hci : c2.impl_ with
        | EmptyImpl => rw [hci] at h2; simp [Impl.InvalidateCache] at h2
        | TextImpl u =>
          rw [hci] at h2
          simp only [Impl.InvalidateCache, Impl.TextImpl.injEq] at h2
          rw [h2]
        | FormulaImpl g w => rw [hci] at h2; simp [Impl.InvalidateCache] at h2
      have hval : ∀ n log, Cell.GetValue env (n + 1) (s3, log) p =
          ((s3, log), .ok (.text (if t.head? = some ESCAPE_SIGN then t.tail else t))) := by
        intro n log
        rw [Cell.GetValue_text env n (s3, log) p c2 t hc2 himpl, Impl.textValue_eq]
      refine ⟨c2, hc2, ?_, ?_, hval, ?_⟩
      · rw [himpl]; rfl
      · rw [himpl]; rfl
      · intro r hr2 n log
        rw [hval n log, hr2]
        simp
  · intro hright
    have hr : ∀ x ∈ s.right p, (s.cell x).isSome = true := by
      intro x hx
      have : s.right p = c.right_nods_ := by simp [Sheet.right, hc]
      exact hright x (this ▸ hx)
    obtain ⟨s2, hset, _⟩ := Cell.Set_of_right_live env s p t (.TextImpl t)
      h.graph_invariant hself hi rfl hr
    exact ⟨s2, hset⟩

/-- C16 (violated by the code): after `SetCell(A1, "=B1")`, `SetCell(A1, "x")` and
`ClearCell(B1)` the sheet is reachable and A1 holds a materialized cell, yet `Cell::Set`
with the literal text `y` on that cell has undefined behaviour before it installs the
text: `right_nods_` of A1 still holds the pointer to the destroyed cell of B1, and
`RemoveDependenciesFrom` dereferences it. -/
theorem C16_set_text_follows_dangling_dependency :
    Sheet.Reachable Env.sample
        (Sheet.ClearCell Env.sample
          (Sheet.SetCell Env.sample
            (Sheet.SetCell Env.sample Sheet.empty ⟨0, 0⟩ ['=', 'B', '1']).1
            ⟨0, 0⟩ ['x']).1
          ⟨0, 1⟩).1 ∧
      ((Sheet.ClearCell Env.sample
          (Sheet.SetCell Env.sample
            (Sheet.SetCell Env.sample Sheet.empty ⟨0, 0⟩ ['=', 'B', '1']).1
            ⟨0, 0⟩ ['x']).1
          ⟨0, 1⟩).1.cell ⟨0, 0⟩).isSome = true ∧
      (['y'] ≠ [] ∧ ['y'].head? ≠ some FORMULA_SIGN) ∧
      (Cell.Set Env.sample
        (Sheet.ClearCell Env.sample
          (Sheet.SetCell Env.sample
            (Sheet.SetCell Env.sample Sheet.empty ⟨0, 0⟩ ['=', 'B', '1']).1
            ⟨0, 0⟩ ['x']).1
          ⟨0, 1⟩).1
        ⟨0, 0⟩ ['y']).2 = some .nullDereference ∧
      (Sheet.SetCell Env.sample
        (Sheet.ClearCell Env.sample
          (Sheet.SetCell Env.sample
            (Sheet.SetCell Env.sample Sheet.empty ⟨0, 0⟩ ['=', 'B', '1']).1
            ⟨0, 0⟩ ['x']).1
          ⟨0, 1⟩).1
        ⟨0, 0⟩ ['y']).2 = some .nullDereference :=
  ⟨Sheet.Reachable.clearCell _ _
      (Sheet.Reachable.setCell _ _ _
        (Sheet.Reachable.setCell _ _ _ Sheet.Reachable.empty (by decide)) (by decide))
      (by decide),
    by decide, ⟨by decide, by decide⟩, by decide, by decide⟩

/-! ## The map keeps one entry per position -/

theorem Res.andThen_frame {R : Sheet → Sheet → Prop} (hR : Sheet.Frame R) {s : Sheet}
    {r : Res} {f : Sheet → Res} (hr : R s r.1) (hf : ∀ s1, R s1 (f s1).1) :
    R s (r.andThen f).1 := by
  obtain ⟨s1, o⟩ := r
  cases o with
  | none => exact hR.step _ _ _ hr (hf s1)
  | some e => exact hr

theorem forEach_frame {R : Sheet → Sheet → Prop} (hR : Sheet.Frame R) {α : Type}
    (body : Sheet → α → Res) (hb : ∀ s x, R s (body s x).1) :
    ∀ (xs : List α) (s : Sheet), R s (forEach body xs s).1
  | [], s => hR.same s
  | x :: rest, s => Res.andThen_frame hR (hb s x) (fun s1 => forEach_frame hR body hb rest s1)

theorem Cell.RemoveDependency_frame {R : Sheet → Sheet → Prop} (hR : Sheet.Frame R)
    (s : Sheet) (self cell : Position) : R s (Cell.RemoveDependency s self cell).1 := by
  unfold Cell.RemoveDependency
  cases s.cell self with
  | none => exact hR.same s
  | some c => exact hR.put _ _ _

theorem Cell.AddDependency_frame {R : Sheet → Sheet → Prop} (hR : Sheet.Frame R)
    (s : Sheet) (self cell : Position) : R s (Cell.AddDependency s self cell).1 := by
  unfold Cell.AddDependency
  cases s.cell self with
  | none => exact hR.same s
  | some c => exact hR.put _ _ _

theorem Cell.RemoveDependenciesFrom_frame {R : Sheet → Sheet → Prop} (hR : Sheet.Frame R)
    (s : Sheet) (self cell : Position) : R s (Cell.RemoveDependenciesFrom s self cell).1 := by
  unfold Cell.RemoveDependenciesFrom
  cases s.cell self with
  | none => exact hR.same s
  | some c => exact forEach_frame hR _ (fun s1 x => Cell.RemoveDependency_frame hR s1 x cell) _ _

theorem Cell.DoInvalidCache_frame {R : Sheet → Sheet → Prop} (hR : Sheet.Frame R) :
    ∀ (n : Nat) (s : Sheet) (self : Position) (flag : Bool),
      R s (Cell.DoInvalidCache n s self flag).1
  | 0, s, _, _ => hR.same s
  | n + 1, s, self, flag => by
    unfold Cell.DoInvalidCache
    cases s.cell self with
    | none => exact hR.same s
    | some c =>
      simp only
      split
      · exact hR.step _ _ _ (hR.put _ _ _)
          (forEach_frame hR _ (fun s1 x => Cell.DoInvalidCache_frame hR n s1 x false) _ _)
      · exact hR.same s

theorem Cell.linkStep_frame {R : Sheet → Sheet → Prop} (hR : Sheet.Frame R)
    (SetCell : Sheet → Position → Str → Res)
    (hset : ∀ s pos text, R s (SetCell s pos text).1) (self : Position)
    (s : Sheet) (pos : Position) : R s (Cell.linkStep SetCell self s pos).1 := by
  have hlink : ∀ (s1 : Sheet) (outgoing : Position),
      R s1 (match s1.cell self with
        | none => ((s1, some Fault.nullDereference) : Res)
        | some c => Cell.AddDependency
            (s1.put self (some { c with right_nods_ := setInsert outgoing c.right_nods_ }))
            outgoing self).1 := by
    intro s1 outgoing
    cases s1.cell self with
    | none => exact hR.same s1
    | some c => exact hR.step _ _ _ (hR.put _ _ _) (Cell.AddDependency_frame hR _ _ _)
  unfold Cell.linkStep
  cases s.GetCellPtr pos with
  | error e => exact hR.same s
  | ok ptr =>
    cases ptr with
    | some outgoing => exact hlink s outgoing
    | none =>
      apply Res.andThen_frame hR (hset s pos [])
      intro s1
      cases s1.GetCellPtr pos with
      | error e => exact hR.same s1
      | ok ptr1 =>
        cases ptr1 with
        | none => exact hR.same s1
        | some outgoing => exact hlink s1 outgoing

theorem Cell.SetWith_frame {R : Sheet → Sheet → Prop} (hR : Sheet.Frame R)
    (SetCell : Sheet → Position → Str → Res)
    (hset : ∀ s pos text, R s (SetCell s pos text).1) (env : Env)
    (s : Sheet) (self : Position) (text : Str) :
    R s (Cell.SetWith SetCell env s self text).1 := by
  unfold Cell.SetWith
  cases s.cell self with
  | none => exact hR.same s
  | some c =>
    simp only
    cases Cell.makeImpl env text with
    | error e => exact hR.same s
    | ok impl =>
      simp only
      cases Cell.CheckForCyclicity s self impl with
      | error e => exact hR.same s
      | ok b =>
        cases b with
        | true => exact hR.same s
        | false =>
          simp only
          apply Res.andThen_frame hR (Cell.RemoveDependenciesFrom_frame hR s self self)
          intro s1
          cases s1.cell self with
          | none => exact hR.same s1
          | some c1 =>
            simp only
            apply Res.andThen_frame hR
            · exact hR.step _ _ _ (hR.put _ _ _)
                (forEach_frame hR _ (fun s2 x => Cell.linkStep_frame hR SetCell hset self s2 x)
                  _ _)
            · intro s3; exact Cell.DoInvalidCache_frame hR _ _ _ _

theorem Sheet.SetCellFuel_frame {R : Sheet → Sheet → Prop} (hR : Sheet.Frame R) (env : Env) :
    ∀ (n : Nat) (s : Sheet) (pos : Position) (text : Str),
      R s (Sheet.SetCellFuel env n s pos text).1
  | 0, s, _, _ => hR.same s
  | n + 1, s, pos, text => by
    unfold Sheet.SetCellFuel
    split
    · exact hR.same s
    · exact hR.step _ _ _ (hR.emplace s pos Cell.new)
        (Cell.SetWith_frame hR _ (Sheet.SetCellFuel_frame hR env n) env _ pos text)

theorem Sheet.ClearCell_frame {R : Sheet → Sheet → Prop} (hR : Sheet.Frame R) (env : Env)
    (s : Sheet) (pos : Position) : R s (Sheet.ClearCell env s pos).1 := by
  unfold Sheet.ClearCell
  split
  · exact hR.same s
  · split
    · apply Res.andThen_frame hR
      · exact Cell.SetWith_frame hR _ (Sheet.SetCellFuel_frame hR env 1) env s pos []
      · intro s1
        cases s1.cell pos with
        | none => exact hR.same s1
        | some c =>
          simp only
          split
          · exact hR.put _ _ _
          · exact hR.same s1
    · exact hR.same s

theorem Sheet.keys_put (s : Sheet) (p : Position) (w : Option Cell) :
    (s.put p w).map Prod.fst = s.map Prod.fst := by
  induction s with
  | nil => rfl
  | cons e rest ih =>
    obtain ⟨k, v⟩ := e
    by_cases hk : k = p <;> simp [Sheet.put, hk, ih]

theorem Sheet.find_of_mem_keys {s : Sheet} {q : Position} (h : q ∈ s.map Prod.fst) :
    (s.find q).isSome = true := by
  induction s with
  | nil => simp at h
  | cons e rest ih =>
    obtain ⟨k, v⟩ := e
    by_cases hk : k = q
    · simp [Sheet.find, hk]
    · simp only [List.map_cons, List.mem_cons] at h
      rcases h with h | h
      · exact absurd h.symm hk
      · simp only [Sheet.find, hk, if_false]
        exact ih h

/-- Writes through an entry and `emplace` keep the keys of the map distinct. -/
theorem Sheet.keys_frame :
    Sheet.Frame fun s s2 => (s.map Prod.fst).Nodup → (s2.map Prod.fst).Nodup where
  same := fun _ h => h
  step := fun _ _ _ h1 h2 h => h2 (h1 h)
  put := fun s p w h => by rw [Sheet.keys_put]; exact h
  emplace := fun s p c h => by
    unfold Sheet.emplace
    cases hf : s.find p with
    | some v => exact h
    | none =>
      simp only [List.map_append, List.map_cons, List.map_nil]
      rw [List.nodup_append]
      refine ⟨h, by simp, ?_⟩
      intro a ha hb
      simp only [List.mem_singleton] at hb
      subst hb
      have := Sheet.find_of_mem_keys ha
      rw [hf] at this
      cases this

theorem Sheet.CacheOnly.keys_nodup {s s2 : Sheet} (h : s.CacheOnly s2)
    (hk : (s.map Prod.fst).Nodup) : (s2.map Prod.fst).Nodup := by
  have hsub : s.map Prod.fst ⊆ s2.map Prod.fst := by
    intro q hq
    apply Sheet.mem_keys_of_find
    rw [h.slots q]
    exact Sheet.find_of_mem_keys hq
  have hsp := List.subperm_of_subset hk hsub
  have hlen : (s2.map Prod.fst).length ≤ (s.map Prod.fst).length := by
    simp [h.length]
  exact (hsp.perm_of_length_le hlen).nodup_iff.mp hk

/-- On every sheet reachable by `SetCell`, `ClearCell` and `GetValue` calls the map holds
one entry per position. -/
theorem Sheet.Observable.keys_distinct {env : Env} {s : Sheet}
    (h : Sheet.Observable env s) : (s.map Prod.fst).Nodup := by
  induction h with
  | empty => exact List.nodup_nil
  | setCell s pos text _ _ ih => exact Sheet.SetCellFuel_frame Sheet.keys_frame env 2 s pos text ih
  | clearCell s pos _ _ ih => exact Sheet.ClearCell_frame Sheet.keys_frame env s pos ih
  | getValue s pos _ ih => exact (Sheet.GetValue_CacheOnly env s pos).keys_nodup ih

end Spreadsheet
